import Mathlib

/-!
# Verification of the dogs-color metaheuristic graph-coloring solver

Shallow embedding, in Lean 4, of the parts of the `dogs-color` Rust
repository that the specification's claims are about:

* the exact integer segment-intersection predicate (`src/cgshop.rs`);
* the solution checker (`src/color.rs`);
* the DIMACS edge-count acceptance rule (`src/dimacs.rs`);
* the merge-cost computations of the two conflict-weighting local searches
  (`src/search/coloring_conflict_weighting.rs`,
  `src/search/row_weighting_local_search.rs`);
* the reactive tabu tenure (`TabuColTenure`);
* the clique partial-weighting local search
  (`src/search/clique_partial_weighting.rs`);
* the coloring partial-weighting local search
  (`src/search/coloring_partial_weighting.rs`);
* the coloring conflict-weighting local search (CWLS) and its incremental
  bookkeeping (`src/search/coloring_conflict_weighting.rs`).

Machine integers are modelled as `Nat`/`Int`; wraparound is modelled
explicitly (`% 2^w`) exactly where a claim is about overflow behaviour.
Randomness (the `fastrand`/`rand` generators) is modelled by explicit
oracle streams passed to the functions that consume random draws.
-/

set_option maxHeartbeats 1000000

namespace DogsColor

/-! ## Small helpers: functional array update -/

/-- Pointwise update of a one-dimensional array modelled as a function. -/
def fupd {α : Type} (f : Nat → α) (i : Nat) (x : α) : Nat → α :=
  fun j => if j = i then x else f j

/-- Update of a two-dimensional array modelled as a curried function. -/
def fupd2 {α : Type} (f : Nat → Nat → α) (i j : Nat) (x : α) : Nat → Nat → α :=
  fun a b => if a = i ∧ b = j then x else f a b

/-- Add `δ` to entry `i` of a one-dimensional `Int` array. -/
def fupdAdd (f : Nat → Int) (i : Nat) (δ : Int) : Nat → Int :=
  fupd f i (f i + δ)

/-- Add `δ` to entry `(i,j)` of a two-dimensional `Int` array. -/
def fupd2Add (f : Nat → Nat → Int) (i j : Nat) (δ : Int) : Nat → Nat → Int :=
  fupd2 f i j (f i j + δ)

theorem fupd_same {α : Type} (f : Nat → α) (i : Nat) (x : α) : fupd f i x i = x := by
  simp [fupd]

theorem fupd_other {α : Type} (f : Nat → α) (i j : Nat) (x : α) (h : j ≠ i) :
    fupd f i x j = f j := by
  simp [fupd, h]

theorem fupd2Add_apply (f : Nat → Nat → Int) (i j : Nat) (δ : Int) (a b : Nat) :
    fupd2Add f i j δ a b = f a b + (if a = i ∧ b = j then δ else 0) := by
  by_cases h : a = i ∧ b = j
  · obtain ⟨h1, h2⟩ := h
    subst h1; subst h2
    simp [fupd2Add, fupd2]
  · simp [fupd2Add, fupd2, h]

theorem fupdAdd_apply (f : Nat → Int) (i : Nat) (δ : Int) (a : Nat) :
    fupdAdd f i δ a = f a + (if a = i then δ else 0) := by
  by_cases h : a = i
  · subst h; simp [fupdAdd, fupd]
  · simp [fupdAdd, fupd, h]

/-! ## Segment intersection predicate (`src/cgshop.rs`)

Translation of `orientation`, `on_segment` and `are_intersecting`.
Coordinates are `i64` in the source; all products fit easily in 64 bits for
the coordinate magnitudes of the CGSHOP instances, so the arithmetic is
modelled over `Int`. -/

/-- 3 point orientation (either collinear, clockwise or counterclockwise);
translation of `enum Orientation`. -/
inductive Orientation : Type
  | Collinear : Orientation
  | Clockwise : Orientation
  | CounterClockwise : Orientation
deriving DecidableEq, Repr

/-- Translation of `fn orientation` (`src/cgshop.rs:273`). -/
def orientation (p q r : Int × Int) : Orientation :=
  let val : Int := (q.2 - p.2) * (r.1 - q.1) - (q.1 - p.1) * (r.2 - q.2)
  if val = 0 then Orientation.Collinear
  else if val > 0 then Orientation.Clockwise
  else Orientation.CounterClockwise

/-- Translation of `fn on_segment` (`src/cgshop.rs:282`). -/
def on_segment (p q r : Int × Int) : Bool :=
  decide (q.1 ≤ max p.1 r.1 ∧ q.1 ≥ min p.1 r.1 ∧ q.2 ≤ max p.2 r.2 ∧ q.2 ≥ min p.2 r.2)

/-- Translation of `fn are_intersecting` (`src/cgshop.rs:291`): returns true
iff segments `(p1,q1)` and `(p2,q2)` intersect (with the special
shared-endpoint handling of the source). -/
def are_intersecting (s1 s2 : (Int × Int) × (Int × Int)) : Bool :=
  let p1 := s1.1
  let q1 := s1.2
  let p2 := s2.1
  let q2 := s2.2
  let o1 := orientation p1 q1 p2
  let o2 := orientation p1 q1 q2
  if p1 = p2 ∨ p1 = q2 ∨ q1 = p2 ∨ q1 = q2 then -- check if same points
    decide ((o1 = Orientation.Collinear ∧ p1 ≠ p2 ∧ q1 ≠ p2) ∨
            (o2 = Orientation.Collinear ∧ p1 ≠ q2 ∧ q1 ≠ q2))
  else
    let o3 := orientation p2 q2 p1
    let o4 := orientation p2 q2 q1
    if o1 ≠ o2 ∧ o3 ≠ o4 then true
    else if o1 = Orientation.Collinear ∧ on_segment p1 p2 q1 then true
    else if o2 = Orientation.Collinear ∧ on_segment p1 q2 q1 then true
    else if o3 = Orientation.Collinear ∧ on_segment p2 p1 q2 then true
    else if o4 = Orientation.Collinear ∧ on_segment p2 q1 q2 then true
    else false

/-- Spec-side notion used by the claim about shared endpoints: a point `r`
with rational coordinates lies on the closed segment `s` (collinear with the
endpoints and inside their bounding box). -/
def onSegQ (s : (ℚ × ℚ) × (ℚ × ℚ)) (r : ℚ × ℚ) : Prop :=
  (s.2.2 - s.1.2) * (r.1 - s.2.1) - (s.2.1 - s.1.1) * (r.2 - s.2.2) = 0 ∧
  min s.1.1 s.2.1 ≤ r.1 ∧ r.1 ≤ max s.1.1 s.2.1 ∧
  min s.1.2 s.2.2 ≤ r.2 ∧ r.2 ≤ max s.1.2 s.2.2

/-- The two segments share exactly one endpoint (counting coincidences of
endpoint pairs). -/
def sharesExactlyOneEndpoint (s1 s2 : (Int × Int) × (Int × Int)) : Prop :=
  (if s1.1 = s2.1 then 1 else 0) + (if s1.1 = s2.2 then 1 else 0) +
  (if s1.2 = s2.1 then 1 else 0) + (if s1.2 = s2.2 then (1 : Nat) else 0) = 1

/-- The intersection of the two closed segments contains at most the single
point `pt`; in particular it has no positive-length portion. -/
def meetsOnlyAt (s1 s2 : (ℚ × ℚ) × (ℚ × ℚ)) (pt : ℚ × ℚ) : Prop :=
  ∀ r : ℚ × ℚ, onSegQ s1 r → onSegQ s2 r → r = pt

/-- C2 counterexample: the horizontal segments `(0,0)-(2,0)` and
`(5,0)-(2,0)` share exactly the endpoint `(2,0)`, are collinear, and touch
end-to-end: their intersection is the single point `(2,0)`, so they do not
overlap on a portion of positive length. The claim therefore requires
`are_intersecting` to return `false`; the code returns `true` (the
shared-endpoint branch only tests collinearity, not overlap). -/
theorem C2_counterexample :
    sharesExactlyOneEndpoint ((0, 0), (2, 0)) ((5, 0), (2, 0)) ∧
    meetsOnlyAt (((0 : ℚ), (0 : ℚ)), ((2 : ℚ), (0 : ℚ)))
      (((5 : ℚ), (0 : ℚ)), ((2 : ℚ), (0 : ℚ))) ((2 : ℚ), (0 : ℚ)) ∧
    are_intersecting ((0, 0), (2, 0)) ((5, 0), (2, 0)) = true := by
  refine ⟨by simp [sharesExactlyOneEndpoint, Prod.ext_iff], ?_, by decide⟩
  rintro ⟨r1, r2⟩ h1 h2
  simp only [onSegQ] at h1 h2
  obtain ⟨hc1, ha1, ha2, ha3, ha4⟩ := h1
  obtain ⟨hc2, hb1, hb2, hb3, hb4⟩ := h2
  simp only [Prod.mk.injEq]
  norm_num at hc1 ha1 ha2 ha3 ha4 hb1 hb2 hb3 hb4 ⊢
  constructor <;> linarith

/-- C2 amended claim: when the two segments share at least one endpoint,
`are_intersecting` returns true iff one of the endpoints of the second
segment, distinct from both endpoints of the first, is collinear with the
first segment — regardless of whether the overlap has positive length (so
collinear end-to-end touching is reported as an intersection). -/
theorem C2_shared_endpoint_amended (p1 q1 p2 q2 : Int × Int)
    (h : p1 = p2 ∨ p1 = q2 ∨ q1 = p2 ∨ q1 = q2) :
    are_intersecting (p1, q1) (p2, q2) = true ↔
      ((orientation p1 q1 p2 = Orientation.Collinear ∧ p1 ≠ p2 ∧ q1 ≠ p2) ∨
       (orientation p1 q1 q2 = Orientation.Collinear ∧ p1 ≠ q2 ∧ q1 ≠ q2)) := by
  simp [are_intersecting, h]

/-- Witness for the C2 amended theorem at the spec's own test input: the
perpendicular segments `(0,0)-(0,5)` and `(0,0)-(5,0)` sharing `(0,0)` are
not in conflict. -/
theorem C2_shared_endpoint_amended_witness :
    (((0, 0) : Int × Int) = ((0, 0) : Int × Int) ∨ ((0, 0) : Int × Int) = ((5, 0) : Int × Int) ∨
     ((0, 5) : Int × Int) = ((0, 0) : Int × Int) ∨ ((0, 5) : Int × Int) = ((5, 0) : Int × Int)) ∧
    (are_intersecting ((0, 0), (0, 5)) ((0, 0), (5, 0)) = true ↔
      ((orientation (0, 0) (0, 5) (0, 0) = Orientation.Collinear ∧
          ((0, 0) : Int × Int) ≠ (0, 0) ∧ ((0, 5) : Int × Int) ≠ (0, 0)) ∨
       (orientation (0, 0) (0, 5) (5, 0) = Orientation.Collinear ∧
          ((0, 0) : Int × Int) ≠ (5, 0) ∧ ((0, 5) : Int × Int) ≠ (5, 0)))) :=
  ⟨by decide, C2_shared_endpoint_amended (0, 0) (0, 5) (0, 0) (5, 0) (by decide)⟩

/-! ## DIMACS reading (`src/dimacs.rs`) -/

/-- Edge insertion of the read loop:
`adj_list[a].push(b)` (0-based indices here). -/
def pushEdge (adj : Nat → List Nat) (a b : Nat) : Nat → List Nat :=
  fupd adj a (adj a ++ [b])

/-- Translation of `read_from_file` (`src/dimacs.rs:129`) after the header
`p edge n m` (or `p col n m`) and the `e i j` lines have been tokenised:
`edges` is the list of 1-based endpoint pairs of the `e` lines, in order.
`none` models a panic: an out-of-range endpoint index, or the final
`assert!(check_nb_edges == m || 2*check_nb_edges == m)` failing. -/
def read_from_file (n m : Nat) (edges : List (Nat × Nat)) : Option (Nat → List Nat) :=
  if edges.all (fun e => decide (1 ≤ e.1 ∧ e.1 ≤ n ∧ 1 ≤ e.2 ∧ e.2 ≤ n)) then
    if edges.length = m ∨ 2 * edges.length = m then
      some (edges.foldl
        (fun adj e => pushEdge (pushEdge adj (e.1 - 1) (e.2 - 1)) (e.2 - 1) (e.1 - 1))
        (fun _ => []))
    else none
  else none

/-- C5 counterexample: a file declaring `p edge 2 1` followed by the two
edge lines `e 1 2` and `e 2 1` (both directions of the single edge, i.e.
`2m` edge lines) is rejected by the code (`assert` fails: `2 ≠ 1` and
`2·2 ≠ 1`), while the claim says an edge-line count of `2m` is accepted. -/
theorem C5_counterexample :
    (read_from_file 2 1 [(1, 2), (2, 1)]).isSome = false ∧
    [((1 : Nat), (2 : Nat)), (2, 1)].length = 2 * 1 :=
  ⟨rfl, rfl⟩

/-- C5 amended claim: the reader accepts exactly when the number of parsed
edge lines equals `m` or equals `m / 2` with `m` even (the assert is
`check == m || 2 * check == m`) — not `2m` as the claim states. -/
theorem C5_edge_count_amended (n m : Nat) (edges : List (Nat × Nat))
    (hvalid : edges.all (fun e => decide (1 ≤ e.1 ∧ e.1 ≤ n ∧ 1 ≤ e.2 ∧ e.2 ≤ n)) = true) :
    (read_from_file n m edges).isSome = true ↔
      (edges.length = m ∨ 2 * edges.length = m) := by
  rw [read_from_file, if_pos hvalid]
  by_cases h : edges.length = m ∨ 2 * edges.length = m
  · simp [h]
  · simp [h]

/-- Witness for the C5 amended theorem: with header `p edge 2 2` and the two
edge lines `e 1 2`, `e 2 1`, the count equals `m` and the file is accepted. -/
theorem C5_edge_count_amended_witness :
    ([((1 : Nat), (2 : Nat)), (2, 1)].all
        (fun e => decide (1 ≤ e.1 ∧ e.1 ≤ 2 ∧ 1 ≤ e.2 ∧ e.2 ≤ 2)) = true) ∧
    ((read_from_file 2 2 [(1, 2), (2, 1)]).isSome = true ↔
      ([((1 : Nat), (2 : Nat)), (2, 1)].length = 2 ∨
       2 * [((1 : Nat), (2 : Nat)), (2, 1)].length = 2)) :=
  ⟨by decide, C5_edge_count_amended 2 2 [(1, 2), (2, 1)] (by decide)⟩

/-! ## Merge-cost computation (C6)

Two revisions of the CWLS compute the cost of merging color class `class1`
into color `i2` from the 16-bit aggregates `weights_neigh_colors[u][i2]`
(`wnc2 u` below). -/

/-- Merge cost as computed by `merge_colors` in
`coloring_conflict_weighting.rs` (line 181): a plain `u16` sum
(`Weight = u16`), with wraparound on overflow and *no* clamp. -/
def mergeCostCCW (class1 : List Nat) (wnc2 : Nat → Nat) : Nat :=
  class1.foldl (fun acc u => (acc + wnc2 u) % 65536) 0

/-- The mathematical (unbounded) value of the same sum. -/
def mergeCostExact (class1 : List Nat) (wnc2 : Nat → Nat) : Nat :=
  (class1.map wnc2).sum

/-- Merge cost as computed by `merge_colors` in
`row_weighting_local_search.rs` (lines 171-172): the aggregates are summed in
`u32` and the result clamped at `u16::MAX`. -/
def mergeCostRWLS (class1 : List Nat) (wnc2 : Nat → Nat) : Nat :=
  let large := class1.foldl (fun acc u => (acc + wnc2 u) % 4294967296) 0
  if large > 65535 then 65535 else large

/-- C6 counterexample: for a two-vertex class whose 16-bit aggregates are
both `40000` (well-formed `u16` values reachable after weight growth), the
true merge cost is `80000 > u16::MAX`. The `coloring_conflict_weighting`
version sums directly in `u16` with no clamp: it overflows (wrapping to
`14464`, and panicking in a debug build), instead of clamping to `65535`
as the claim states. -/
theorem C6_counterexample :
    mergeCostCCW [0, 1] (fun _ => 40000) = 14464 ∧
    mergeCostExact [0, 1] (fun _ => 40000) = 80000 ∧
    65535 < mergeCostExact [0, 1] (fun _ => 40000) ∧
    mergeCostCCW [0, 1] (fun _ => 40000) ≠ mergeCostRWLS [0, 1] (fun _ => 40000) := by
  refine ⟨rfl, rfl, by norm_num [mergeCostExact], by decide⟩

/-- C6 amended claim: only the `row_weighting_local_search` revision clamps
the merge cost at `u16::MAX` (after summing in `u32`); that computation
indeed never exceeds the 16-bit maximum. The
`coloring_conflict_weighting` revision has no clamp and its `u16` sum can
overflow. -/
theorem C6_merge_cost_amended (class1 : List Nat) (wnc2 : Nat → Nat) :
    mergeCostRWLS class1 wnc2 ≤ 65535 := by
  rw [mergeCostRWLS]
  split_ifs with h
  · exact le_refl _
  · omega

/-! ## Reactive tabu tenure (`TabuColTenure`,
`src/search/coloring_conflict_weighting.rs:44`) -/

/-- Truncation toward zero of a rational, the semantics of Rust's `as i64`
cast applied to the product `lambda * f` (the `f64` rounding of that product
agrees with the exact rational value for all magnitudes the solver can
reach). -/
def i64TruncOfRat (q : ℚ) : Int := if 0 ≤ q then ⌊q⌋ else ⌈q⌉

/-- State of `TabuColTenure`: `decisions[v][c]` is the last iteration at
which the decision was taken (initially `i64::MIN`), `nb_iter` the global
iteration counter and `threshold` the current tenure length. `lambda` is the
λ parameter (a `f64` in the source, exactly representable here). -/
structure TabuColTenure where
  l : Nat
  lambda : ℚ
  nb_iter : Int
  decisions : Nat → Nat → Int
  threshold : Int

/-- `TabuColTenure::new(l, lambda, n, c)`: `n` and `c` size the `decisions`
matrix (modelled as a total function, every entry `i64::MIN`). -/
def TabuColTenure.new (l : Nat) (lambda : ℚ) (_n _c : Nat) : TabuColTenure :=
  { l := l
    lambda := lambda
    nb_iter := 0
    decisions := fun _ _ => -(2 ^ 63)
    threshold := 0 }

/-- `TabuTenure::insert` for `TabuColTenure`: records the current iteration
for the key `(v, c)` (`d.vertex`, `d.previous_color` at the call site) and
recomputes `threshold` from a fresh random draw `r` (the value of
`rng.i64(0..l)`) plus the truncated product `lambda * f`, where `f` is the
node's `nb_conflicts`. -/
def TabuColTenure.insert (t : TabuColTenure) (v c : Nat) (f : Int) (r : Int) :
    TabuColTenure :=
  { t with
    decisions := fupd2 t.decisions v c t.nb_iter
    threshold := r + i64TruncOfRat (t.lambda * (f : ℚ)) }

/-- `TabuTenure::contains` for `TabuColTenure`: the key `(v, c)` is
`(d.vertex, d.next_color)` at the call site. -/
def TabuColTenure.contains (t : TabuColTenure) (v c : Nat) : Bool :=
  decide (t.decisions v c ≥ t.nb_iter - t.threshold)

/-- `TabuColTenure::increment_iter`. -/
def TabuColTenure.increment_iter (t : TabuColTenure) : TabuColTenure :=
  { t with nb_iter := t.nb_iter + 1 }

/-- C8: `insert` records the current iteration counter as the last-use
iteration of the given (vertex, color) key and leaves every other key
unchanged; the new threshold is the random draw (an integer in `[0, L]` —
the code draws from `[0, L)`) plus `⌊λ · f⌋`; `contains` is true iff the
key's recorded last-use iteration is `≥ iter − threshold`; `increment_iter`
adds exactly one to the iteration counter and changes nothing else. -/
theorem C8_tabu_tenure (t : TabuColTenure) (v c : Nat) (f r : Int)
    (hr0 : 0 ≤ r) (hrl : r < (t.l : Int)) (hf : 0 ≤ f) (hlam : 0 ≤ t.lambda) :
    ((t.insert v c f r).decisions v c = t.nb_iter) ∧
    (∀ v' c', ¬(v' = v ∧ c' = c) → (t.insert v c f r).decisions v' c' = t.decisions v' c') ∧
    ((t.insert v c f r).threshold = r + ⌊t.lambda * (f : ℚ)⌋ ∧ 0 ≤ r ∧ r ≤ (t.l : Int)) ∧
    ((t.insert v c f r).nb_iter = t.nb_iter ∧ (t.insert v c f r).l = t.l ∧
     (t.insert v c f r).lambda = t.lambda) ∧
    (∀ t' : TabuColTenure, ∀ v' c',
      (t'.contains v' c' = true ↔ t'.nb_iter - t'.threshold ≤ t'.decisions v' c')) ∧
    (∀ t' : TabuColTenure,
      (t'.increment_iter).nb_iter = t'.nb_iter + 1 ∧
      (t'.increment_iter).decisions = t'.decisions ∧
      (t'.increment_iter).threshold = t'.threshold ∧
      (t'.increment_iter).l = t'.l ∧ (t'.increment_iter).lambda = t'.lambda) := by
  refine ⟨?_, ?_, ⟨?_, hr0, le_of_lt hrl⟩, ⟨rfl, rfl, rfl⟩, ?_, ?_⟩
  · simp [TabuColTenure.insert, fupd2]
  · intro v' c' h
    simp only [TabuColTenure.insert, fupd2]
    rw [if_neg h]
  · have hq : (0 : ℚ) ≤ t.lambda * (f : ℚ) := by
      apply mul_nonneg hlam
      exact_mod_cast hf
    simp [TabuColTenure.insert, i64TruncOfRat, hq]
  · intro t' v' c'
    simp [TabuColTenure.contains, ge_iff_le]
  · intro t'
    exact ⟨rfl, rfl, rfl, rfl, rfl⟩

/-- Witness for C8 at a concrete tenure state and inputs. -/
theorem C8_tabu_tenure_witness :
    (0 ≤ (7 : Int)) ∧ ((7 : Int) < ((TabuColTenure.new 10 (3/5) 5 3).l : Int)) ∧
    (0 ≤ (4 : Int)) ∧ (0 ≤ (TabuColTenure.new 10 (3/5) 5 3).lambda) ∧
    ((((TabuColTenure.new 10 (3/5) 5 3).insert 1 2 4 7).decisions 1 2 =
        (TabuColTenure.new 10 (3/5) 5 3).nb_iter) ∧
     (∀ v' c', ¬(v' = 1 ∧ c' = 2) →
        ((TabuColTenure.new 10 (3/5) 5 3).insert 1 2 4 7).decisions v' c' =
          (TabuColTenure.new 10 (3/5) 5 3).decisions v' c') ∧
     (((TabuColTenure.new 10 (3/5) 5 3).insert 1 2 4 7).threshold =
        7 + ⌊(TabuColTenure.new 10 (3/5) 5 3).lambda * ((4 : Int) : ℚ)⌋ ∧
      0 ≤ (7 : Int) ∧ (7 : Int) ≤ ((TabuColTenure.new 10 (3/5) 5 3).l : Int)) ∧
     (((TabuColTenure.new 10 (3/5) 5 3).insert 1 2 4 7).nb_iter =
        (TabuColTenure.new 10 (3/5) 5 3).nb_iter ∧
      ((TabuColTenure.new 10 (3/5) 5 3).insert 1 2 4 7).l =
        (TabuColTenure.new 10 (3/5) 5 3).l ∧
      ((TabuColTenure.new 10 (3/5) 5 3).insert 1 2 4 7).lambda =
        (TabuColTenure.new 10 (3/5) 5 3).lambda) ∧
     (∀ t' : TabuColTenure, ∀ v' c',
        (t'.contains v' c' = true ↔ t'.nb_iter - t'.threshold ≤ t'.decisions v' c')) ∧
     (∀ t' : TabuColTenure,
        (t'.increment_iter).nb_iter = t'.nb_iter + 1 ∧
        (t'.increment_iter).decisions = t'.decisions ∧
        (t'.increment_iter).threshold = t'.threshold ∧
        (t'.increment_iter).l = t'.l ∧ (t'.increment_iter).lambda = t'.lambda)) :=
  ⟨by norm_num, by norm_num [TabuColTenure.new], by norm_num,
   by norm_num [TabuColTenure.new],
   C8_tabu_tenure (TabuColTenure.new 10 (3/5) 5 3) 1 2 4 7 (by norm_num)
     (by norm_num [TabuColTenure.new]) (by norm_num)
     (by norm_num [TabuColTenure.new])⟩

/-! ## Graph interface (`ColoringInstance` / `Instance`)

A graph with `n` vertices and a boolean adjacency oracle, together with the
data-model invariants stated in the spec (§3): symmetry, no self-loop,
in-range endpoints. -/

/-- Abstract instance: vertex count and adjacency oracle. -/
structure Graph where
  n : Nat
  adj : Nat → Nat → Bool
  symm : ∀ u v, adj u v = adj v u
  loopless : ∀ u, adj u u = false
  bounded : ∀ u v, adj u v = true → u < n ∧ v < n

/-- `neighbors(v)`: the (sorted) list of neighbors of `v`. -/
def Graph.neighbors (g : Graph) (v : Nat) : List Nat :=
  (List.range g.n).filter (fun u => g.adj v u)

theorem Graph.mem_neighbors (g : Graph) (v u : Nat) :
    u ∈ g.neighbors v ↔ g.adj v u = true := by
  constructor
  · intro h
    exact (List.mem_filter.mp h).2
  · intro h
    refine List.mem_filter.mpr ⟨List.mem_range.mpr ?_, h⟩
    exact (g.bounded v u h).2

theorem Graph.neighbors_nodup (g : Graph) (v : Nat) : (g.neighbors v).Nodup :=
  (List.nodup_range _).filter _

theorem Graph.self_not_mem_neighbors (g : Graph) (v : Nat) : v ∉ g.neighbors v := by
  intro h
  have := (g.mem_neighbors v v).mp h
  rw [g.loopless v] at this
  exact Bool.false_ne_true this

/-- A small concrete instance (the path `0 - 1 - 2`), used by the witnesses. -/
def pathGraph : Graph where
  n := 3
  adj := fun u v =>
    decide ((u = 0 ∧ v = 1) ∨ (u = 1 ∧ v = 0) ∨ (u = 1 ∧ v = 2) ∨ (u = 2 ∧ v = 1))
  symm := by
    intro u v
    rw [decide_eq_decide]
    tauto
  loopless := by
    intro u
    simp only [decide_eq_false_iff_not]
    omega
  bounded := by
    intro u v h
    simp only [decide_eq_true_eq] at h
    omega

/-! ## Solution checker (`src/color.rs:165`)

The checker first scans all classes recording visited vertices (returning
`VertexAddedTwice` on a repeat), then compares the visited count with `n`
(returning `VertexNotColored` for the first uncovered vertex), then scans
each class for an adjacent pair (`ConflictingEdge`), and finally returns
`Ok(sol.len())`. -/

/-- Translation of `enum CheckerResult` (`src/color.rs:150`). -/
inductive CheckerResult : Type
  | Ok : Nat → CheckerResult
  | VertexAddedTwice : Nat → CheckerResult
  | VertexNotColored : Nat → CheckerResult
  | ConflictingEdge : Nat → Nat → CheckerResult
deriving DecidableEq, Repr

/-- The visited-set scan over one class: returns the first vertex already
visited (`Sum.inl`) or the updated visited set (`Sum.inr`; the Rust `BitSet`
is modelled by a duplicate-free list, newest first). -/
def visitClass (visited : List Nat) : List Nat → Sum Nat (List Nat)
  | [] => Sum.inr visited
  | v :: vs => if v ∈ visited then Sum.inl v else visitClass (v :: visited) vs

/-- The visited-set scan over all classes. -/
def visitAll (visited : List Nat) : List (List Nat) → Sum Nat (List Nat)
  | [] => Sum.inr visited
  | c :: cs =>
    match visitClass visited c with
    | Sum.inl v => Sum.inl v
    | Sum.inr visited' => visitAll visited' cs

/-- The scan `for v in 0..n { if !visited.contains(v) ... }`. -/
def firstUncovered (n : Nat) (visited : List Nat) : Option Nat :=
  (List.range n).find? (fun v => !(visited.contains v))

/-- The conflict scan inside one class (`for v1 in c { for v2 in c ... }`). -/
def classConflict (g : Graph) (cl : List Nat) : Option (Nat × Nat) :=
  cl.findSome? (fun v1 =>
    cl.findSome? (fun v2 => if g.adj v1 v2 then some (v1, v2) else none))

/-- The conflict scan over all classes. -/
def solConflict (g : Graph) (sol : List (List Nat)) : Option (Nat × Nat) :=
  sol.findSome? (classConflict g)

/-- Translation of `checker` (`src/color.rs:165`). `none` models the
`panic!("checker: internal error")` arm (reachable only when the solution
mentions out-of-range vertices). -/
def checker (g : Graph) (sol : List (List Nat)) : Option CheckerResult :=
  match visitAll [] sol with
  | Sum.inl v => some (CheckerResult.VertexAddedTwice v)
  | Sum.inr visited =>
    if visited.length ≠ g.n then
      match firstUncovered g.n visited with
      | some v => some (CheckerResult.VertexNotColored v)
      | none => none
    else
      match solConflict g sol with
      | some (u, v) => some (CheckerResult.ConflictingEdge u v)
      | none => some (CheckerResult.Ok sol.length)

theorem visitClass_inr_iff (c : List Nat) (visited r : List Nat) :
    visitClass visited c = Sum.inr r ↔
      (c.Nodup ∧ (∀ v ∈ c, v ∉ visited) ∧ r = c.reverse ++ visited) := by
  induction c generalizing visited with
  | nil => simp [visitClass, eq_comm]
  | cons v vs ih =>
    by_cases hv : v ∈ visited
    · simp [visitClass, hv]
    · rw [visitClass, if_neg hv, ih]
      constructor
      · rintro ⟨h1, h2, h3⟩
        refine ⟨List.nodup_cons.mpr ⟨?_, h1⟩, ?_, ?_⟩
        · intro hmem
          exact (h2 v hmem) (List.mem_cons_self v visited)
        · intro u hu
          rcases List.mem_cons.mp hu with h | h
          · subst h; exact hv
          · intro habs
            exact (h2 u h) (List.mem_cons_of_mem v habs)
        · rw [h3]; simp
      · rintro ⟨h1, h2, h3⟩
        rw [List.nodup_cons] at h1
        refine ⟨h1.2, ?_, ?_⟩
        · intro u hu
          intro habs
          rcases List.mem_cons.mp habs with h | h
          · subst h; exact h1.1 hu
          · exact (h2 u (List.mem_cons_of_mem v hu)) h
        · rw [h3]; simp

theorem visitClass_inl (c : List Nat) (visited : List Nat) (w : Nat)
    (h : visitClass visited c = Sum.inl w) :
    (w ∈ visited ∧ w ∈ c) ∨ 2 ≤ c.count w := by
  induction c generalizing visited with
  | nil => simp [visitClass] at h
  | cons v vs ih =>
    by_cases hv : v ∈ visited
    · rw [visitClass, if_pos hv] at h
      injection h with h
      subst h
      exact Or.inl ⟨hv, List.mem_cons_self _ _⟩
    · rw [visitClass, if_neg hv] at h
      rcases ih (v :: visited) h with ⟨hw1, hw2⟩ | hw
      · rcases List.mem_cons.mp hw1 with h1 | h1
        · subst h1
          right
          rw [List.count_cons_self]
          have : 1 ≤ vs.count w := List.one_le_count_iff.mpr hw2
          omega
        · exact Or.inl ⟨h1, List.mem_cons_of_mem v hw2⟩
      · right
        rw [List.count_cons]
        omega

theorem visitAll_inr_iff (sol : List (List Nat)) (visited r : List Nat) :
    visitAll visited sol = Sum.inr r ↔
      (sol.flatten.Nodup ∧ (∀ v ∈ sol.flatten, v ∉ visited) ∧
        r = sol.flatten.reverse ++ visited) := by
  induction sol generalizing visited with
  | nil => simp [visitAll, eq_comm]
  | cons c cs ih =>
    rw [visitAll]
    rcases hvc : visitClass visited c with w2 | visited2
    · constructor
      · intro h
        exact absurd h (by simp)
      · rintro ⟨h1, h2, h3⟩
        exfalso
        rw [List.flatten_cons, List.nodup_append] at h1
        have hn : visitClass visited c = Sum.inr (c.reverse ++ visited) := by
          rw [visitClass_inr_iff]
          refine ⟨h1.1, fun v hv => h2 v ?_, rfl⟩
          rw [List.flatten_cons]
          exact List.mem_append_left _ hv
        rw [hvc] at hn
        exact absurd hn (by simp)
    · rw [visitClass_inr_iff] at hvc
      obtain ⟨hc1, hc2, hc3⟩ := hvc
      subst hc3
      rw [ih]
      constructor
      · rintro ⟨h1, h2, h3⟩
        have hdisj : c.Disjoint cs.flatten := by
          intro a hac haf
          refine h2 a haf ?_
          rw [List.mem_append, List.mem_reverse]
          exact Or.inl hac
        refine ⟨?_, ?_, ?_⟩
        · rw [List.flatten_cons, List.nodup_append]
          exact ⟨hc1, h1, hdisj⟩
        · intro v hv
          rw [List.flatten_cons, List.mem_append] at hv
          rcases hv with hv | hv
          · exact hc2 v hv
          · intro habs
            refine h2 v hv ?_
            rw [List.mem_append]
            exact Or.inr habs
        · rw [h3, List.flatten_cons, List.reverse_append, List.append_assoc]
      · rintro ⟨h1, h2, h3⟩
        rw [List.flatten_cons, List.nodup_append] at h1
        obtain ⟨hn1, hn2, hn3⟩ := h1
        refine ⟨hn2, ?_, ?_⟩
        · intro v hv habs
          rw [List.mem_append, List.mem_reverse] at habs
          rcases habs with habs | habs
          · exact hn3 habs hv
          · refine h2 v ?_ habs
            rw [List.flatten_cons, List.mem_append]
            exact Or.inr hv
        · rw [h3, List.flatten_cons, List.reverse_append, List.append_assoc]

theorem visitAll_inl (sol : List (List Nat)) (visited : List Nat) (w : Nat)
    (h : visitAll visited sol = Sum.inl w) :
    (w ∈ visited ∧ w ∈ sol.flatten) ∨ 2 ≤ sol.flatten.count w := by
  induction sol generalizing visited with
  | nil => simp [visitAll] at h
  | cons c cs ih =>
    rw [visitAll] at h
    rcases hvc : visitClass visited c with w2 | visited2
    · rw [hvc] at h
      injection h with h
      subst h
      rcases visitClass_inl c visited w2 hvc with ⟨h1, h2⟩ | h1
      · refine Or.inl ⟨h1, ?_⟩
        rw [List.flatten_cons, List.mem_append]
        exact Or.inl h2
      · right
        rw [List.flatten_cons, List.count_append]
        omega
    · rw [hvc] at h
      rw [visitClass_inr_iff] at hvc
      obtain ⟨hc1, hc2, hc3⟩ := hvc
      subst hc3
      rcases ih _ h with ⟨h1, h2⟩ | h1
      · rw [List.mem_append, List.mem_reverse] at h1
        rcases h1 with h1 | h1
        · right
          rw [List.flatten_cons, List.count_append]
          have hcc : 0 < c.count w := List.count_pos_iff.mpr h1
          have hcs : 0 < cs.flatten.count w := List.count_pos_iff.mpr h2
          omega
        · refine Or.inl ⟨h1, ?_⟩
          rw [List.flatten_cons, List.mem_append]
          exact Or.inr h2
      · right
        rw [List.flatten_cons, List.count_append]
        omega

theorem classConflict_eq_none_iff (g : Graph) (cl : List Nat) :
    classConflict g cl = none ↔ ∀ u ∈ cl, ∀ v ∈ cl, g.adj u v = false := by
  rw [classConflict, List.findSome?_eq_none_iff]
  constructor
  · intro h u hu v hv
    have := h u hu
    rw [List.findSome?_eq_none_iff] at this
    have := this v hv
    by_cases hadj : g.adj u v
    · rw [if_pos hadj] at this
      exact absurd this (by simp)
    · exact Bool.eq_false_iff.mpr hadj
  · intro h u hu
    rw [List.findSome?_eq_none_iff]
    intro v hv
    rw [h u hu v hv]
    simp

theorem classConflict_eq_some (g : Graph) (cl : List Nat) (u v : Nat)
    (h : classConflict g cl = some (u, v)) :
    g.adj u v = true ∧ u ∈ cl ∧ v ∈ cl := by
  rw [classConflict] at h
  obtain ⟨a, ha, hfa⟩ := List.exists_of_findSome?_eq_some h
  obtain ⟨b, hb, hfb⟩ := List.exists_of_findSome?_eq_some hfa
  by_cases hadj : g.adj a b
  · rw [if_pos hadj] at hfb
    injection hfb with hfb
    obtain ⟨h1, h2⟩ := Prod.mk.injEq .. ▸ (hfb ▸ rfl : ((a, b) : Nat × Nat) = (u, v))
    subst h1; subst h2
    exact ⟨hadj, ha, hb⟩
  · rw [if_neg hadj] at hfb
    exact absurd hfb (by simp)

theorem solConflict_eq_none_iff (g : Graph) (sol : List (List Nat)) :
    solConflict g sol = none ↔
      ∀ cl ∈ sol, ∀ u ∈ cl, ∀ v ∈ cl, g.adj u v = false := by
  rw [solConflict, List.findSome?_eq_none_iff]
  constructor
  · intro h cl hcl
    exact (classConflict_eq_none_iff g cl).mp (h cl hcl)
  · intro h cl hcl
    exact (classConflict_eq_none_iff g cl).mpr (h cl hcl)

theorem solConflict_eq_some (g : Graph) (sol : List (List Nat)) (u v : Nat)
    (h : solConflict g sol = some (u, v)) :
    g.adj u v = true ∧ ∃ cl ∈ sol, u ∈ cl ∧ v ∈ cl := by
  rw [solConflict] at h
  obtain ⟨cl, hcl, hf⟩ := List.exists_of_findSome?_eq_some h
  obtain ⟨hadj, hu, hv⟩ := classConflict_eq_some g cl u v hf
  exact ⟨hadj, cl, hcl, hu, hv⟩

/-- Every class of the solution is an independent set (no two of its members
are adjacent). -/
def properClasses (g : Graph) (sol : List (List Nat)) : Prop :=
  ∀ cl ∈ sol, ∀ u ∈ cl, ∀ v ∈ cl, g.adj u v = false

/-- The full behaviour of `checker` asserted by claim C4: `Ok(sol.len())`
exactly for feasible solutions, and the error precedence
`VertexAddedTwice`, then `VertexNotColored`, then `ConflictingEdge`. -/
def checkerClaim (g : Graph) (sol : List (List Nat)) : Prop :=
  (checker g sol = some (CheckerResult.Ok sol.length) ↔
    (sol.flatten.Nodup ∧ (∀ v, v < g.n → v ∈ sol.flatten) ∧ properClasses g sol)) ∧
  (¬ sol.flatten.Nodup →
    ∃ w, checker g sol = some (CheckerResult.VertexAddedTwice w) ∧
      2 ≤ sol.flatten.count w) ∧
  (sol.flatten.Nodup → (∃ v, v < g.n ∧ v ∉ sol.flatten) →
    ∃ w, checker g sol = some (CheckerResult.VertexNotColored w) ∧
      w < g.n ∧ w ∉ sol.flatten) ∧
  (sol.flatten.Nodup → (∀ v, v < g.n → v ∈ sol.flatten) → ¬ properClasses g sol →
    ∃ u v, checker g sol = some (CheckerResult.ConflictingEdge u v) ∧
      g.adj u v = true ∧ ∃ cl ∈ sol, u ∈ cl ∧ v ∈ cl)

theorem nodup_length_eq_iff_covers (n : Nat) (l : List Nat) (hnd : l.Nodup)
    (hlt : ∀ v ∈ l, v < n) :
    l.length = n ↔ ∀ v, v < n → v ∈ l := by
  have hsub : l ⊆ List.range n := fun v hv => List.mem_range.mpr (hlt v hv)
  have hsp : l.Subperm (List.range n) := List.subperm_of_subset hnd hsub
  constructor
  · intro hlen v hv
    have hperm : l.Perm (List.range n) := by
      refine hsp.perm_of_length_le ?_
      rw [List.length_range, hlen]
    rw [hperm.mem_iff]
    exact List.mem_range.mpr hv
  · intro hcov
    have hsub2 : List.range n ⊆ l := by
      intro v hv
      exact hcov v (List.mem_range.mp hv)
    have hsp2 : (List.range n).Subperm l :=
      List.subperm_of_subset (List.nodup_range n) hsub2
    have h1 := hsp.length_le
    have h2 := hsp2.length_le
    rw [List.length_range] at h1 h2
    omega

/-- C4: the checker accepts (`Ok(sol.len())`) exactly the solutions in which
every vertex `0..n-1` appears in exactly one class and no class contains two
adjacent vertices; otherwise it reports `VertexAddedTwice`,
`VertexNotColored` or `ConflictingEdge`, in that order of precedence.
Hypotheses: the data-model invariants carried by `Graph`, and the vertices
mentioned by the solution being in range (out-of-range vertices make the
Rust checker panic before returning any value). -/
theorem C4_checker_cases (g : Graph) (sol : List (List Nat))
    (hrange : ∀ cl ∈ sol, ∀ v ∈ cl, v < g.n) : checkerClaim g sol := by
  have hflat_lt : ∀ v ∈ sol.flatten, v < g.n := by
    intro v hv
    rw [List.mem_flatten] at hv
    obtain ⟨cl, h1, h2⟩ := hv
    exact hrange cl h1 v h2
  rcases hva : visitAll [] sol with w | vis
  · -- a vertex is visited twice
    have hdup := visitAll_inl sol [] w hva
    have hcount : 2 ≤ sol.flatten.count w := by
      rcases hdup with ⟨h1, _⟩ | h1
      · exact absurd h1 (List.not_mem_nil w)
      · exact h1
    have hnotnodup : ¬ sol.flatten.Nodup := by
      intro hnd
      rw [List.nodup_iff_count_le_one] at hnd
      have := hnd w
      omega
    have hck : checker g sol = some (CheckerResult.VertexAddedTwice w) := by
      rw [checker, hva]
    refine ⟨?_, ?_, ?_, ?_⟩
    · rw [hck]
      constructor
      · intro h
        simp at h
      · rintro ⟨h1, _, _⟩
        exact absurd h1 hnotnodup
    · intro _
      exact ⟨w, hck, hcount⟩
    · intro h1 _
      exact absurd h1 hnotnodup
    · intro h1 _ _
      exact absurd h1 hnotnodup
  · -- no duplicates
    have hva2 := (visitAll_inr_iff sol [] vis).mp hva
    obtain ⟨hnd, _, hvis⟩ := hva2
    have hvislen : vis.length = sol.flatten.length := by
      rw [hvis]
      simp
    have hvismem : ∀ x, x ∈ vis ↔ x ∈ sol.flatten := by
      intro x
      rw [hvis]
      simp
    have hcoviff := nodup_length_eq_iff_covers g.n sol.flatten hnd hflat_lt
    by_cases hlen : sol.flatten.length = g.n
    · -- all vertices covered
      have hcov : ∀ v, v < g.n → v ∈ sol.flatten := hcoviff.mp hlen
      rcases hsc : solConflict g sol with _ | ⟨u, v⟩
      · -- feasible solution
        have hproper : properClasses g sol := (solConflict_eq_none_iff g sol).mp hsc
        have hck : checker g sol = some (CheckerResult.Ok sol.length) := by
          rw [checker, hva]
          dsimp only
          rw [if_neg (by omega : ¬ vis.length ≠ g.n), hsc]
        refine ⟨?_, ?_, ?_, ?_⟩
        · rw [hck]
          exact ⟨fun _ => ⟨hnd, hcov, hproper⟩, fun _ => rfl⟩
        · intro h1
          exact absurd hnd h1
        · rintro _ ⟨v0, h1, h2⟩
          exact absurd (hcov v0 h1) h2
        · intro _ _ hnp
          exact absurd hproper hnp
      · -- conflicting edge
        obtain ⟨hadj, hcl⟩ := solConflict_eq_some g sol u v hsc
        have hnp : ¬ properClasses g sol := by
          intro hp
          obtain ⟨cl, h1, h2, h3⟩ := hcl
          rw [hp cl h1 u h2 v h3] at hadj
          exact Bool.false_ne_true hadj
        have hck : checker g sol = some (CheckerResult.ConflictingEdge u v) := by
          rw [checker, hva]
          dsimp only
          rw [if_neg (by omega : ¬ vis.length ≠ g.n), hsc]
        refine ⟨?_, ?_, ?_, ?_⟩
        · rw [hck]
          constructor
          · intro h
            simp at h
          · rintro ⟨_, _, hp⟩
            exact absurd hp hnp
        · intro h1
          exact absurd hnd h1
        · rintro _ ⟨v0, h1, h2⟩
          exact absurd (hcov v0 h1) h2
        · intro _ _ _
          exact ⟨u, v, hck, hadj, hcl⟩
    · -- some vertex uncovered
      have hnotcov : ¬ ∀ v, v < g.n → v ∈ sol.flatten := fun hcov => hlen (hcoviff.mpr hcov)
      have hex : ∃ x ∈ List.range g.n, (!(vis.contains x)) = true := by
        push_neg at hnotcov
        obtain ⟨v0, h1, h2⟩ := hnotcov
        refine ⟨v0, List.mem_range.mpr h1, ?_⟩
        simp only [List.contains, Bool.not_eq_true', List.elem_eq_mem,
          decide_eq_false_iff_not]
        rw [hvismem]
        exact h2
      have hfind : ∃ w, (List.range g.n).find? (fun x => !(vis.contains x)) = some w := by
        have := List.find?_isSome.mpr hex
        rcases hfs : (List.range g.n).find? (fun x => !(vis.contains x)) with _ | w
        · rw [hfs] at this
          simp at this
        · exact ⟨w, rfl⟩
      obtain ⟨w, hw⟩ := hfind
      have hwrange : w < g.n := List.mem_range.mp (List.mem_of_find?_eq_some hw)
      have hwp : w ∉ sol.flatten := by
        have := List.find?_some hw
        simp only [List.contains, Bool.not_eq_true', List.elem_eq_mem,
          decide_eq_false_iff_not] at this
        rw [hvismem] at this
        exact this
      have hck : checker g sol = some (CheckerResult.VertexNotColored w) := by
        rw [checker, hva]
        dsimp only
        rw [if_pos (by omega : vis.length ≠ g.n), firstUncovered, hw]
      refine ⟨?_, ?_, ?_, ?_⟩
      · rw [hck]
        constructor
        · intro h
          simp at h
        · rintro ⟨_, hcov, _⟩
          exact absurd hcov hnotcov
      · intro h1
        exact absurd hnd h1
      · intro _ _
        exact ⟨w, hck, hwrange, hwp⟩
      · intro _ hcov _
        exact absurd hcov hnotcov

/-- Witness for C4 at a concrete instance: the path `0-1-2` with the proper
solution `[[0,2],[1]]`. -/
theorem C4_checker_cases_witness :
    (∀ cl ∈ [[0, 2], [1]], ∀ v ∈ cl, v < pathGraph.n) ∧
    checkerClaim pathGraph [[0, 2], [1]] :=
  ⟨by decide, C4_checker_cases pathGraph [[0, 2], [1]] (by decide)⟩

/-! ## Clique partial-weighting local search
(`src/search/clique_partial_weighting.rs`)

The vertex weights never change in this revision (the weight growth is
commented out in the source), so `weights` stays the all-ones function. The
`rand::ThreadRng` draw inside `CliqueTenure::contains` only affects move
*selection*; the development quantifies over all move sequences, so
`contains` takes the draw as an explicit argument. -/

/-- `CliqueTenure` (deterministic fields). -/
structure CliqueTenure where
  l : Nat
  lambda : ℚ
  nb_iter : Nat
  decisions : Nat → Option Nat

/-- `CliqueTenure::new`. -/
def CliqueTenure.new (l : Nat) (lambda : ℚ) (_n : Nat) : CliqueTenure :=
  { l := l, lambda := lambda, nb_iter := 0, decisions := fun _ => none }

/-- `TabuTenure::insert` for `CliqueTenure`. -/
def CliqueTenure.insert (t : CliqueTenure) (d : Nat) : CliqueTenure :=
  { t with decisions := fupd t.decisions d (some t.nb_iter) }

/-- `TabuTenure::contains` for `CliqueTenure`; `rand_l` is the draw of
`rng.gen_range(0..=l)`. -/
def CliqueTenure.contains (t : CliqueTenure) (n d : Nat) (rand_l : Nat) : Bool :=
  match t.decisions d with
  | none => false
  | some i =>
    let threshold := rand_l + (i64TruncOfRat (t.lambda * (n : ℚ))).toNat
    decide (threshold > t.nb_iter ∨ i ≥ t.nb_iter - threshold)

/-- `CliqueTenure::increase_iter`. -/
def CliqueTenure.increase_iter (t : CliqueTenure) : CliqueTenure :=
  { t with nb_iter := t.nb_iter + 1 }

/-- State of `PartialWeightingLocalSearch` (clique). -/
structure CliquePWLS where
  weights : Nat → Nat
  current_sol : List Nat
  inside_clique : Finset Nat
  total_weight : Nat
  weight_cost_inserting : Nat → Nat
  nb_non_adj_clique : Nat → Nat
  tabu : CliqueTenure
  nb_iter : Nat
  configuration : Finset Nat
  aspiration : Nat

/-- `get_weight`. -/
def CliquePWLS.get_weight (s : CliquePWLS) (u : Nat) : Nat := s.weights u

/-- `remove_vertex` (`clique_partial_weighting.rs:145`): removes `v` from the
clique and updates the insertion costs of every vertex non-adjacent to `v`. -/
def removeVertex (g : Graph) (s : CliquePWLS) (v : Nat) : CliquePWLS :=
  { s with
    inside_clique := s.inside_clique.erase v
    total_weight := s.total_weight - s.get_weight v
    weight_cost_inserting := fun w =>
      if w < g.n ∧ w ≠ v ∧ g.adj v w = false then
        s.weight_cost_inserting w - s.get_weight v
      else s.weight_cost_inserting w
    nb_non_adj_clique := fun w =>
      if w < g.n ∧ w ≠ v ∧ g.adj v w = false then s.nb_non_adj_clique w - 1
      else s.nb_non_adj_clique w }

/-- The eviction loop of `add_vertex`: for each current clique member (in
`BitSet` iteration order) not adjacent to `u`, call `remove_vertex`. -/
def evictStep (g : Graph) (u : Nat) (st : CliquePWLS) (v : Nat) : CliquePWLS :=
  if g.adj u v = true then st else removeVertex g st v

/-- `add_vertex` (`clique_partial_weighting.rs:159`): reset the
configuration to `N(u)`, evict every clique member non-adjacent to `u`,
insert `u`, update the insertion costs, snapshot `current_sol` when the
clique got larger, and count the iteration. -/
def addVertex (g : Graph) (s : CliquePWLS) (u : Nat) : CliquePWLS :=
  let s0 := { s with configuration := (g.neighbors u).toFinset }
  let cliqueVec := s0.inside_clique.sort (· ≤ ·)
  let s1 := cliqueVec.foldl (evictStep g u) s0
  let uWeight := s1.get_weight u
  let s2 := { s1 with
    inside_clique := insert u s1.inside_clique
    total_weight := s1.total_weight + uWeight
    weight_cost_inserting := fun w =>
      if w < g.n ∧ w ≠ u ∧ g.adj u w = false then
        s1.weight_cost_inserting w + uWeight
      else s1.weight_cost_inserting w
    nb_non_adj_clique := fun w =>
      if w < g.n ∧ w ≠ u ∧ g.adj u w = false then s1.nb_non_adj_clique w + 1
      else s1.nb_non_adj_clique w }
  let s3 := if s2.inside_clique.card > s2.current_sol.length then
      { s2 with current_sol := s2.inside_clique.sort (· ≤ ·) }
    else s2
  { s3 with nb_iter := s3.nb_iter + 1 }

/-- `commit` (`clique_partial_weighting.rs:211`): a `None` decision is a
no-op; a `Some v` decision adds `v` and updates the tabu tenure. -/
def cliqueCommit (g : Graph) (s : CliquePWLS) (m : Option Nat) : CliquePWLS :=
  match m with
  | none => s
  | some v =>
    let s' := addVertex g s v
    { s' with tabu := (s'.tabu.insert v).increase_iter }

/-- The `initialize` insertion-cost loop (`clique_partial_weighting.rs:120`):
for each seed member `v` and each other vertex `u` non-adjacent to `v`, add
one (all weights are 1 at initialization). -/
def cliqueInitCost (g : Graph) (sol : List Nat) : Nat → Nat :=
  sol.foldl
    (fun wci v => fun u => if u < g.n ∧ u ≠ v ∧ g.adj u v = false then wci u + 1 else wci u)
    (fun _ => 0)

/-- `initialize` (`clique_partial_weighting.rs:113`). -/
def cliqueInitialize (g : Graph) (sol : List Nat) : CliquePWLS :=
  { weights := fun _ => 1
    current_sol := sol
    inside_clique := sol.toFinset
    total_weight := sol.length
    weight_cost_inserting := cliqueInitCost g sol
    nb_non_adj_clique := cliqueInitCost g sol
    tabu := CliqueTenure.new (g.n / 5) 0 g.n
    nb_iter := 0
    configuration := Finset.range g.n
    aspiration := sol.length }

/-- A move sequence as the search driver would commit it. -/
def applyCliqueMoves (g : Graph) (s : CliquePWLS) (ms : List (Option Nat)) : CliquePWLS :=
  ms.foldl (cliqueCommit g) s

/-- A finite vertex set is pairwise adjacent (a true clique). -/
def pairwiseAdjF (g : Graph) (s : Finset Nat) : Prop :=
  ∀ a ∈ s, ∀ b ∈ s, a ≠ b → g.adj a b = true

/-- A vertex list is pairwise adjacent (a true clique). -/
def pairwiseAdjL (g : Graph) (l : List Nat) : Prop :=
  ∀ a ∈ l, ∀ b ∈ l, a ≠ b → g.adj a b = true

/-- The C9 invariant: both the candidate `inside_clique` and the snapshot
`current_sol` are true cliques. -/
def CliqueInv (g : Graph) (s : CliquePWLS) : Prop :=
  pairwiseAdjF g s.inside_clique ∧ pairwiseAdjL g s.current_sol

theorem removeVertex_inv (g : Graph) (s : CliquePWLS) (v : Nat)
    (h : CliqueInv g s) : CliqueInv g (removeVertex g s v) := by
  refine ⟨?_, h.2⟩
  intro a ha b hb hab
  exact h.1 a (Finset.mem_of_mem_erase ha) b (Finset.mem_of_mem_erase hb) hab

theorem evictFold_mem (g : Graph) (u : Nat) (L : List Nat) (st : CliquePWLS) (x : Nat) :
    x ∈ (L.foldl (evictStep g u) st).inside_clique ↔
      (x ∈ st.inside_clique ∧ (x ∈ L → g.adj u x = true)) := by
  induction L generalizing st with
  | nil => simp
  | cons v L' ih =>
    rw [List.foldl_cons, ih]
    by_cases hadj : g.adj u v = true
    · rw [evictStep, if_pos hadj]
      by_cases hxv : x = v
      · subst hxv
        simp [hadj]
      · simp [hxv]
    · rw [evictStep, if_neg hadj]
      by_cases hxv : x = v
      · subst hxv
        simp only [removeVertex, Finset.mem_erase, ne_eq, not_true_eq_false,
          false_and, false_iff, not_and]
        intro hx habs
        exact hadj (habs (List.mem_cons_self _ _))
      · simp only [removeVertex, Finset.mem_erase, ne_eq, hxv, not_false_eq_true,
          true_and, List.mem_cons]
        tauto

theorem evictFold_current_sol (g : Graph) (u : Nat) (L : List Nat) (st : CliquePWLS) :
    (L.foldl (evictStep g u) st).current_sol = st.current_sol := by
  induction L generalizing st with
  | nil => rfl
  | cons v L' ih =>
    rw [List.foldl_cons, ih]
    rw [evictStep]
    by_cases hadj : g.adj u v = true
    · rw [if_pos hadj]
    · rw [if_neg hadj]
      rfl

theorem addVertex_inv (g : Graph) (s : CliquePWLS) (u : Nat)
    (h : CliqueInv g s) : CliqueInv g (addVertex g s u) := by
  have hmem : ∀ x, x ∈ (addVertex g s u).inside_clique ↔
      (x = u ∨ (x ∈ s.inside_clique ∧ g.adj u x = true)) := by
    intro x
    rw [addVertex]
    simp only
    split_ifs <;>
    · simp only [Finset.mem_insert, evictFold_mem, Finset.mem_sort]
      constructor
      · rintro (hx | ⟨h1, h2⟩)
        · exact Or.inl hx
        · exact Or.inr ⟨h1, h2 h1⟩
      · rintro (hx | ⟨h1, h2⟩)
        · exact Or.inl hx
        · exact Or.inr ⟨h1, fun _ => h2⟩
  have hpw : pairwiseAdjF g (addVertex g s u).inside_clique := by
    intro a ha b hb hab
    rw [hmem] at ha hb
    rcases ha with ha | ⟨ha1, ha2⟩
    · rcases hb with hb | ⟨hb1, hb2⟩
      · exact absurd (ha.trans hb.symm) hab
      · rw [ha]
        exact hb2
    · rcases hb with hb | ⟨hb1, hb2⟩
      · rw [hb, g.symm]
        exact ha2
      · exact h.1 a ha1 b hb1 hab
  refine ⟨hpw, ?_⟩
  rw [addVertex]
  simp only
  split_ifs with hcard
  · -- current_sol snapshots the (pairwise adjacent) clique
    intro a ha b hb hab
    rw [Finset.mem_sort] at ha hb
    have hm : ∀ x, x ∈ (insert u ((((s.inside_clique.sort (· ≤ ·))).foldl
        (evictStep g u) { s with configuration := (g.neighbors u).toFinset }).inside_clique)) ↔
        (x = u ∨ (x ∈ s.inside_clique ∧ g.adj u x = true)) := by
      intro x
      simp only [Finset.mem_insert, evictFold_mem, Finset.mem_sort]
      constructor
      · rintro (hx | ⟨h1, h2⟩)
        · exact Or.inl hx
        · exact Or.inr ⟨h1, h2 h1⟩
      · rintro (hx | ⟨h1, h2⟩)
        · exact Or.inl hx
        · exact Or.inr ⟨h1, fun _ => h2⟩
    rw [hm] at ha hb
    rcases ha with ha | ⟨ha1, ha2⟩
    · rcases hb with hb | ⟨hb1, hb2⟩
      · exact absurd (ha.trans hb.symm) hab
      · rw [ha]
        exact hb2
    · rcases hb with hb | ⟨hb1, hb2⟩
      · rw [hb, g.symm]
        exact ha2
      · exact h.1 a ha1 b hb1 hab
  · rw [evictFold_current_sol]
    exact h.2

theorem cliqueCommit_inv (g : Graph) (s : CliquePWLS) (m : Option Nat)
    (h : CliqueInv g s) : CliqueInv g (cliqueCommit g s m) := by
  rcases m with _ | v
  · exact h
  · rw [cliqueCommit]
    exact ⟨(addVertex_inv g s v h).1, (addVertex_inv g s v h).2⟩

theorem cliqueInitialize_inv (g : Graph) (sol : List Nat)
    (hseed : pairwiseAdjL g sol) : CliqueInv g (cliqueInitialize g sol) := by
  constructor
  · intro a ha b hb hab
    rw [cliqueInitialize] at ha hb
    simp only [List.mem_toFinset] at ha hb
    exact hseed a ha b hb hab
  · exact hseed

/-- C9: starting from a seed which is a true clique, `inside_clique` is
pairwise adjacent after every `remove_vertex` and every `add_vertex`
(`add_vertex` first evicts every clique member non-adjacent to the inserted
vertex), and `current_sol` — the solution `clique_partial_weighting`
returns — is only ever replaced by a copy of `inside_clique`, so it is a
true clique after any sequence of committed moves. -/
theorem C9_clique_invariant (g : Graph) (sol : List Nat) (ms : List (Option Nat))
    (hseed : pairwiseAdjL g sol) :
    (∀ s v, CliqueInv g s → CliqueInv g (removeVertex g s v)) ∧
    (∀ s u, CliqueInv g s → CliqueInv g (addVertex g s u)) ∧
    CliqueInv g (applyCliqueMoves g (cliqueInitialize g sol) ms) := by
  refine ⟨removeVertex_inv g, addVertex_inv g, ?_⟩
  rw [applyCliqueMoves]
  have hinit := cliqueInitialize_inv g sol hseed
  generalize cliqueInitialize g sol = s0 at hinit
  induction ms generalizing s0 with
  | nil => exact hinit
  | cons m ms' ih =>
    rw [List.foldl_cons]
    exact ih _ (cliqueCommit_inv g s0 m hinit)

/-- Witness for C9: the path graph with seed clique `[0, 1]` and the move
sequence `[insert 2, no-op]`. -/
theorem C9_clique_invariant_witness :
    pairwiseAdjL pathGraph [0, 1] ∧
    ((∀ s v, CliqueInv pathGraph s → CliqueInv pathGraph (removeVertex pathGraph s v)) ∧
     (∀ s u, CliqueInv pathGraph s → CliqueInv pathGraph (addVertex pathGraph s u)) ∧
     CliqueInv pathGraph
       (applyCliqueMoves pathGraph (cliqueInitialize pathGraph [0, 1]) [some 2, none])) :=
  ⟨by unfold pairwiseAdjL; decide,
   C9_clique_invariant pathGraph [0, 1] [some 2, none] (by unfold pairwiseAdjL; decide)⟩

/-! ## Coloring partial-weighting local search
(`src/search/coloring_partial_weighting.rs`)

The `SparseSet` of uncolored vertices is modelled membership-faithfully by a
duplicate-free list; the tabu tenure is the same `TabuColTenure` structure
as the CWLS one (the file has an identical copy with λ = 0.01), its random
draws provided by the oracle stream `rng` carried in the state. -/

/-- `SparseSet::insert`: a no-op when the element is present. -/
def ssInsert (l : List Nat) (v : Nat) : List Nat :=
  if v ∈ l then l else l ++ [v]

/-- Writing one value into every entry of a class (`for v in c { f[v] = x }`). -/
def assignClassFold {α : Type} (x : α) (cls : List Nat) (f : Nat → α) : Nat → α :=
  cls.foldl (fun f v => fupd f v x) f

theorem assignClassFold_apply {α : Type} (x : α) (cls : List Nat) (f : Nat → α) (v : Nat) :
    assignClassFold x cls f v = if v ∈ cls then x else f v := by
  induction cls generalizing f with
  | nil => simp [assignClassFold]
  | cons w ws ih =>
    rw [assignClassFold, List.foldl_cons]
    rw [show List.foldl (fun f v => fupd f v x) (fupd f w x) ws =
      assignClassFold x ws (fupd f w x) from rfl, ih]
    by_cases hv : v ∈ ws
    · simp [hv]
    · by_cases hvw : v = w
      · subst hvw
        simp [hv, fupd]
      · simp [hv, hvw, fupd]

/-- The `colors` initialization loop of the PWLS
(`for (i,c) in sol.iter().enumerate { for v in c { colors[v] = Some(i) } }`). -/
def colorsAuxO : Nat → List (List Nat) → (Nat → Option Nat) → Nat → Option Nat
  | _, [], f => f
  | i, cls :: rest, f => colorsAuxO (i + 1) rest (assignClassFold (some i) cls f)

/-- The `colors_vertices` initialization loop
(`colors_vertices[i].insert(v)` per member). -/
def insertClassFold (i : Nat) (cls : List Nat) (cv : Nat → Finset Nat) : Nat → Finset Nat :=
  cls.foldl (fun cv v => fupd cv i (insert v (cv i))) cv

theorem insertClassFold_mem (i : Nat) (cls : List Nat) (cv : Nat → Finset Nat)
    (c x : Nat) :
    x ∈ insertClassFold i cls cv c ↔ (x ∈ cv c ∨ (c = i ∧ x ∈ cls)) := by
  induction cls generalizing cv with
  | nil => simp [insertClassFold]
  | cons w ws ih =>
    rw [insertClassFold, List.foldl_cons]
    rw [show List.foldl (fun cv v => fupd cv i (insert v (cv i))) (fupd cv i (insert w (cv i))) ws =
      insertClassFold i ws (fupd cv i (insert w (cv i))) from rfl, ih]
    by_cases hc : c = i
    · subst hc
      simp only [fupd_same, Finset.mem_insert, List.mem_cons]
      tauto
    · rw [fupd_other _ _ _ _ hc]
      simp only [List.mem_cons]
      tauto

def cvAuxO : Nat → List (List Nat) → (Nat → Finset Nat) → Nat → Finset Nat
  | _, [], cv => cv
  | i, cls :: rest, cv => cvAuxO (i + 1) rest (insertClassFold i cls cv)

/-- The `colors_vertex_number` initialization loop. -/
def addClassCountFold (i : Nat) (cls : List Nat) (cvn : Nat → Nat) : Nat → Nat :=
  cls.foldl (fun cvn _ => fupd cvn i (cvn i + 1)) cvn

def cvnAuxO : Nat → List (List Nat) → (Nat → Nat) → Nat → Nat
  | _, [], cvn => cvn
  | i, cls :: rest, cvn => cvnAuxO (i + 1) rest (addClassCountFold i cls cvn)

/-- The `cost_coloring` initialization loops of the PWLS. -/
def pwlsInitCostClass (g : Graph) (u i : Nat) (cls : List Nat)
    (cc : Nat → Nat → Int) : Nat → Nat → Int :=
  cls.foldl (fun cc v => if g.adj u v = true then fupd2Add cc u i 1 else cc) cc

def pwlsInitCostClasses (g : Graph) (u : Nat) :
    Nat → List (List Nat) → (Nat → Nat → Int) → Nat → Nat → Int
  | _, [], cc => cc
  | i, cls :: rest, cc => pwlsInitCostClasses g u (i + 1) rest (pwlsInitCostClass g u i cls cc)

def pwlsInitCost (g : Graph) (sol : List (List Nat)) : Nat → Nat → Int :=
  (List.range g.n).foldl (fun cc u => pwlsInitCostClasses g u 0 sol cc) (fun _ _ => 0)

/-- State of `PartialWeightingLocalSearch` (coloring),
`coloring_partial_weighting.rs:86`. `rng`/`rngIdx` form the oracle stream of
the tenure's random draws. -/
structure ColoringPWLS where
  weights : Nat → Int
  current_sol : List (List Nat)
  colors : Nat → Option Nat
  colors_vertices : Nat → Finset Nat
  colors_vertex_number : Nat → Nat
  nb_colors : Nat
  nb_initial_colors : Nat
  nb_colors_best_so_far : Nat
  total_weight : Int
  uncolored_vertices : List Nat
  cost_coloring : Nat → Nat → Int
  tabu : TabuColTenure
  aspiration_criterion : Int
  nb_iter : Int
  rng : Nat → Int
  rngIdx : Nat

/-- `uncolor_vertex` (`coloring_partial_weighting.rs:166`). The `none` arm
models the source's panic (`u` must have a color); it is never reached from
the call sites below. -/
def pwlsUncolor (g : Graph) (s : ColoringPWLS) (u : Nat) : ColoringPWLS :=
  match s.colors u with
  | none => s
  | some previous_color =>
    { s with
      colors_vertex_number :=
        fupd s.colors_vertex_number previous_color (s.colors_vertex_number previous_color - 1)
      colors_vertices :=
        fupd s.colors_vertices previous_color ((s.colors_vertices previous_color).erase u)
      total_weight := s.total_weight + s.weights u
      colors := fupd s.colors u none
      uncolored_vertices := ssInsert s.uncolored_vertices u
      cost_coloring := fun v col =>
        if g.adj u v = true ∧ col = previous_color then s.cost_coloring v col - s.weights u
        else s.cost_coloring v col
      tabu := s.tabu.insert u previous_color 0 (s.rng s.rngIdx)
      rngIdx := s.rngIdx + 1 }

/-- `color_vertex` (`coloring_partial_weighting.rs:184`): grow the weight of
`u`, place `u` in class `c`, then uncolor every member of class `c` adjacent
to `u` (the `to_uncolor` list, in `BitSet` ascending order). -/
def pwlsColor (g : Graph) (s : ColoringPWLS) (u c : Nat) : ColoringPWLS :=
  let newW := fupd s.weights u (s.weights u + 1)
  let s1 : ColoringPWLS := { s with
    total_weight := s.total_weight - s.weights u
    weights := newW
    colors := fupd s.colors u (some c)
    colors_vertex_number := fupd s.colors_vertex_number c (s.colors_vertex_number c + 1)
    colors_vertices := fupd s.colors_vertices c (insert u (s.colors_vertices c))
    uncolored_vertices := s.uncolored_vertices.erase u
    cost_coloring := fun v col =>
      if g.adj u v = true ∧ col = c then s.cost_coloring v col + newW u
      else s.cost_coloring v col }
  let to_uncolor := ((s1.colors_vertices c).filter (fun v => g.adj u v = true)).sort (· ≤ ·)
  to_uncolor.foldl (pwlsUncolor g) s1

/-- The `max_by_key` of `delete_color`: the *last* index `c < n` with a
positive count maximizing `colors_vertex_number[c]` (Rust's `max_by_key`
keeps the last maximal element). -/
def lastArgmaxPos (f : Nat → Nat) (n : Nat) : Option Nat :=
  ((List.range n).filter (fun c => 0 < f c)).foldl
    (fun acc c =>
      match acc with
      | none => some c
      | some b => if f c ≥ f b then some c else some b)
    none

/-- `delete_color` (`coloring_partial_weighting.rs:238`): uncolor every
vertex of the chosen class and decrement `nb_colors`. The `none` arm models
the `unwrap` panic when no vertex is colored. -/
def pwlsDeleteColor (g : Graph) (s : ColoringPWLS) : ColoringPWLS :=
  match lastArgmaxPos s.colors_vertex_number g.n with
  | none => s
  | some c_min =>
    let s' := (List.range g.n).foldl
      (fun st i =>
        match st.colors i with
        | none => st
        | some ci => if ci = c_min then pwlsUncolor g st i else st)
      s
    { s' with nb_colors := s'.nb_colors - 1 }

/-- `initialize` (`coloring_partial_weighting.rs:122`); `ρ` is the oracle
stream of the tenure's random draws. -/
def pwlsInitialize (g : Graph) (sol : List (List Nat)) (ρ : Nat → Int) : ColoringPWLS :=
  { weights := fun _ => 1
    current_sol := sol
    colors := colorsAuxO 0 sol (fun _ => none)
    colors_vertices := cvAuxO 0 sol (fun _ => ∅)
    colors_vertex_number := cvnAuxO 0 sol (fun _ => 0)
    nb_colors := sol.length
    nb_initial_colors := sol.length
    nb_colors_best_so_far := sol.length
    total_weight := 0
    uncolored_vertices := []
    cost_coloring := pwlsInitCost g sol
    tabu := TabuColTenure.new 10 (1 / 100) g.n sol.length
    aspiration_criterion := 2 ^ 63 - 1
    nb_iter := 0
    rng := ρ
    rngIdx := 0 }

/-- The three state-changing primitives of the PWLS core. -/
inductive PWLSMove : Type
  | color : Nat → Nat → PWLSMove
  | uncolor : Nat → PWLSMove
  | delete : PWLSMove

/-- One committed move. The repair loop only ever calls `color_vertex` on a
member of `uncolored_vertices` (an in-range, currently uncolored vertex);
the guard makes that caller contract explicit. -/
def applyPWLSMove (g : Graph) (s : ColoringPWLS) : PWLSMove → ColoringPWLS
  | PWLSMove.color u c =>
    if u < g.n ∧ s.colors u = none then pwlsColor g s u c else s
  | PWLSMove.uncolor u => pwlsUncolor g s u
  | PWLSMove.delete => pwlsDeleteColor g s

def applyPWLSMoves (g : Graph) (s : ColoringPWLS) (ms : List PWLSMove) : ColoringPWLS :=
  ms.foldl (applyPWLSMove g) s

/-- The C10 invariant: `colors_vertices[c]` is exactly the set of in-range
vertices with color `c`, and no two adjacent vertices share a color (every
class is an independent set). -/
def PWLSInv (g : Graph) (s : ColoringPWLS) : Prop :=
  (∀ c x, x ∈ s.colors_vertices c ↔ (x < g.n ∧ s.colors x = some c)) ∧
  (∀ u v c, g.adj u v = true → s.colors u = some c → s.colors v = some c → False)

theorem pwlsUncolor_invA (g : Graph) (s : ColoringPWLS) (u : Nat)
    (h : ∀ c x, x ∈ s.colors_vertices c ↔ (x < g.n ∧ s.colors x = some c)) :
    ∀ c x, x ∈ (pwlsUncolor g s u).colors_vertices c ↔
      (x < g.n ∧ (pwlsUncolor g s u).colors x = some c) := by
  rcases hc : s.colors u with _ | prev
  · rw [pwlsUncolor, hc]
    exact h
  · rw [pwlsUncolor, hc]
    intro c x
    simp only
    by_cases hcp : c = prev
    · subst hcp
      rw [fupd_same]
      rw [Finset.mem_erase, h]
      by_cases hxu : x = u
      · subst hxu
        simp [fupd]
      · simp [fupd, hxu]
    · rw [fupd_other _ _ _ _ hcp, h]
      by_cases hxu : x = u
      · subst hxu
        rw [hc]
        constructor
        · rintro ⟨h1, h2⟩
          injection h2 with h2
          exact absurd h2.symm hcp
        · rintro ⟨h1, h2⟩
          rw [fupd_same] at h2
          exact absurd h2 (by simp)
      · simp [fupd, hxu]

theorem pwlsUncolor_colors_subset (g : Graph) (s : ColoringPWLS) (u x : Nat) (c : Nat)
    (h : (pwlsUncolor g s u).colors x = some c) : s.colors x = some c := by
  rcases hc : s.colors u with _ | prev
  · rw [pwlsUncolor, hc] at h
    exact h
  · rw [pwlsUncolor, hc] at h
    simp only [fupd] at h
    by_cases hxu : x = u
    · rw [if_pos hxu] at h
      exact absurd h (by simp)
    · rw [if_neg hxu] at h
      exact h

theorem pwlsUncolor_inv (g : Graph) (s : ColoringPWLS) (u : Nat)
    (h : PWLSInv g s) : PWLSInv g (pwlsUncolor g s u) := by
  refine ⟨pwlsUncolor_invA g s u h.1, ?_⟩
  intro a b c hadj ha hb
  exact h.2 a b c hadj (pwlsUncolor_colors_subset g s u a c ha)
    (pwlsUncolor_colors_subset g s u b c hb)

theorem uncolorFold_colors (g : Graph) (L : List Nat) (t : ColoringPWLS) (x : Nat) :
    ((L.foldl (pwlsUncolor g) t).colors x) = if x ∈ L then none else t.colors x := by
  induction L generalizing t with
  | nil => simp
  | cons v L' ih =>
    rw [List.foldl_cons, ih]
    by_cases hx : x ∈ L'
    · simp [hx]
    · simp only [hx, if_false, List.mem_cons]
      by_cases hxv : x = v
      · subst hxv
        rw [if_pos (Or.inl rfl)]
        rcases hcv : t.colors x with _ | p
        · rw [pwlsUncolor, hcv]
          exact hcv
        · rw [pwlsUncolor, hcv]
          simp [fupd]
      · rw [if_neg (by tauto)]
        rcases hcv : t.colors v with _ | p
        · rw [pwlsUncolor, hcv]
        · rw [pwlsUncolor, hcv]
          simp [fupd, hxv]

theorem uncolorFold_invA (g : Graph) (L : List Nat) (t : ColoringPWLS)
    (h : ∀ c x, x ∈ t.colors_vertices c ↔ (x < g.n ∧ t.colors x = some c)) :
    ∀ c x, x ∈ ((L.foldl (pwlsUncolor g) t).colors_vertices c) ↔
      (x < g.n ∧ (L.foldl (pwlsUncolor g) t).colors x = some c) := by
  induction L generalizing t with
  | nil => exact h
  | cons v L' ih =>
    rw [List.foldl_cons]
    exact ih (pwlsUncolor g t v) (pwlsUncolor_invA g t v h)

theorem pwlsColor_inv (g : Graph) (s : ColoringPWLS) (u c : Nat) (hu : u < g.n)
    (hnone : s.colors u = none) (h : PWLSInv g s) : PWLSInv g (pwlsColor g s u c) := by
  rw [pwlsColor]
  simp only
  set s1 : ColoringPWLS := { s with
    total_weight := s.total_weight - s.weights u
    weights := fupd s.weights u (s.weights u + 1)
    colors := fupd s.colors u (some c)
    colors_vertex_number := fupd s.colors_vertex_number c (s.colors_vertex_number c + 1)
    colors_vertices := fupd s.colors_vertices c (insert u (s.colors_vertices c))
    uncolored_vertices := s.uncolored_vertices.erase u
    cost_coloring := fun v col =>
      if g.adj u v = true ∧ col = c then
        s.cost_coloring v col + (fupd s.weights u (s.weights u + 1)) u
      else s.cost_coloring v col } with hs1
  have hs1colors : s1.colors = fupd s.colors u (some c) := rfl
  have hs1cv : s1.colors_vertices = fupd s.colors_vertices c (insert u (s.colors_vertices c)) := rfl
  have hA1 : ∀ col x, x ∈ s1.colors_vertices col ↔ (x < g.n ∧ s1.colors x = some col) := by
    intro col x
    rw [hs1cv, hs1colors]
    by_cases hcol : col = c
    · subst hcol
      rw [fupd_same, Finset.mem_insert, h.1]
      by_cases hxu : x = u
      · subst hxu
        simp [fupd, hu]
      · simp [fupd, hxu]
    · rw [fupd_other _ _ _ _ hcol, h.1]
      by_cases hxu : x = u
      · subst hxu
        rw [hnone]
        constructor
        · rintro ⟨h1, h2⟩
          exact absurd h2 (by simp)
        · rintro ⟨h1, h2⟩
          rw [fupd_same] at h2
          injection h2 with h2
          exact absurd h2.symm hcol
      · simp [fupd, hxu]
  set T := ((s1.colors_vertices c).filter (fun v => g.adj u v = true)).sort (· ≤ ·) with hT
  have hTmem : ∀ x, x ∈ T ↔ (x ∈ s1.colors_vertices c ∧ g.adj u x = true) := by
    intro x
    rw [hT, Finset.mem_sort, Finset.mem_filter]
  refine ⟨uncolorFold_invA g T s1 hA1, ?_⟩
  intro a b col hadj ha hb
  rw [uncolorFold_colors] at ha hb
  by_cases hat : a ∈ T
  · rw [if_pos hat] at ha
    exact absurd ha (by simp)
  by_cases hbt : b ∈ T
  · rw [if_pos hbt] at hb
    exact absurd hb (by simp)
  rw [if_neg hat] at ha
  rw [if_neg hbt] at hb
  rw [hs1colors] at ha hb
  simp only [fupd] at ha hb
  by_cases hau : a = u
  · -- a is the newly colored vertex: b would have been evicted
    rw [if_pos hau] at ha
    have hcol : col = c := by
      injection ha with ha
      exact ha.symm
    subst hcol
    have hbu : ¬ b = u := by
      intro habs
      subst habs
      subst hau
      rw [g.loopless] at hadj
      exact Bool.false_ne_true hadj
    rw [if_neg hbu] at hb
    have hbn : b < g.n := (g.bounded a b hadj).2
    have hbcv : b ∈ s1.colors_vertices col := by
      rw [hs1cv, fupd_same, Finset.mem_insert]
      exact Or.inr ((h.1 col b).mpr ⟨hbn, hb⟩)
    have : b ∈ T := (hTmem b).mpr ⟨hbcv, by rw [← hau]; exact hadj⟩
    exact hbt this
  · rw [if_neg hau] at ha
    by_cases hbu : b = u
    · rw [if_pos hbu] at hb
      have hcol : col = c := by
        injection hb with hb
        exact hb.symm
      subst hcol
      have han : a < g.n := (g.bounded a b hadj).1
      have hacv : a ∈ s1.colors_vertices col := by
        rw [hs1cv, fupd_same, Finset.mem_insert]
        exact Or.inr ((h.1 col a).mpr ⟨han, ha⟩)
      have hadj2 : g.adj u a = true := by
        rw [g.symm, ← hbu]
        exact hadj
      exact hat ((hTmem a).mpr ⟨hacv, hadj2⟩)
    · rw [if_neg hbu] at hb
      exact h.2 a b col hadj ha hb

theorem pwlsDeleteColor_inv (g : Graph) (s : ColoringPWLS)
    (h : PWLSInv g s) : PWLSInv g (pwlsDeleteColor g s) := by
  rw [pwlsDeleteColor]
  rcases lastArgmaxPos s.colors_vertex_number g.n with _ | c_min
  · exact h
  · simp only
    have hfold : ∀ (L : List Nat) (t : ColoringPWLS), PWLSInv g t →
        PWLSInv g (L.foldl
          (fun st i =>
            match st.colors i with
            | none => st
            | some ci => if ci = c_min then pwlsUncolor g st i else st) t) := by
      intro L
      induction L with
      | nil => intro t ht; exact ht
      | cons i L' ih =>
        intro t ht
        rw [List.foldl_cons]
        apply ih
        rcases hci : t.colors i with _ | ci
        · simpa [hci] using ht
        · simp only [hci]
          by_cases hcc : ci = c_min
          · rw [if_pos hcc]
            exact pwlsUncolor_inv g t i ht
          · rw [if_neg hcc]
            exact ht
    have := hfold (List.range g.n) s h
    exact ⟨this.1, this.2⟩

/-! ### Initialization of the PWLS from a feasible seed -/

/-- The seed is a partition of the vertex set `0..n-1` (every vertex in
exactly one class, no foreign vertices). -/
def isPartition (n : Nat) (sol : List (List Nat)) : Prop :=
  sol.flatten.Nodup ∧ (∀ v ∈ sol.flatten, v < n) ∧ (∀ v, v < n → v ∈ sol.flatten)

/-- The seed coloring is proper: no class contains two distinct adjacent
vertices. -/
def isProperSol (g : Graph) (sol : List (List Nat)) : Prop :=
  ∀ cl ∈ sol, ∀ u ∈ cl, ∀ v ∈ cl, u ≠ v → g.adj u v = false

theorem getD_mem_of_lt {α : Type} (l : List α) (j : Nat) (d : α) (hj : j < l.length) :
    l.getD j d ∈ l := by
  rw [List.getD_eq_getElem?_getD, List.getElem?_eq_getElem hj]
  simp only [Option.getD_some]
  exact List.getElem_mem hj

theorem colorsAuxO_notmem (sol : List (List Nat)) (i : Nat) (f : Nat → Option Nat) (v : Nat)
    (hv : v ∉ sol.flatten) : colorsAuxO i sol f v = f v := by
  induction sol generalizing i f with
  | nil => rfl
  | cons cls rest ih =>
    rw [colorsAuxO]
    have h1 : v ∉ rest.flatten := by
      intro h
      refine hv ?_
      rw [List.flatten_cons, List.mem_append]
      exact Or.inr h
    have h2 : v ∉ cls := by
      intro h
      refine hv ?_
      rw [List.flatten_cons, List.mem_append]
      exact Or.inl h
    rw [ih _ _ h1, assignClassFold_apply, if_neg h2]

theorem colorsAuxO_mem (sol : List (List Nat)) (i : Nat) (f : Nat → Option Nat) (v j : Nat)
    (hnd : sol.flatten.Nodup) (hj : j < sol.length) (hv : v ∈ sol.getD j []) :
    colorsAuxO i sol f v = some (i + j) := by
  induction sol generalizing i f j with
  | nil => simp at hj
  | cons cls rest ih =>
    rw [colorsAuxO]
    rw [List.flatten_cons, List.nodup_append] at hnd
    obtain ⟨hn1, hn2, hn3⟩ := hnd
    cases j with
    | zero =>
      have hvc : v ∈ cls := by simpa using hv
      have hvr : v ∉ rest.flatten := hn3 hvc
      rw [colorsAuxO_notmem _ _ _ _ hvr, assignClassFold_apply, if_pos hvc]
      norm_num
    | succ j' =>
      have hvj : v ∈ rest.getD j' [] := by simpa using hv
      rw [ih (i + 1) (assignClassFold (some i) cls f) j' hn2 (by simpa using hj) hvj]
      congr 1
      omega

theorem cvAuxO_mem (sol : List (List Nat)) (i : Nat) (cv : Nat → Finset Nat) (c x : Nat) :
    x ∈ cvAuxO i sol cv c ↔
      (x ∈ cv c ∨ ∃ j, j < sol.length ∧ c = i + j ∧ x ∈ sol.getD j []) := by
  induction sol generalizing i cv with
  | nil => simp [cvAuxO]
  | cons cls rest ih =>
    rw [cvAuxO, ih, insertClassFold_mem]
    constructor
    · rintro ((h | ⟨hc, hx⟩) | ⟨j, hj1, hj2, hj3⟩)
      · exact Or.inl h
      · exact Or.inr ⟨0, by simp, by omega, by simpa using hx⟩
      · refine Or.inr ⟨j + 1, ?_, by omega, by simpa using hj3⟩
        simp only [List.length_cons]
        omega
    · rintro (h | ⟨j, hj1, hj2, hj3⟩)
      · exact Or.inl (Or.inl h)
      · cases j with
        | zero => exact Or.inl (Or.inr ⟨by omega, by simpa using hj3⟩)
        | succ j' =>
          refine Or.inr ⟨j', ?_, by omega, by simpa using hj3⟩
          simp only [List.length_cons] at hj1
          omega

theorem pwlsInitialize_inv (g : Graph) (sol : List (List Nat)) (ρ : Nat → Int)
    (hpart : isPartition g.n sol) (hprop : isProperSol g sol) :
    PWLSInv g (pwlsInitialize g sol ρ) := by
  obtain ⟨hnd, hlt, _⟩ := hpart
  have hcolors_char : ∀ x c, (colorsAuxO 0 sol (fun _ => none) x = some c) ↔
      (c < sol.length ∧ x ∈ sol.getD c []) := by
    intro x c
    constructor
    · intro h
      by_cases hx : x ∈ sol.flatten
      · rw [List.mem_flatten] at hx
        obtain ⟨cl, hcl, hxcl⟩ := hx
        rw [List.mem_iff_getElem] at hcl
        obtain ⟨j, hjl, hje⟩ := hcl
        have hxj : x ∈ sol.getD j [] := by
          rw [List.getD_eq_getElem?_getD, List.getElem?_eq_getElem hjl]
          simp only [Option.getD_some]
          rw [hje]
          exact hxcl
        have hmem := colorsAuxO_mem sol 0 (fun _ => none) x j hnd hjl hxj
        rw [hmem] at h
        injection h with h
        have hcj : c = j := by omega
        subst hcj
        exact ⟨hjl, hxj⟩
      · rw [colorsAuxO_notmem _ _ _ _ hx] at h
        exact absurd h (by simp)
    · rintro ⟨hc, hx⟩
      rw [colorsAuxO_mem sol 0 (fun _ => none) x c hnd hc hx]
      norm_num
  have hgetDmem : ∀ c, c < sol.length → sol.getD c [] ∈ sol := by
    intro c hc
    exact getD_mem_of_lt sol c [] hc
  constructor
  · intro c x
    show x ∈ cvAuxO 0 sol (fun _ => ∅) c ↔
      (x < g.n ∧ colorsAuxO 0 sol (fun _ => none) x = some c)
    rw [cvAuxO_mem, hcolors_char]
    simp only [Finset.not_mem_empty, false_or]
    constructor
    · rintro ⟨j, hj1, hj2, hj3⟩
      have hcj : c = j := by omega
      subst hcj
      refine ⟨?_, hj1, hj3⟩
      refine hlt x ?_
      rw [List.mem_flatten]
      exact ⟨sol.getD c [], hgetDmem c hj1, hj3⟩
    · rintro ⟨h0, h1, h2⟩
      exact ⟨c, h1, by omega, h2⟩
  · intro a b c hadj ha hb
    have ha2 : colorsAuxO 0 sol (fun _ => none) a = some c := ha
    have hb2 : colorsAuxO 0 sol (fun _ => none) b = some c := hb
    rw [hcolors_char] at ha2 hb2
    obtain ⟨hc, hac⟩ := ha2
    obtain ⟨_, hbc⟩ := hb2
    have hne : a ≠ b := by
      intro hab
      subst hab
      rw [g.loopless] at hadj
      exact Bool.false_ne_true hadj
    have := hprop (sol.getD c []) (hgetDmem c hc) a hac b hbc hne
    rw [this] at hadj
    exact Bool.false_ne_true hadj

/-- C10: assuming the seed coloring is a proper partition, every color class
of the PWLS is an independent set after every `color_vertex`,
`uncolor_vertex` or `delete_color` call (`color_vertex(u, c)` immediately
uncolors every vertex of class `c` adjacent to `u`), hence after any
sequence of committed moves no two adjacent vertices share a color. -/
theorem C10_pwls_classes_independent (g : Graph) (sol : List (List Nat))
    (ρ : Nat → Int) (ms : List PWLSMove)
    (hpart : isPartition g.n sol) (hprop : isProperSol g sol) :
    (∀ s u, PWLSInv g s → PWLSInv g (pwlsUncolor g s u)) ∧
    (∀ s u c, u < g.n → s.colors u = none → PWLSInv g s → PWLSInv g (pwlsColor g s u c)) ∧
    (∀ s, PWLSInv g s → PWLSInv g (pwlsDeleteColor g s)) ∧
    PWLSInv g (applyPWLSMoves g (pwlsInitialize g sol ρ) ms) := by
  refine ⟨pwlsUncolor_inv g, fun s u c hu hn h => pwlsColor_inv g s u c hu hn h,
    pwlsDeleteColor_inv g, ?_⟩
  rw [applyPWLSMoves]
  have hinit := pwlsInitialize_inv g sol ρ hpart hprop
  generalize pwlsInitialize g sol ρ = s0 at hinit
  induction ms generalizing s0 with
  | nil => exact hinit
  | cons m ms' ih =>
    rw [List.foldl_cons]
    refine ih _ ?_
    rcases m with ⟨u, c⟩ | u | _
    · rw [applyPWLSMove]
      split_ifs with hg
      · exact pwlsColor_inv g s0 u c hg.1 hg.2 hinit
      · exact hinit
    · exact pwlsUncolor_inv g s0 u hinit
    · exact pwlsDeleteColor_inv g s0 hinit

/-- Witness for C10: the path graph, seed `[[0,2],[1]]`, and a move sequence
exercising all three primitives. -/
theorem C10_pwls_classes_independent_witness :
    isPartition pathGraph.n [[0, 2], [1]] ∧ isProperSol pathGraph [[0, 2], [1]] ∧
    ((∀ s u, PWLSInv pathGraph s → PWLSInv pathGraph (pwlsUncolor pathGraph s u)) ∧
     (∀ s u c, u < pathGraph.n → s.colors u = none → PWLSInv pathGraph s →
       PWLSInv pathGraph (pwlsColor pathGraph s u c)) ∧
     (∀ s, PWLSInv pathGraph s → PWLSInv pathGraph (pwlsDeleteColor pathGraph s)) ∧
     PWLSInv pathGraph
       (applyPWLSMoves pathGraph (pwlsInitialize pathGraph [[0, 2], [1]] (fun _ => 0))
         [PWLSMove.delete, PWLSMove.color 0 1, PWLSMove.uncolor 0])) :=
  ⟨by unfold isPartition; refine ⟨by decide, by decide, by decide⟩,
   by unfold isProperSol; decide,
   C10_pwls_classes_independent pathGraph [[0, 2], [1]] (fun _ => 0)
     [PWLSMove.delete, PWLSMove.color 0 1, PWLSMove.uncolor 0]
     (by unfold isPartition; refine ⟨by decide, by decide, by decide⟩)
     (by unfold isProperSol; decide)⟩

/-! ## Coloring conflict-weighting local search (CWLS)
(`src/search/coloring_conflict_weighting.rs`)

The state mirrors `ConflictWeightingLocalSearch`. `Weight = u16` in the
source, so `weights`, `weights_neigh_colors` and `total_weight` hold values
in `[0, 2^16)` and every add/subtract on them wraps: they are modelled as
`Int` with an explicit `% 65536` at each update (release-mode wrapping
arithmetic; a debug build would panic at the same operations). The `i64`
quantities (`vertex_nb_conflicts`, `nb_conflicting_edges`,
`aspiration_criterion`, `nb_iter`) stay plain `Int`. The triangular storage
`weights[u][v]` (`v < u`) and the ordered accessors `get_weight` /
`increase_weight` are kept. The tenure's random draws come from the oracle
stream `rng`. -/

/-- A wrapping (`u16`) in-place add on one entry of a 2-array: the Rust
`wnc[i][j] += δ` / `-= δ` (with `δ` negated) on the 16-bit `Weight` type. -/
def fupd2AddW (f : Nat → Nat → Int) (i j : Nat) (δ : Int) : Nat → Nat → Int :=
  fupd2 f i j ((f i j + δ) % 65536)

theorem fupd2AddW_apply (f : Nat → Nat → Int) (i j : Nat) (δ : Int) (a b : Nat) :
    fupd2AddW f i j δ a b = if a = i ∧ b = j then (f a b + δ) % 65536 else f a b := by
  rw [fupd2AddW, fupd2]
  split_ifs with h
  · obtain ⟨h1, h2⟩ := h
    rw [h1, h2]
  · rfl

structure CWLS where
  weights : Nat → Nat → Int
  current_sol : List (List Nat)
  colors : Nat → Nat
  colors_bitsets : Nat → Finset Nat
  colors_vertex_number : Nat → Nat
  weights_neigh_colors : Nat → Nat → Int
  conflicting_vertices : List Nat
  vertex_nb_conflicts : Nat → Int
  nb_conflicting_edges : Int
  total_weight : Int
  tabu : TabuColTenure
  aspiration_criterion : Int
  nb_iter : Int
  nb_colors : Nat
  best_so_far_colors : Nat
  rng : Nat → Int
  rngIdx : Nat

/-- The ordered edge-weight read underlying `get_weight`. -/
def gwF (w : Nat → Nat → Int) (u v : Nat) : Int :=
  if u < v then w v u else w u v

/-- The ordered edge-weight increment underlying `increase_weight`
(`coloring_conflict_weighting.rs:276`, a wrapping `u16 += 1`). -/
def incrW (w : Nat → Nat → Int) (u v : Nat) : Nat → Nat → Int :=
  if u < v then fupd2AddW w v u 1 else fupd2AddW w u v 1

/-- `get_weight` (`coloring_conflict_weighting.rs:269`). -/
def CWLS.get_weight (s : CWLS) (u v : Nat) : Int := gwF s.weights u v

/-- One iteration of the neighbor loop of `change_vertex_color`
(`coloring_conflict_weighting.rs:229-250`). The loop body never modifies
`self.colors`, so the two `colors[neigh]` conditions read the colors of the
incoming state. -/
def cvcStep (g : Graph) (v previous_color next_color : Nat) (s : CWLS) (neigh : Nat) :
    CWLS :=
  let weight := s.get_weight neigh v
  let s1 : CWLS := { s with
    weights_neigh_colors :=
      fupd2AddW (fupd2AddW s.weights_neigh_colors neigh previous_color (-weight))
        neigh next_color weight }
  let s2 : CWLS :=
    if s.colors neigh = previous_color then
      { s1 with
        vertex_nb_conflicts := fupdAdd (fupdAdd s1.vertex_nb_conflicts neigh (-1)) v (-1)
        nb_conflicting_edges := s1.nb_conflicting_edges - 1 }
    else s1
  if s.colors neigh = next_color then
    { s2 with
      vertex_nb_conflicts := fupdAdd (fupdAdd s2.vertex_nb_conflicts neigh 1) v 1
      nb_conflicting_edges := s2.nb_conflicting_edges + 1
      weights := incrW s2.weights neigh v
      weights_neigh_colors :=
        fupd2AddW (fupd2AddW s2.weights_neigh_colors neigh next_color 1) v next_color 1
      conflicting_vertices := ssInsert (ssInsert s2.conflicting_vertices neigh) v
      total_weight := (s2.total_weight + 1) % 65536 }
  else s2

/-- The `new_solution` construction of `update_current_solution`
(`coloring_conflict_weighting.rs:260-263`): push each vertex, in ascending
order, into the class of its current color. -/
def buildSol (nb : Nat) (colors : Nat → Nat) (n : Nat) : List (List Nat) :=
  (List.range n).foldl
    (fun ns v => ns.set (colors v) ((ns.getD (colors v) []) ++ [v]))
    (List.replicate nb [])

/-- `update_current_solution` (`coloring_conflict_weighting.rs:258`). -/
def updateCurrentSolution (g : Graph) (s : CWLS) : CWLS :=
  let new_solution := buildSol s.nb_colors s.colors g.n
  { s with
    current_sol := new_solution
    best_so_far_colors := (new_solution.filter (fun e => ¬ e.isEmpty)).length }

/-- The straight-line prefix of `change_vertex_color`
(`coloring_conflict_weighting.rs:220-228`): bitset, per-color count, color
and total-weight updates before the neighbor loop. -/
def cvcPre (g : Graph) (s : CWLS) (v next_color : Nat) : CWLS :=
  let previous_color := s.colors v
  let bs1 := fupd s.colors_bitsets previous_color ((s.colors_bitsets previous_color).erase v)
  let bs2 := fupd bs1 next_color (insert v (bs1 next_color))
  let cvn1 := fupd s.colors_vertex_number previous_color
    (s.colors_vertex_number previous_color - 1)
  let cvn2 := fupd cvn1 next_color (cvn1 next_color + 1)
  { s with
    colors := fupd s.colors v next_color
    colors_bitsets := bs2
    colors_vertex_number := cvn2
    total_weight := (s.total_weight + s.weights_neigh_colors v next_color
      - s.weights_neigh_colors v previous_color) % 65536 }

/-- The neighbor loop of `change_vertex_color`
(`coloring_conflict_weighting.rs:229-250`). -/
def cvcLoop (g : Graph) (s : CWLS) (v next_color : Nat) : CWLS :=
  (g.neighbors v).foldl (cvcStep g v (s.colors v) next_color) (cvcPre g s v next_color)

/-- The aspiration-criterion update closing `change_vertex_color`
(`coloring_conflict_weighting.rs:251`). -/
def cvcAsp (g : Graph) (s : CWLS) (v next_color : Nat) : CWLS :=
  { cvcLoop g s v next_color with
    aspiration_criterion := min (cvcLoop g s v next_color).aspiration_criterion
      (cvcLoop g s v next_color).nb_conflicting_edges }

/-- `change_vertex_color` (`coloring_conflict_weighting.rs:219-255`): prefix,
neighbor loop, aspiration update, then the conditional snapshot of the
current solution when the total weight reached zero. -/
def changeVertexColor (g : Graph) (s : CWLS) (v next_color : Nat) : CWLS :=
  if (cvcAsp g s v next_color).total_weight = 0
  then updateCurrentSolution g (cvcAsp g s v next_color)
  else cvcAsp g s v next_color

/-- `commit` (`coloring_conflict_weighting.rs:209`): mark the reversed move
tabu (the committed node carries `previous_color = colors[vertex]` and the
conflict count recorded at generation time, which equals the current one),
bump the iteration counters, then apply the recoloring. -/
def cwlsCommit (g : Graph) (s : CWLS) (m : Nat × Nat) : CWLS :=
  let s1 : CWLS := { s with
    tabu := (s.tabu.insert m.1 (s.colors m.1) s.nb_conflicting_edges
      (s.rng s.rngIdx)).increment_iter
    rngIdx := s.rngIdx + 1
    nb_iter := s.nb_iter + 1 }
  changeVertexColor g s1 m.1 m.2

/-- The `colors` initialization loop (colors are plain indices here,
`colors[v] = i` for `v ∈ sol[i]`). -/
def colorsAuxN : Nat → List (List Nat) → (Nat → Nat) → Nat → Nat
  | _, [], f => f
  | i, cls :: rest, f => colorsAuxN (i + 1) rest (assignClassFold i cls f)

/-- The inner `weights_neigh_colors` initialization loop
(`for v in inst.neighbors(u) { wnc[u][colors[v]] += 1 }`). -/
def wncInitInner (g : Graph) (colors : Nat → Nat) (u : Nat)
    (wnc : Nat → Nat → Int) : Nat → Nat → Int :=
  (g.neighbors u).foldl (fun wnc x => fupd2AddW wnc u (colors x) 1) wnc

/-- The full `weights_neigh_colors` initialization
(`coloring_conflict_weighting.rs:146-151`). -/
def wncInit (g : Graph) (colors : Nat → Nat) : Nat → Nat → Int :=
  (List.range g.n).foldl (fun wnc u => wncInitInner g colors u wnc) (fun _ _ => 0)

/-- `initialize` (`coloring_conflict_weighting.rs:131`); `ρ` is the oracle
stream of the tenure's random draws. -/
def cwlsInitialize (g : Graph) (sol : List (List Nat)) (ρ : Nat → Int) : CWLS :=
  { weights := fun _ _ => 1
    current_sol := sol
    colors := colorsAuxN 0 sol (fun _ => 0)
    colors_bitsets := cvAuxO 0 sol (fun _ => ∅)
    colors_vertex_number := cvnAuxO 0 sol (fun _ => 0)
    weights_neigh_colors := wncInit g (colorsAuxN 0 sol (fun _ => 0))
    conflicting_vertices := []
    vertex_nb_conflicts := fun _ => 0
    nb_conflicting_edges := 0
    total_weight := 0
    tabu := TabuColTenure.new 10 (3 / 5) g.n sol.length
    aspiration_criterion := 2 ^ 63 - 1
    nb_iter := 0
    nb_colors := sol.length
    best_so_far_colors := sol.length
    rng := ρ
    rngIdx := 0 }

/-- A sequence of committed recoloring moves `(vertex, next_color)`. -/
def applyCWLSMoves (g : Graph) (s : CWLS) (ms : List (Nat × Nat)) : CWLS :=
  ms.foldl (cwlsCommit g) s

/-- `solution()` (`coloring_conflict_weighting.rs:291`): the non-empty
classes of `current_sol`. -/
def cwlsSolution (s : CWLS) : List (List Nat) :=
  s.current_sol.filter (fun e => ¬ e.isEmpty)

/-! ### Specification functions: the mathematical values of the
incremental aggregates, recomputed from `colors` and `weights`. -/

/-- The neighborhood of `v` as a finite set. -/
def neighFin (g : Graph) (v : Nat) : Finset Nat :=
  (Finset.range g.n).filter (fun u => g.adj v u = true)

/-- The conflicting (ordered-down) vertex pairs: edges `(a, b)` with
`b < a` whose endpoints share a color. -/
def confPairs (g : Graph) (colors : Nat → Nat) : Finset (Nat × Nat) :=
  ((Finset.range g.n) ×ˢ (Finset.range g.n)).filter
    (fun e => e.2 < e.1 ∧ g.adj e.1 e.2 = true ∧ colors e.1 = colors e.2)

/-- Number of conflicting edges. -/
def nbceSpec (g : Graph) (colors : Nat → Nat) : Int :=
  ((confPairs g colors).card : Int)

/-- Total conflict weight: the sum of the learned weights of the
conflicting edges (every pair has `e.2 < e.1`, so `gwF w e.1 e.2` is the
stored triangular entry `w e.1 e.2`). -/
def twSpec (g : Graph) (colors : Nat → Nat) (w : Nat → Nat → Int) : Int :=
  ∑ e ∈ confPairs g colors, gwF w e.1 e.2

/-- `weights_neigh_colors[u][c]` recomputed: the summed weights of the
edges from `u` to its neighbors currently colored `c`. -/
def nbwSpec (g : Graph) (colors : Nat → Nat) (w : Nat → Nat → Int) (u c : Nat) : Int :=
  ∑ x ∈ (neighFin g u).filter (fun x => colors x = c), gwF w x u

/-- `vertex_nb_conflicts[x]` recomputed: the number of neighbors of `x`
sharing its color. -/
def vncSpec (g : Graph) (colors : Nat → Nat) (x : Nat) : Int :=
  (((neighFin g x).filter (fun u => colors u = colors x)).card : Int)

/-- `colors_vertex_number[c]` recomputed. -/
def cvnSpec (g : Graph) (colors : Nat → Nat) (c : Nat) : Nat :=
  ((Finset.range g.n).filter (fun v => colors v = c)).card

/-- The full CWLS data-structure invariant, for an initial palette of `k`
colors. The `u16` aggregates (`weights_neigh_colors`, `total_weight`) equal
their exact recomputations reduced modulo `2^16`; the stored edge weights
lie in `[0, 2^16)`; the `i64` conflict counters equal their exact
recomputations; colors stay inside the palette; and `current_sol` is always
a partition of `0..n-1` on `k` classes (it is NOT always proper: a snapshot
taken at a wrapped-to-zero total weight can capture a conflicting
coloring — the subject of the corrections to the feasibility claims). -/
def CWLSInv (g : Graph) (k : Nat) (s : CWLS) : Prop :=
  (∀ u c, s.weights_neigh_colors u c = nbwSpec g s.colors s.weights u c % 65536) ∧
  (∀ x, s.vertex_nb_conflicts x = vncSpec g s.colors x) ∧
  s.nb_conflicting_edges = nbceSpec g s.colors ∧
  s.total_weight = twSpec g s.colors s.weights % 65536 ∧
  (∀ c, s.colors_vertex_number c = cvnSpec g s.colors c) ∧
  (∀ c x, x ∈ s.colors_bitsets c ↔ (x < g.n ∧ s.colors x = c)) ∧
  (∀ u v, 0 ≤ s.weights u v ∧ s.weights u v < 65536) ∧
  (∀ x, x < g.n → s.colors x < s.nb_colors) ∧
  s.nb_colors = k ∧
  s.current_sol.length = k ∧
  isPartition g.n s.current_sol

/-! ### Field-level description of one neighbor-loop iteration -/

theorem cvcStep_colors (g : Graph) (v p nx : Nat) (s : CWLS) (a : Nat) :
    (cvcStep g v p nx s a).colors = s.colors := by
  simp only [cvcStep]
  split_ifs <;> rfl

theorem cvcStep_untouched (g : Graph) (v p nx : Nat) (s : CWLS) (a : Nat) :
    (cvcStep g v p nx s a).current_sol = s.current_sol ∧
    (cvcStep g v p nx s a).colors_bitsets = s.colors_bitsets ∧
    (cvcStep g v p nx s a).colors_vertex_number = s.colors_vertex_number ∧
    (cvcStep g v p nx s a).nb_colors = s.nb_colors ∧
    (cvcStep g v p nx s a).best_so_far_colors = s.best_so_far_colors ∧
    (cvcStep g v p nx s a).aspiration_criterion = s.aspiration_criterion ∧
    (cvcStep g v p nx s a).nb_iter = s.nb_iter ∧
    (cvcStep g v p nx s a).rng = s.rng ∧
    (cvcStep g v p nx s a).rngIdx = s.rngIdx := by
  simp only [cvcStep]
  split_ifs <;> exact ⟨rfl, rfl, rfl, rfl, rfl, rfl, rfl, rfl, rfl⟩

theorem cvcStep_weights (g : Graph) (v p nx : Nat) (s : CWLS) (a : Nat) :
    (cvcStep g v p nx s a).weights =
      if s.colors a = nx then incrW s.weights a v else s.weights := by
  simp only [cvcStep]
  split_ifs <;> rfl

theorem cvcStep_tw (g : Graph) (v p nx : Nat) (s : CWLS) (a : Nat) :
    (cvcStep g v p nx s a).total_weight =
      if s.colors a = nx then (s.total_weight + 1) % 65536 else s.total_weight := by
  simp only [cvcStep]
  split_ifs <;> rfl

theorem cvcStep_nbce (g : Graph) (v p nx : Nat) (s : CWLS) (a : Nat) :
    (cvcStep g v p nx s a).nb_conflicting_edges =
      s.nb_conflicting_edges + (if s.colors a = nx then 1 else 0)
        - (if s.colors a = p then 1 else 0) := by
  simp only [cvcStep]
  split_ifs <;> simp <;> try ring

theorem cvcStep_vnc (g : Graph) (v p nx : Nat) (s : CWLS) (a : Nat) (x : Nat) :
    (cvcStep g v p nx s a).vertex_nb_conflicts x =
      s.vertex_nb_conflicts x
        + (if x = a then
            (if s.colors a = nx then 1 else 0) - (if s.colors a = p then 1 else 0) else 0)
        + (if x = v then
            (if s.colors a = nx then 1 else 0) - (if s.colors a = p then 1 else 0) else 0) := by
  simp only [cvcStep]
  split_ifs <;> simp only [fupdAdd_apply] <;>
    first
    | (split_ifs <;> first | ring | (exfalso; omega))
    | ring
    | (exfalso; omega)

theorem cvcStep_wnc (g : Graph) (v p nx : Nat) (s : CWLS) (a : Nat) (u c : Nat)
    (hred : 0 ≤ s.weights_neigh_colors u c ∧ s.weights_neigh_colors u c < 65536) :
    (cvcStep g v p nx s a).weights_neigh_colors u c =
      (s.weights_neigh_colors u c
        + (if u = a ∧ c = p then -(gwF s.weights a v) else 0)
        + (if u = a ∧ c = nx then gwF s.weights a v else 0)
        + (if s.colors a = nx then
            (if u = a ∧ c = nx then 1 else 0) + (if u = v ∧ c = nx then 1 else 0)
          else 0)) % 65536 := by
  obtain ⟨hr0, hr1⟩ := hred
  simp only [cvcStep, CWLS.get_weight]
  split_ifs <;> simp only [fupd2AddW_apply] <;>
    first
    | (split_ifs <;> omega)
    | omega

/-! ### The whole neighbor loop, by induction from the right -/

/-- Number of elements of `L` currently colored `col`. -/
def countIn (cs : Nat → Nat) (L : List Nat) (col : Nat) : Int :=
  ((L.filter (fun x => cs x = col)).length : Int)

theorem countIn_concat (cs : Nat → Nat) (L : List Nat) (a col : Nat) :
    countIn cs (L ++ [a]) col = countIn cs L col + (if cs a = col then 1 else 0) := by
  rw [countIn, countIn, List.filter_append]
  by_cases h : cs a = col
  · simp [h]
  · simp [h]

theorem gwF_incrW (w : Nat → Nat → Int) (a v : Nat) (hav : a ≠ v) (x y : Nat) :
    gwF (incrW w a v) x y =
      if (x = a ∧ y = v) ∨ (x = v ∧ y = a) then (gwF w x y + 1) % 65536
      else gwF w x y := by
  by_cases hc : (x = a ∧ y = v) ∨ (x = v ∧ y = a)
  · rw [if_pos hc]
    rcases hc with ⟨hxa, hyv⟩ | ⟨hxv, hya⟩
    · subst hxa
      subst hyv
      by_cases hv : x < y
      · simp [gwF, incrW, fupd2AddW_apply, hv]
      · simp [gwF, incrW, fupd2AddW_apply, hv]
    · subst hxv
      subst hya
      by_cases hv : x < y
      · have h2 : ¬ y < x := by omega
        simp [gwF, incrW, fupd2AddW_apply, hv, h2]
      · have h2 : y < x := by omega
        simp [gwF, incrW, fupd2AddW_apply, hv, h2]
  · rw [if_neg hc]
    push_neg at hc
    obtain ⟨h1, h2⟩ := hc
    by_cases hxy : x < y
    · by_cases hv : a < v
      · have hno : ¬(y = v ∧ x = a) := fun h => h1 h.2 h.1
        simp [gwF, incrW, fupd2AddW_apply, hxy, hv, hno]
      · have hno : ¬(y = a ∧ x = v) := fun h => h2 h.2 h.1
        simp [gwF, incrW, fupd2AddW_apply, hxy, hv, hno]
    · by_cases hv : a < v
      · have hno : ¬(x = v ∧ y = a) := fun h => h2 h.1 h.2
        simp [gwF, incrW, fupd2AddW_apply, hxy, hv, hno]
      · have hno : ¬(x = a ∧ y = v) := fun h => h1 h.1 h.2
        simp [gwF, incrW, fupd2AddW_apply, hxy, hv, hno]

theorem cvcFold_colors (g : Graph) (v p nx : Nat) (s₁ : CWLS) (L : List Nat) :
    (L.foldl (cvcStep g v p nx) s₁).colors = s₁.colors := by
  induction L using List.reverseRecOn with
  | nil => rfl
  | append_singleton l a ih =>
    rw [List.foldl_append, List.foldl_cons, List.foldl_nil, cvcStep_colors, ih]

theorem cvcFold_untouched (g : Graph) (v p nx : Nat) (s₁ : CWLS) (L : List Nat) :
    (L.foldl (cvcStep g v p nx) s₁).current_sol = s₁.current_sol ∧
    (L.foldl (cvcStep g v p nx) s₁).colors_bitsets = s₁.colors_bitsets ∧
    (L.foldl (cvcStep g v p nx) s₁).colors_vertex_number = s₁.colors_vertex_number ∧
    (L.foldl (cvcStep g v p nx) s₁).nb_colors = s₁.nb_colors := by
  induction L using List.reverseRecOn with
  | nil => exact ⟨rfl, rfl, rfl, rfl⟩
  | append_singleton l a ih =>
    rw [List.foldl_append, List.foldl_cons, List.foldl_nil]
    obtain ⟨h1, h2, h3, h4⟩ := ih
    obtain ⟨u1, u2, u3, u4, _⟩ := cvcStep_untouched g v p nx (l.foldl (cvcStep g v p nx) s₁) a
    exact ⟨u1.trans h1, u2.trans h2, u3.trans h3, u4.trans h4⟩

theorem cvcFold_gwF_nov (g : Graph) (v p nx : Nat) (s₁ : CWLS) (L : List Nat)
    (hvL : v ∉ L) (x y : Nat) (hx : x ≠ v) (hy : y ≠ v) :
    gwF (L.foldl (cvcStep g v p nx) s₁).weights x y = gwF s₁.weights x y := by
  induction L using List.reverseRecOn with
  | nil => rfl
  | append_singleton l a ih =>
    have hvl : v ∉ l := fun h => hvL (List.mem_append_left _ h)
    have hav : a ≠ v := by
      intro h
      exact hvL (List.mem_append_right _ (by simp [h]))
    rw [List.foldl_append, List.foldl_cons, List.foldl_nil, cvcStep_weights,
      cvcFold_colors]
    by_cases ha : s₁.colors a = nx
    · have hno : ¬((x = a ∧ y = v) ∨ (x = v ∧ y = a)) := by
        rintro (⟨_, h⟩ | ⟨h, _⟩)
        · exact hy h
        · exact hx h
      rw [if_pos ha, gwF_incrW _ _ _ hav, if_neg hno, ih hvl]
    · rw [if_neg ha, ih hvl]

theorem cvcFold_gwF_v (g : Graph) (v p nx : Nat) (s₁ : CWLS) (L : List Nat)
    (hvL : v ∉ L) (hnd : L.Nodup) (x : Nat) (hx : x ≠ v) :
    gwF (L.foldl (cvcStep g v p nx) s₁).weights x v =
      if x ∈ L ∧ s₁.colors x = nx then (gwF s₁.weights x v + 1) % 65536
      else gwF s₁.weights x v := by
  induction L using List.reverseRecOn with
  | nil => simp
  | append_singleton l a ih =>
    have hvl : v ∉ l := fun h => hvL (List.mem_append_left _ h)
    have hav : a ≠ v := by
      intro h
      exact hvL (List.mem_append_right _ (by simp [h]))
    have hal : a ∉ l := by
      have := List.nodup_append.mp hnd
      intro h
      exact this.2.2 h (by simp)
    have hndl : l.Nodup := (List.nodup_append.mp hnd).1
    rw [List.foldl_append, List.foldl_cons, List.foldl_nil, cvcStep_weights,
      cvcFold_colors]
    by_cases ha : s₁.colors a = nx
    · rw [if_pos ha, gwF_incrW _ _ _ hav, ih hvl hndl]
      by_cases hxa : x = a
      · subst hxa
        simp [hal, ha, hx, List.mem_append]
      · simp [hxa, hx, List.mem_append]
    · rw [if_neg ha, ih hvl hndl]
      by_cases hxa : x = a
      · subst hxa
        simp [hal, ha, List.mem_append]
      · simp [hxa, List.mem_append]

theorem cvcFold_weights_range (g : Graph) (v p nx : Nat) (s₁ : CWLS) (L : List Nat)
    (x y : Nat) (h : 0 ≤ s₁.weights x y ∧ s₁.weights x y < 65536) :
    0 ≤ (L.foldl (cvcStep g v p nx) s₁).weights x y ∧
      (L.foldl (cvcStep g v p nx) s₁).weights x y < 65536 := by
  induction L using List.reverseRecOn with
  | nil => exact h
  | append_singleton l a ih =>
    obtain ⟨ih1, ih2⟩ := ih
    rw [List.foldl_append, List.foldl_cons, List.foldl_nil, cvcStep_weights,
      cvcFold_colors]
    by_cases ha : s₁.colors a = nx
    · rw [if_pos ha, incrW]
      split_ifs <;> rw [fupd2AddW_apply] <;> split_ifs <;> constructor <;> omega
    · rw [if_neg ha]
      exact ⟨ih1, ih2⟩

theorem cvcFold_tw (g : Graph) (v p nx : Nat) (s₁ : CWLS) (L : List Nat)
    (hred : 0 ≤ s₁.total_weight ∧ s₁.total_weight < 65536) :
    (L.foldl (cvcStep g v p nx) s₁).total_weight =
      (s₁.total_weight + countIn s₁.colors L nx) % 65536 := by
  induction L using List.reverseRecOn with
  | nil =>
    simp only [List.foldl_nil, countIn, List.filter_nil, List.length_nil,
      Nat.cast_zero]
    omega
  | append_singleton l a ih =>
    rw [List.foldl_append, List.foldl_cons, List.foldl_nil, cvcStep_tw,
      cvcFold_colors, ih, countIn_concat]
    by_cases ha : s₁.colors a = nx
    · rw [if_pos ha, if_pos ha]
      omega
    · rw [if_neg ha, if_neg ha]
      omega

theorem cvcFold_nbce (g : Graph) (v p nx : Nat) (s₁ : CWLS) (L : List Nat) :
    (L.foldl (cvcStep g v p nx) s₁).nb_conflicting_edges =
      s₁.nb_conflicting_edges + countIn s₁.colors L nx - countIn s₁.colors L p := by
  induction L using List.reverseRecOn with
  | nil => simp [countIn]
  | append_singleton l a ih =>
    rw [List.foldl_append, List.foldl_cons, List.foldl_nil, cvcStep_nbce,
      cvcFold_colors, ih, countIn_concat, countIn_concat]
    ring

theorem cvcFold_vnc (g : Graph) (v p nx : Nat) (s₁ : CWLS) (L : List Nat)
    (hvL : v ∉ L) (hnd : L.Nodup) (x : Nat) :
    (L.foldl (cvcStep g v p nx) s₁).vertex_nb_conflicts x =
      s₁.vertex_nb_conflicts x
        + (if x = v then countIn s₁.colors L nx - countIn s₁.colors L p else 0)
        + (if x ∈ L then
            (if s₁.colors x = nx then 1 else 0) - (if s₁.colors x = p then 1 else 0)
          else 0) := by
  induction L using List.reverseRecOn with
  | nil => simp [countIn]
  | append_singleton l a ih =>
    have hvl : v ∉ l := fun h => hvL (List.mem_append_left _ h)
    have hav : a ≠ v := by
      intro h
      exact hvL (List.mem_append_right _ (by simp [h]))
    have hal : a ∉ l := by
      intro h
      exact (List.nodup_append.mp hnd).2.2 h (by simp)
    have hndl : l.Nodup := (List.nodup_append.mp hnd).1
    rw [List.foldl_append, List.foldl_cons, List.foldl_nil, cvcStep_vnc,
      cvcFold_colors, ih hvl hndl, countIn_concat, countIn_concat]
    by_cases hxv : x = v
    · subst hxv
      have hxa : ¬ x = a := fun h => hav h.symm
      have hxl : x ∉ l := hvl
      have hxla : x ∉ l ++ [a] := by
        simp [List.mem_append, hxl]
        exact fun h => hxa h
      simp only [if_pos rfl, if_neg hxa, if_neg hxl, if_neg hxla, if_true]
      ring
    · by_cases hxa : x = a
      · have hxl : x ∉ l := fun h => hal (hxa ▸ h)
        have hxla : x ∈ l ++ [a] := List.mem_append_right _ (by simp [hxa])
        have hcolx : s₁.colors x = s₁.colors a := by rw [hxa]
        simp only [if_neg hxv, if_pos hxa, if_neg hxl, if_pos hxla, hcolx, if_true]
        ring
      · have hmemiff : x ∈ l ++ [a] ↔ x ∈ l := by
          simp [List.mem_append, hxa]
        by_cases hxl : x ∈ l
        · simp only [if_neg hxv, if_neg hxa, if_pos hxl, if_pos (hmemiff.mpr hxl)]
          ring
        · simp only [if_neg hxv, if_neg hxa, if_neg hxl,
            if_neg (fun h => hxl (hmemiff.mp h))]
          ring

theorem cvcFold_wnc (g : Graph) (v p nx : Nat) (s₁ : CWLS) (L : List Nat)
    (hvL : v ∉ L) (hnd : L.Nodup) (u c : Nat)
    (hred : 0 ≤ s₁.weights_neigh_colors u c ∧ s₁.weights_neigh_colors u c < 65536) :
    (L.foldl (cvcStep g v p nx) s₁).weights_neigh_colors u c =
      (s₁.weights_neigh_colors u c
        + (if u = v ∧ c = nx then countIn s₁.colors L nx else 0)
        + (if u ∈ L then
            (if c = p then -(gwF s₁.weights u v) else 0)
            + (if c = nx then gwF s₁.weights u v else 0)
            + (if c = nx ∧ s₁.colors u = nx then 1 else 0)
          else 0)) % 65536 := by
  induction L using List.reverseRecOn with
  | nil =>
    simp only [List.foldl_nil, List.not_mem_nil, if_false, countIn, List.filter_nil,
      List.length_nil, Nat.cast_zero, ite_self]
    omega
  | append_singleton l a ih =>
    have hvl : v ∉ l := fun h => hvL (List.mem_append_left _ h)
    have hav : a ≠ v := by
      intro h
      exact hvL (List.mem_append_right _ (by simp [h]))
    have hal : a ∉ l := by
      intro h
      exact (List.nodup_append.mp hnd).2.2 h (by simp)
    have hndl : l.Nodup := (List.nodup_append.mp hnd).1
    have hgw : gwF (l.foldl (cvcStep g v p nx) s₁).weights a v = gwF s₁.weights a v := by
      rw [cvcFold_gwF_v g v p nx s₁ l hvl hndl a hav,
        if_neg (fun h : a ∈ l ∧ s₁.colors a = nx => hal h.1)]
    have hredl : 0 ≤ (l.foldl (cvcStep g v p nx) s₁).weights_neigh_colors u c ∧
        (l.foldl (cvcStep g v p nx) s₁).weights_neigh_colors u c < 65536 := by
      rw [ih hvl hndl]
      constructor
      · omega
      · omega
    rw [List.foldl_append, List.foldl_cons, List.foldl_nil,
      cvcStep_wnc g v p nx _ a u c hredl, cvcFold_colors, hgw, ih hvl hndl,
      countIn_concat]
    by_cases hua : u = a <;> by_cases huv : u = v <;> by_cases hul : u ∈ l <;>
      by_cases hcp : c = p <;> by_cases hcn : c = nx <;>
      by_cases hca : s₁.colors a = nx <;>
      first
      | (exfalso; exact hav (hua.symm.trans huv))
      | (exfalso; exact hal (hua ▸ hul))
      | (exfalso; exact hvl (huv ▸ hul))
      | (simp_all [List.mem_append]; try omega)
      | (simp_all [List.mem_append])
      | omega

/-! ### Bridging list counts and finset cards, and splitting the edge sums
at a recolored vertex -/

theorem card_filter_range (n : Nat) (p : Nat → Prop) [DecidablePred p] :
    ((Finset.range n).filter p).card =
      ((List.range n).filter (fun x => decide (p x))).length := by
  induction n with
  | zero => simp
  | succ m ih =>
    rw [Finset.range_succ, Finset.filter_insert, List.range_succ, List.filter_append]
    by_cases h : p m
    · rw [if_pos h, Finset.card_insert_of_not_mem (by simp)]
      simp [h, ih]
    · simp [h, ih]

theorem countIn_neighbors (g : Graph) (v : Nat) (cs : Nat → Nat) (col : Nat) :
    countIn cs (g.neighbors v) col =
      ((((neighFin g v).filter (fun x => cs x = col)).card : Int)) := by
  rw [countIn, Graph.neighbors, List.filter_filter]
  rw [neighFin, Finset.filter_filter]
  rw [card_filter_range g.n (fun x => g.adj v x = true ∧ cs x = col)]
  congr 2
  refine List.filter_congr ?_
  intro x _
  by_cases h1 : g.adj v x
  · by_cases h2 : cs x = col
    · simp [h1, h2]
    · simp [h1, h2]
  · simp [h1]

/-- The ordered-down pair representing the edge between `v` and `x`. -/
def edgeOf (v x : Nat) : Nat × Nat := if x < v then (v, x) else (x, v)

theorem gwF_edgeOf (w : Nat → Nat → Int) (v x : Nat) :
    gwF w (edgeOf v x).1 (edgeOf v x).2 = gwF w x v := by
  unfold edgeOf gwF
  split_ifs <;> first | rfl | omega

theorem edgeOf_injOn (g : Graph) (v : Nat) (cs : Nat → Nat) (col : Nat) :
    ∀ x ∈ (neighFin g v).filter (fun x => cs x = col),
      ∀ y ∈ (neighFin g v).filter (fun x => cs x = col),
        edgeOf v x = edgeOf v y → x = y := by
  intro x hx y hy hxy
  have hxv : x ≠ v := by
    intro h
    have := (Finset.mem_filter.mp hx).1
    rw [neighFin, Finset.mem_filter] at this
    rw [h, g.loopless] at this
    exact Bool.false_ne_true this.2
  have hyv : y ≠ v := by
    intro h
    have := (Finset.mem_filter.mp hy).1
    rw [neighFin, Finset.mem_filter] at this
    rw [h, g.loopless] at this
    exact Bool.false_ne_true this.2
  unfold edgeOf at hxy
  split_ifs at hxy with h1 h2 h2
  · exact congrArg Prod.snd hxy
  · exact absurd (congrArg Prod.fst hxy).symm hyv
  · exact absurd (congrArg Prod.fst hxy) hxv
  · exact congrArg Prod.fst hxy

theorem conf_withV_eq_image (g : Graph) (colors : Nat → Nat) (v : Nat) (hv : v < g.n) :
    (confPairs g colors).filter (fun e => ¬(e.1 ≠ v ∧ e.2 ≠ v)) =
      ((neighFin g v).filter (fun x => colors x = colors v)).image (edgeOf v) := by
  ext e
  rw [Finset.mem_filter, Finset.mem_image]
  constructor
  · rintro ⟨he, hev⟩
    rw [confPairs, Finset.mem_filter, Finset.mem_product] at he
    obtain ⟨⟨he1, he2⟩, hlt, hadj, hcol⟩ := he
    rw [Finset.mem_range] at he1 he2
    push_neg at hev
    by_cases h1 : e.1 = v
    · refine ⟨e.2, ?_, ?_⟩
      · rw [Finset.mem_filter, neighFin, Finset.mem_filter, Finset.mem_range]
        refine ⟨⟨he2, ?_⟩, ?_⟩
        · rw [← h1]
          exact hadj
        · rw [← h1]
          exact hcol.symm
      · rw [edgeOf, if_pos (h1 ▸ hlt), ← h1]
    · have h2 : e.2 = v := hev h1
      refine ⟨e.1, ?_, ?_⟩
      · rw [Finset.mem_filter, neighFin, Finset.mem_filter, Finset.mem_range]
        refine ⟨⟨he1, ?_⟩, ?_⟩
        · rw [g.symm, ← h2]
          exact hadj
        · rw [← h2]
          exact hcol
      · rw [edgeOf, if_neg (by omega : ¬ e.1 < v), ← h2]
  · rintro ⟨x, hx, hex⟩
    rw [Finset.mem_filter, neighFin, Finset.mem_filter, Finset.mem_range] at hx
    obtain ⟨⟨hxn, hadj⟩, hcol⟩ := hx
    have hxv : x ≠ v := by
      intro h
      rw [h, g.loopless] at hadj
      exact Bool.false_ne_true hadj
    subst hex
    constructor
    · rw [confPairs, Finset.mem_filter, Finset.mem_product]
      unfold edgeOf
      split_ifs with h1
      · exact ⟨⟨Finset.mem_range.mpr hv, Finset.mem_range.mpr hxn⟩, h1, hadj, hcol.symm⟩
      · refine ⟨⟨Finset.mem_range.mpr hxn, Finset.mem_range.mpr hv⟩, by omega, ?_, hcol⟩
        rw [g.symm]
        exact hadj
    · unfold edgeOf
      split_ifs with h1
      · rintro ⟨hh1, hh2⟩
        exact hh1 rfl
      · rintro ⟨hh1, hh2⟩
        exact hh2 rfl

theorem conf_split (g : Graph) (colors : Nat → Nat) (v : Nat) (hv : v < g.n)
    (F : Nat × Nat → Int) :
    ∑ e ∈ confPairs g colors, F e =
      (∑ e ∈ (confPairs g colors).filter (fun e => e.1 ≠ v ∧ e.2 ≠ v), F e)
        + ∑ x ∈ (neighFin g v).filter (fun x => colors x = colors v), F (edgeOf v x) := by
  rw [← Finset.sum_filter_add_sum_filter_not (confPairs g colors)
    (fun e => e.1 ≠ v ∧ e.2 ≠ v) F]
  congr 1
  rw [conf_withV_eq_image g colors v hv, Finset.sum_image]
  exact edgeOf_injOn g v colors (colors v)

theorem sum_erase_int (s : Finset Nat) (f : Nat → Int) (v : Nat) :
    ∑ x ∈ s, f x = (∑ x ∈ s.erase v, f x) + (if v ∈ s then f v else 0) := by
  by_cases h : v ∈ s
  · rw [if_pos h, Finset.sum_erase_add s f h]
  · rw [if_neg h, Finset.erase_eq_of_not_mem h, add_zero]

theorem card_erase_int (s : Finset Nat) (v : Nat) :
    (s.card : Int) = ((s.erase v).card : Int) + (if v ∈ s then 1 else 0) := by
  by_cases h : v ∈ s
  · rw [if_pos h, Finset.card_erase_of_mem h]
    have : 1 ≤ s.card := Finset.card_pos.mpr ⟨v, h⟩
    push_cast [Nat.cast_sub this]
    ring
  · rw [if_neg h, Finset.erase_eq_of_not_mem h, add_zero]

theorem mem_neighFin (g : Graph) (v x : Nat) :
    x ∈ neighFin g v ↔ g.adj v x = true := by
  rw [neighFin, Finset.mem_filter, Finset.mem_range]
  constructor
  · intro h
    exact h.2
  · intro h
    exact ⟨(g.bounded v x h).2, h⟩

theorem neighFin_ne (g : Graph) (v x : Nat) (hx : x ∈ neighFin g v) : x ≠ v := by
  intro h
  rw [mem_neighFin, h, g.loopless] at hx
  exact Bool.false_ne_true hx

theorem confPairs_mem_noV_congr (g : Graph) (colors : Nat → Nat) (v nx : Nat)
    (e : Nat × Nat) (h1 : e.1 ≠ v) (h2 : e.2 ≠ v) :
    e ∈ confPairs g (fupd colors v nx) ↔ e ∈ confPairs g colors := by
  rw [confPairs, confPairs, Finset.mem_filter, Finset.mem_filter]
  rw [fupd_other _ _ _ _ h1, fupd_other _ _ _ _ h2]

theorem conf_noV_congr (g : Graph) (colors : Nat → Nat) (v nx : Nat) :
    (confPairs g (fupd colors v nx)).filter (fun e => e.1 ≠ v ∧ e.2 ≠ v) =
      (confPairs g colors).filter (fun e => e.1 ≠ v ∧ e.2 ≠ v) := by
  ext e
  rw [Finset.mem_filter, Finset.mem_filter]
  constructor
  · rintro ⟨hm, hv1, hv2⟩
    exact ⟨(confPairs_mem_noV_congr g colors v nx e hv1 hv2).mp hm, hv1, hv2⟩
  · rintro ⟨hm, hv1, hv2⟩
    exact ⟨(confPairs_mem_noV_congr g colors v nx e hv1 hv2).mpr hm, hv1, hv2⟩

theorem neighFilter_fupd (g : Graph) (colors : Nat → Nat) (v nx : Nat) (u col : Nat) :
    (neighFin g u).filter (fun x => fupd colors v nx x = col) =
      ((neighFin g u).filter (fun x => colors x = col)).erase v ∪
        (if nx = col ∧ v ∈ neighFin g u then {v} else ∅) := by
  ext x
  by_cases hxv : x = v
  · subst hxv
    simp only [Finset.mem_filter, Finset.mem_union, Finset.mem_erase, ne_eq,
      not_true_eq_false, false_and, false_or]
    rw [fupd_same]
    split_ifs with h
    · simp only [Finset.mem_singleton]
      constructor
      · intro _
        trivial
      · intro _
        exact ⟨h.2, h.1⟩
    · simp only [Finset.not_mem_empty, iff_false, not_and]
      intro hm habs
      exact h ⟨habs, hm⟩
  · simp only [Finset.mem_filter, Finset.mem_union, Finset.mem_erase, ne_eq, hxv,
      not_false_eq_true, true_and]
    rw [fupd_other _ _ _ _ hxv]
    split_ifs with h
    · simp only [Finset.mem_singleton, hxv, or_false]
    · simp only [Finset.not_mem_empty, or_false]

theorem sum_neighFilter_fupd (g : Graph) (colors : Nat → Nat) (v nx : Nat)
    (u col : Nat) (f : Nat → Int) :
    ∑ x ∈ (neighFin g u).filter (fun x => fupd colors v nx x = col), f x =
      (∑ x ∈ (neighFin g u).filter (fun x => colors x = col), f x)
        - (if colors v = col ∧ v ∈ neighFin g u then f v else 0)
        + (if nx = col ∧ v ∈ neighFin g u then f v else 0) := by
  rw [neighFilter_fupd]
  have hdisj : Disjoint (((neighFin g u).filter (fun x => colors x = col)).erase v)
      (if nx = col ∧ v ∈ neighFin g u then ({v} : Finset Nat) else ∅) := by
    split_ifs with h
    · rw [Finset.disjoint_singleton_right]
      exact fun hmem => (Finset.mem_erase.mp hmem).1 rfl
    · exact Finset.disjoint_empty_right _
  rw [Finset.sum_union hdisj]
  have h1 : ∑ x ∈ ((neighFin g u).filter (fun x => colors x = col)).erase v, f x =
      (∑ x ∈ (neighFin g u).filter (fun x => colors x = col), f x)
        - (if colors v = col ∧ v ∈ neighFin g u then f v else 0) := by
    rw [sum_erase_int ((neighFin g u).filter (fun x => colors x = col)) f v]
    by_cases h : colors v = col ∧ v ∈ neighFin g u
    · rw [if_pos h]
      have hm : v ∈ (neighFin g u).filter (fun x => colors x = col) :=
        Finset.mem_filter.mpr ⟨h.2, h.1⟩
      rw [if_pos hm]
      ring
    · rw [if_neg h]
      have hnm : v ∉ (neighFin g u).filter (fun x => colors x = col) := by
        intro hh
        rcases Finset.mem_filter.mp hh with ⟨ha, hb⟩
        exact h ⟨hb, ha⟩
      rw [if_neg hnm]
      ring
  rw [h1]
  have h2 : ∑ x ∈ (if nx = col ∧ v ∈ neighFin g u then ({v} : Finset Nat) else ∅), f x =
      (if nx = col ∧ v ∈ neighFin g u then f v else 0) := by
    split_ifs with h
    · rw [Finset.sum_singleton]
    · rw [Finset.sum_empty]
  rw [h2]

theorem gwF_comm (w : Nat → Nat → Int) (u v : Nat) : gwF w u v = gwF w v u := by
  unfold gwF
  split_ifs with h1 h2 h2
  · omega
  · rfl
  · rfl
  · have : u = v := by omega
    rw [this]

/-- On the neighborhood of the recolored vertex, the updated coloring reads
the old colors (no neighbor is `v` itself). -/
theorem neighFilter_fupd_at (g : Graph) (colors : Nat → Nat) (v nx col : Nat) :
    (neighFin g v).filter (fun x => fupd colors v nx x = col) =
      (neighFin g v).filter (fun x => colors x = col) := by
  refine Finset.filter_congr ?_
  intro x hx
  rw [fupd_other _ _ _ _ (neighFin_ne g v x hx)]

theorem sum_ones_int (s : Finset Nat) : ∑ _x ∈ s, (1 : Int) = (s.card : Int) := by
  rw [Finset.sum_const, nsmul_eq_mul, mul_one]

theorem sum_ones_pairs_int (s : Finset (Nat × Nat)) :
    ∑ _e ∈ s, (1 : Int) = (s.card : Int) := by
  rw [Finset.sum_const, nsmul_eq_mul, mul_one]

/-- Effect of recoloring `v` to `nx` on the number of conflicting edges. -/
theorem nbceSpec_fupd (g : Graph) (colors : Nat → Nat) (v nx : Nat) (hv : v < g.n) :
    nbceSpec g (fupd colors v nx) =
      nbceSpec g colors
        - (((neighFin g v).filter (fun x => colors x = colors v)).card : Int)
        + (((neighFin g v).filter (fun x => colors x = nx)).card : Int) := by
  have hs : ∀ cs : Nat → Nat, nbceSpec g cs = ∑ _e ∈ confPairs g cs, (1 : Int) := by
    intro cs
    rw [nbceSpec, sum_ones_pairs_int]
  rw [hs, hs, conf_split g (fupd colors v nx) v hv (fun _ => 1),
    conf_split g colors v hv (fun _ => 1), conf_noV_congr]
  have h1 : (neighFin g v).filter (fun x => fupd colors v nx x = fupd colors v nx v) =
      (neighFin g v).filter (fun x => colors x = nx) := by
    refine Finset.filter_congr ?_
    intro x hx
    rw [fupd_other _ _ _ _ (neighFin_ne g v x hx), fupd_same]
  rw [h1, sum_ones_int, sum_ones_int]
  ring

/-- Effect of recoloring `v` to `nx` on the total conflict weight, for any
weight table that agrees with the old one off `v` and was incremented on the
new-color neighbors of `v` (the `increase_weight` calls of the loop). -/
theorem twSpec_fupd (g : Graph) (colors : Nat → Nat) (w w2 : Nat → Nat → Int)
    (v nx : Nat) (hv : v < g.n)
    (hnov : ∀ x y, x ≠ v → y ≠ v → gwF w2 x y = gwF w x y)
    (hatv : ∀ x, x ≠ v →
      gwF w2 x v = if g.adj v x = true ∧ colors x = nx
        then (gwF w x v + 1) % 65536 else gwF w x v) :
    twSpec g (fupd colors v nx) w2 % 65536 =
      (twSpec g colors w - nbwSpec g colors w v (colors v) + nbwSpec g colors w v nx
        + (((neighFin g v).filter (fun x => colors x = nx)).card : Int)) % 65536 := by
  rw [twSpec, twSpec, conf_split g (fupd colors v nx) v hv (fun e => gwF w2 e.1 e.2),
    conf_split g colors v hv (fun e => gwF w e.1 e.2), conf_noV_congr]
  have hnoveq : ∑ e ∈ (confPairs g colors).filter (fun e => e.1 ≠ v ∧ e.2 ≠ v),
      gwF w2 e.1 e.2 =
      ∑ e ∈ (confPairs g colors).filter (fun e => e.1 ≠ v ∧ e.2 ≠ v), gwF w e.1 e.2 := by
    refine Finset.sum_congr rfl ?_
    intro e he
    obtain ⟨_, h1, h2⟩ := Finset.mem_filter.mp he
    exact hnov e.1 e.2 h1 h2
  rw [hnoveq]
  have h1 : (neighFin g v).filter (fun x => fupd colors v nx x = fupd colors v nx v) =
      (neighFin g v).filter (fun x => colors x = nx) := by
    refine Finset.filter_congr ?_
    intro x hx
    rw [fupd_other _ _ _ _ (neighFin_ne g v x hx), fupd_same]
  rw [h1]
  have hterm : ∀ x ∈ (neighFin g v).filter (fun x => colors x = nx),
      gwF w2 (edgeOf v x).1 (edgeOf v x).2 = (gwF w x v + 1) % 65536 := by
    intro x hx
    obtain ⟨hm, hc⟩ := Finset.mem_filter.mp hx
    rw [gwF_edgeOf, hatv x (neighFin_ne g v x hm),
      if_pos (⟨(mem_neighFin g v x).mp hm, hc⟩ : _ ∧ _)]
  rw [Finset.sum_congr rfl hterm]
  have hmod := (Finset.sum_int_mod ((neighFin g v).filter (fun x => colors x = nx))
    65536 (fun x => gwF w x v + 1)).symm
  simp only [] at hmod
  have hsum : ∑ x ∈ (neighFin g v).filter (fun x => colors x = nx),
      (gwF w x v + 1) =
      (∑ x ∈ (neighFin g v).filter (fun x => colors x = nx), gwF w x v)
        + (((neighFin g v).filter (fun x => colors x = nx)).card : Int) := by
    rw [Finset.sum_add_distrib, sum_ones_int]
  rw [hsum] at hmod
  have h3 : ∑ x ∈ (neighFin g v).filter (fun x => colors x = colors v),
      gwF w (edgeOf v x).1 (edgeOf v x).2 =
      ∑ x ∈ (neighFin g v).filter (fun x => colors x = colors v), gwF w x v := by
    refine Finset.sum_congr rfl ?_
    intro x _
    rw [gwF_edgeOf]
  rw [h3, nbwSpec, nbwSpec]
  omega

/-- Conflict count of the recolored vertex itself. -/
theorem vncSpec_fupd_v (g : Graph) (colors : Nat → Nat) (v nx : Nat) :
    vncSpec g (fupd colors v nx) v =
      (((neighFin g v).filter (fun x => colors x = nx)).card : Int) := by
  have h : (neighFin g v).filter (fun u => fupd colors v nx u = fupd colors v nx v) =
      (neighFin g v).filter (fun x => colors x = nx) := by
    refine Finset.filter_congr ?_
    intro x hx
    rw [fupd_other _ _ _ _ (neighFin_ne g v x hx), fupd_same]
  rw [vncSpec, h]

/-- Conflict count of any other vertex after the recoloring. -/
theorem vncSpec_fupd_off (g : Graph) (colors : Nat → Nat) (v nx : Nat) (u : Nat)
    (huv : u ≠ v) :
    vncSpec g (fupd colors v nx) u =
      vncSpec g colors u
        - (if g.adj u v = true ∧ colors v = colors u then 1 else 0)
        + (if g.adj u v = true ∧ nx = colors u then 1 else 0) := by
  rw [vncSpec, vncSpec]
  have hcu : fupd colors v nx u = colors u := fupd_other _ _ _ _ huv
  rw [hcu]
  rw [card_erase_int ((neighFin g u).filter (fun x => fupd colors v nx x = colors u)) v,
    card_erase_int ((neighFin g u).filter (fun x => colors x = colors u)) v]
  have herase : ((neighFin g u).filter (fun x => fupd colors v nx x = colors u)).erase v =
      ((neighFin g u).filter (fun x => colors x = colors u)).erase v := by
    ext x
    rw [Finset.mem_erase, Finset.mem_erase, Finset.mem_filter, Finset.mem_filter]
    constructor
    · rintro ⟨hxv, hm, hc⟩
      rw [fupd_other _ _ _ _ hxv] at hc
      exact ⟨hxv, hm, hc⟩
    · rintro ⟨hxv, hm, hc⟩
      refine ⟨hxv, hm, ?_⟩
      rw [fupd_other _ _ _ _ hxv]
      exact hc
  rw [herase]
  have hmemA : v ∈ (neighFin g u).filter (fun x => fupd colors v nx x = colors u) ↔
      (g.adj u v = true ∧ nx = colors u) := by
    rw [Finset.mem_filter, fupd_same, mem_neighFin]
  have hmemB : v ∈ (neighFin g u).filter (fun x => colors x = colors u) ↔
      (g.adj u v = true ∧ colors v = colors u) := by
    rw [Finset.mem_filter, mem_neighFin]
  by_cases hA : g.adj u v = true ∧ nx = colors u
  · rw [if_pos (hmemA.mpr hA), if_pos hA]
    by_cases hB : g.adj u v = true ∧ colors v = colors u
    · rw [if_pos (hmemB.mpr hB), if_pos hB]
      ring
    · rw [if_neg (fun h => hB (hmemB.mp h)), if_neg hB]
      ring
  · rw [if_neg (fun h => hA (hmemA.mp h)), if_neg hA]
    by_cases hB : g.adj u v = true ∧ colors v = colors u
    · rw [if_pos (hmemB.mpr hB), if_pos hB]
      ring
    · rw [if_neg (fun h => hB (hmemB.mp h)), if_neg hB]
      ring

/-- `weights_neigh_colors` row of the recolored vertex after the update. -/
theorem nbwSpec_fupd_v (g : Graph) (colors : Nat → Nat) (w w2 : Nat → Nat → Int)
    (v nx : Nat) (c : Nat)
    (hatv : ∀ x, x ≠ v →
      gwF w2 x v = if g.adj v x = true ∧ colors x = nx
        then (gwF w x v + 1) % 65536 else gwF w x v) :
    nbwSpec g (fupd colors v nx) w2 v c % 65536 =
      (nbwSpec g colors w v c
        + (if c = nx then (((neighFin g v).filter (fun x => colors x = nx)).card : Int)
           else 0)) % 65536 := by
  rw [nbwSpec, nbwSpec, neighFilter_fupd_at]
  by_cases hc : c = nx
  · rw [hc, if_pos rfl]
    have hterm : ∀ x ∈ (neighFin g v).filter (fun x => colors x = nx),
        gwF w2 x v = (gwF w x v + 1) % 65536 := by
      intro x hx
      obtain ⟨hm, hcx⟩ := Finset.mem_filter.mp hx
      rw [hatv x (neighFin_ne g v x hm),
        if_pos (⟨(mem_neighFin g v x).mp hm, hcx⟩ : _ ∧ _)]
    rw [Finset.sum_congr rfl hterm]
    have hmod := (Finset.sum_int_mod ((neighFin g v).filter (fun x => colors x = nx))
      65536 (fun x => gwF w x v + 1)).symm
    simp only [] at hmod
    have hsum : ∑ x ∈ (neighFin g v).filter (fun x => colors x = nx),
        (gwF w x v + 1) =
        (∑ x ∈ (neighFin g v).filter (fun x => colors x = nx), gwF w x v)
          + (((neighFin g v).filter (fun x => colors x = nx)).card : Int) := by
      rw [Finset.sum_add_distrib, sum_ones_int]
    rw [hsum] at hmod
    omega
  · rw [if_neg hc, add_zero]
    have hterm : ∀ x ∈ (neighFin g v).filter (fun x => colors x = c),
        gwF w2 x v = gwF w x v := by
      intro x hx
      obtain ⟨hm, hcx⟩ := Finset.mem_filter.mp hx
      rw [hatv x (neighFin_ne g v x hm), if_neg (fun h => hc (hcx.symm.trans h.2))]
    rw [Finset.sum_congr rfl hterm]

/-- `weights_neigh_colors` rows of the other vertices after the update. -/
theorem nbwSpec_fupd_off (g : Graph) (colors : Nat → Nat) (w w2 : Nat → Nat → Int)
    (v nx : Nat) (u c : Nat) (huv : u ≠ v)
    (hnov : ∀ x y, x ≠ v → y ≠ v → gwF w2 x y = gwF w x y)
    (hatv : ∀ x, x ≠ v →
      gwF w2 x v = if g.adj v x = true ∧ colors x = nx
        then (gwF w x v + 1) % 65536 else gwF w x v) :
    nbwSpec g (fupd colors v nx) w2 u c =
      nbwSpec g colors w u c
        - (if g.adj u v = true ∧ colors v = c then gwF w v u else 0)
        + (if g.adj u v = true ∧ nx = c then
            (if g.adj u v = true ∧ colors u = nx then (gwF w v u + 1) % 65536
             else gwF w v u) else 0) := by
  have hw2vu : gwF w2 v u =
      if g.adj u v = true ∧ colors u = nx then (gwF w v u + 1) % 65536
      else gwF w v u := by
    rw [gwF_comm w2 v u, hatv u huv, gwF_comm w u v, g.symm v u]
  rw [nbwSpec, nbwSpec,
    sum_neighFilter_fupd g colors v nx u c (fun x => gwF w2 x u)]
  have hBexp : ∑ x ∈ (neighFin g u).filter (fun x => colors x = c), gwF w2 x u =
      (∑ x ∈ ((neighFin g u).filter (fun x => colors x = c)).erase v, gwF w x u)
        + (if v ∈ (neighFin g u).filter (fun x => colors x = c) then gwF w2 v u
           else 0) := by
    rw [sum_erase_int ((neighFin g u).filter (fun x => colors x = c))
      (fun x => gwF w2 x u) v]
    congr 1
    refine Finset.sum_congr rfl ?_
    intro x hx
    exact hnov x u (Finset.mem_erase.mp hx).1 huv
  have hB2exp : ∑ x ∈ (neighFin g u).filter (fun x => colors x = c), gwF w x u =
      (∑ x ∈ ((neighFin g u).filter (fun x => colors x = c)).erase v, gwF w x u)
        + (if v ∈ (neighFin g u).filter (fun x => colors x = c) then gwF w v u
           else 0) :=
    sum_erase_int _ _ v
  rw [hBexp, hB2exp, hw2vu]
  have hmem : v ∈ (neighFin g u).filter (fun x => colors x = c) ↔
      (g.adj u v = true ∧ colors v = c) := by
    rw [Finset.mem_filter, mem_neighFin]
  have hNu : v ∈ neighFin g u ↔ g.adj u v = true := mem_neighFin g u v
  by_cases ha : g.adj u v = true
  · by_cases h1 : colors v = c
    · have pA : v ∈ (neighFin g u).filter (fun x => colors x = c) := hmem.mpr ⟨ha, h1⟩
      have pB : colors v = c ∧ v ∈ neighFin g u := ⟨h1, hNu.mpr ha⟩
      have pE : g.adj u v = true ∧ colors v = c := ⟨ha, h1⟩
      by_cases h2 : nx = c
      · have pC : nx = c ∧ v ∈ neighFin g u := ⟨h2, hNu.mpr ha⟩
        have pF : g.adj u v = true ∧ nx = c := ⟨ha, h2⟩
        rw [if_pos pA, if_pos pB, if_pos pC, if_pos pA, if_pos pE, if_pos pF]
        ring
      · have nC : ¬(nx = c ∧ v ∈ neighFin g u) := fun h => h2 h.1
        have nF : ¬(g.adj u v = true ∧ nx = c) := fun h => h2 h.2
        rw [if_pos pA, if_pos pB, if_neg nC, if_pos pA, if_pos pE, if_neg nF]
        ring
    · have nA : v ∉ (neighFin g u).filter (fun x => colors x = c) :=
        fun h => h1 (hmem.mp h).2
      have nB : ¬(colors v = c ∧ v ∈ neighFin g u) := fun h => h1 h.1
      have nE : ¬(g.adj u v = true ∧ colors v = c) := fun h => h1 h.2
      by_cases h2 : nx = c
      · have pC : nx = c ∧ v ∈ neighFin g u := ⟨h2, hNu.mpr ha⟩
        have pF : g.adj u v = true ∧ nx = c := ⟨ha, h2⟩
        rw [if_neg nA, if_neg nB, if_pos pC, if_neg nA, if_neg nE, if_pos pF]
      · have nC : ¬(nx = c ∧ v ∈ neighFin g u) := fun h => h2 h.1
        have nF : ¬(g.adj u v = true ∧ nx = c) := fun h => h2 h.2
        rw [if_neg nA, if_neg nB, if_neg nC, if_neg nA, if_neg nE, if_neg nF]
  · have nA : v ∉ (neighFin g u).filter (fun x => colors x = c) :=
      fun h => ha (hmem.mp h).1
    have nB : ¬(colors v = c ∧ v ∈ neighFin g u) := fun h => ha (hNu.mp h.2)
    have nC : ¬(nx = c ∧ v ∈ neighFin g u) := fun h => ha (hNu.mp h.2)
    have nE : ¬(g.adj u v = true ∧ colors v = c) := fun h => ha h.1
    have nF : ¬(g.adj u v = true ∧ nx = c) := fun h => ha h.1
    rw [if_neg nA, if_neg nB, if_neg nC, if_neg nA, if_neg nE, if_neg nF]

theorem filter_fupd_set (s : Finset Nat) (colors : Nat → Nat) (v nx col : Nat) :
    s.filter (fun x => fupd colors v nx x = col) =
      (s.filter (fun x => colors x = col)).erase v ∪
        (if nx = col ∧ v ∈ s then {v} else ∅) := by
  ext x
  by_cases hxv : x = v
  · subst hxv
    simp only [Finset.mem_filter, Finset.mem_union, Finset.mem_erase, ne_eq,
      not_true_eq_false, false_and, false_or]
    rw [fupd_same]
    split_ifs with h
    · simp only [Finset.mem_singleton]
      constructor
      · intro _
        trivial
      · intro _
        exact ⟨h.2, h.1⟩
    · simp only [Finset.not_mem_empty, iff_false, not_and]
      intro hm habs
      exact h ⟨habs, hm⟩
  · simp only [Finset.mem_filter, Finset.mem_union, Finset.mem_erase, ne_eq, hxv,
      not_false_eq_true, true_and]
    rw [fupd_other _ _ _ _ hxv]
    split_ifs with h
    · simp only [Finset.mem_singleton, hxv, or_false]
    · simp only [Finset.not_mem_empty, or_false]

/-- Effect of the recoloring on the per-color vertex counts (the source
decrements the old color and increments the new one, in `usize`). -/
theorem cvnSpec_fupd_eq (g : Graph) (colors : Nat → Nat) (v nx : Nat) (hv : v < g.n)
    (c : Nat) :
    cvnSpec g (fupd colors v nx) c =
      cvnSpec g colors c - (if c = colors v then 1 else 0)
        + (if c = nx then 1 else 0) := by
  rw [cvnSpec, cvnSpec, filter_fupd_set]
  have hvr : v ∈ Finset.range g.n := Finset.mem_range.mpr hv
  by_cases hcn : nx = c
  · rw [if_pos (⟨hcn, hvr⟩ : nx = c ∧ v ∈ Finset.range g.n)]
    have hdisj : Disjoint (((Finset.range g.n).filter (fun x => colors x = c)).erase v)
        ({v} : Finset Nat) := by
      rw [Finset.disjoint_singleton_right]
      exact fun hmem => (Finset.mem_erase.mp hmem).1 rfl
    rw [Finset.card_union_of_disjoint hdisj, Finset.card_singleton]
    by_cases hcp : c = colors v
    · have hvf : v ∈ (Finset.range g.n).filter (fun x => colors x = c) :=
        Finset.mem_filter.mpr ⟨hvr, hcp.symm⟩
      rw [Finset.card_erase_of_mem hvf, if_pos hcp, if_pos hcn.symm]
    · have hvf : v ∉ (Finset.range g.n).filter (fun x => colors x = c) := by
        intro h
        exact hcp ((Finset.mem_filter.mp h).2).symm
      rw [Finset.erase_eq_of_not_mem hvf, if_neg hcp, if_pos hcn.symm]
      omega
  · rw [if_neg (fun h => hcn h.1), Finset.union_empty]
    by_cases hcp : c = colors v
    · have hvf : v ∈ (Finset.range g.n).filter (fun x => colors x = c) :=
        Finset.mem_filter.mpr ⟨hvr, hcp.symm⟩
      rw [Finset.card_erase_of_mem hvf, if_pos hcp, if_neg (fun h => hcn h.symm)]
      omega
    · have hvf : v ∉ (Finset.range g.n).filter (fun x => colors x = c) := by
        intro h
        exact hcp ((Finset.mem_filter.mp h).2).symm
      rw [Finset.erase_eq_of_not_mem hvf, if_neg hcp, if_neg (fun h => hcn h.symm)]
      omega

/-- Properness of a total coloring: no edge is monochromatic. -/
def properColoring (g : Graph) (colors : Nat → Nat) : Prop :=
  ∀ u v, g.adj u v = true → colors u ≠ colors v

theorem confPairs_empty_iff (g : Graph) (colors : Nat → Nat) :
    confPairs g colors = ∅ ↔ properColoring g colors := by
  constructor
  · intro h u v hadj hcol
    have huv : u ≠ v := by
      intro he
      rw [he, g.loopless] at hadj
      exact Bool.false_ne_true hadj
    have hb := g.bounded u v hadj
    by_cases hlt : v < u
    · have hm : (u, v) ∈ confPairs g colors := by
        rw [confPairs, Finset.mem_filter, Finset.mem_product]
        exact ⟨⟨Finset.mem_range.mpr hb.1, Finset.mem_range.mpr hb.2⟩, hlt, hadj, hcol⟩
      rw [h] at hm
      exact absurd hm (Finset.not_mem_empty _)
    · have hlt2 : u < v := by omega
      have hm : (v, u) ∈ confPairs g colors := by
        rw [confPairs, Finset.mem_filter, Finset.mem_product]
        refine ⟨⟨Finset.mem_range.mpr hb.2, Finset.mem_range.mpr hb.1⟩, hlt2, ?_, hcol.symm⟩
        rw [g.symm]
        exact hadj
      rw [h] at hm
      exact absurd hm (Finset.not_mem_empty _)
  · intro h
    rw [Finset.eq_empty_iff_forall_not_mem]
    intro e he
    rw [confPairs, Finset.mem_filter, Finset.mem_product] at he
    exact h e.1 e.2 he.2.2.1 he.2.2.2

/-- With all in-range learned weights ≥ 1, zero total weight characterizes
properness. -/
theorem twSpec_zero_iff (g : Graph) (colors : Nat → Nat) (w : Nat → Nat → Int)
    (hw : ∀ u v, u < g.n → v < g.n → 1 ≤ w u v) :
    twSpec g colors w = 0 ↔ properColoring g colors := by
  rw [← confPairs_empty_iff g colors]
  constructor
  · intro h
    by_contra hne
    obtain ⟨e, he⟩ := Finset.nonempty_iff_ne_empty.mpr hne
    have hcard : (0 : Int) < ((confPairs g colors).card : Int) := by
      have := Finset.card_pos.mpr ⟨e, he⟩
      exact_mod_cast this
    have hle : ((confPairs g colors).card : Int) ≤ twSpec g colors w := by
      rw [twSpec, ← sum_ones_pairs_int]
      refine Finset.sum_le_sum ?_
      intro e hee
      rw [confPairs, Finset.mem_filter, Finset.mem_product, Finset.mem_range,
        Finset.mem_range] at hee
      rw [gwF]
      split_ifs
      · exact hw _ _ hee.1.2 hee.1.1
      · exact hw _ _ hee.1.1 hee.1.2
    linarith
  · intro h
    rw [twSpec, h, Finset.sum_empty]

/-- With all in-range learned weights ≥ 1, the total weight is nonnegative. -/
theorem twSpec_nonneg (g : Graph) (colors : Nat → Nat) (w : Nat → Nat → Int)
    (hw : ∀ u v, u < g.n → v < g.n → 1 ≤ w u v) :
    0 ≤ twSpec g colors w := by
  rw [twSpec]
  refine Finset.sum_nonneg ?_
  intro e hee
  rw [confPairs, Finset.mem_filter, Finset.mem_product, Finset.mem_range,
    Finset.mem_range] at hee
  rw [gwF]
  split_ifs
  · linarith [hw _ _ hee.1.2 hee.1.1]
  · linarith [hw _ _ hee.1.1 hee.1.2]

/-- Handshake for conflict counts: the per-vertex conflict counts sum to
twice the number of conflicting edges. -/
theorem handshake_nat (g : Graph) (colors : Nat → Nat) :
    ∑ x ∈ Finset.range g.n,
        ((neighFin g x).filter (fun u => colors u = colors x)).card =
      2 * (confPairs g colors).card := by
  classical
  set P := ((Finset.range g.n) ×ˢ (Finset.range g.n)).filter
    (fun e => g.adj e.1 e.2 = true ∧ colors e.1 = colors e.2) with hP
  have h1 : P.card = ∑ x ∈ Finset.range g.n, (P.filter (fun e => e.1 = x)).card := by
    refine Finset.card_eq_sum_card_fiberwise ?_
    intro e he
    rw [hP, Finset.mem_filter, Finset.mem_product] at he
    exact he.1.1
  have h2 : ∀ x, (P.filter (fun e => e.1 = x)).card =
      ((neighFin g x).filter (fun u => colors u = colors x)).card := by
    intro x
    have himg : P.filter (fun e => e.1 = x) =
        ((neighFin g x).filter (fun u => colors u = colors x)).image
          (fun u => (x, u)) := by
      ext e
      rw [Finset.mem_filter, hP, Finset.mem_filter, Finset.mem_product,
        Finset.mem_image]
      constructor
      · rintro ⟨⟨⟨hr1, hr2⟩, hadj, hcol⟩, hfst⟩
        refine ⟨e.2, ?_, ?_⟩
        · rw [Finset.mem_filter, mem_neighFin]
          constructor
          · rw [← hfst]
            exact hadj
          · rw [← hfst]
            exact hcol.symm
        · rw [Prod.ext_iff]
          exact ⟨hfst.symm, rfl⟩
      · rintro ⟨u, hu, hue⟩
        rw [Finset.mem_filter, mem_neighFin] at hu
        obtain ⟨hadj, hcol⟩ := hu
        subst hue
        refine ⟨⟨⟨?_, ?_⟩, ?_, ?_⟩, rfl⟩
        · exact Finset.mem_range.mpr (g.bounded x u hadj).1
        · exact Finset.mem_range.mpr (g.bounded x u hadj).2
        · exact hadj
        · exact hcol.symm
    rw [himg, Finset.card_image_of_injective _ (fun a b h => congrArg Prod.snd h)]
  have h3 : P.filter (fun e => e.2 < e.1) = confPairs g colors := by
    ext e
    rw [Finset.mem_filter, hP, Finset.mem_filter, confPairs, Finset.mem_filter]
    tauto
  have h4 : P.filter (fun e => ¬ e.2 < e.1) = (confPairs g colors).image Prod.swap := by
    ext e
    rw [Finset.mem_filter, hP, Finset.mem_filter, Finset.mem_image]
    constructor
    · rintro ⟨⟨hmem, hadj, hcol⟩, hlt⟩
      have hne : e.1 ≠ e.2 := by
        intro h
        rw [h, g.loopless] at hadj
        exact Bool.false_ne_true hadj
      rw [Finset.mem_product] at hmem
      refine ⟨(e.2, e.1), ?_, ?_⟩
      · rw [confPairs, Finset.mem_filter, Finset.mem_product]
        refine ⟨⟨hmem.2, hmem.1⟩, by omega, ?_, hcol.symm⟩
        rw [g.symm]
        exact hadj
      · rfl
    · rintro ⟨a, ha, hae⟩
      rw [confPairs, Finset.mem_filter, Finset.mem_product] at ha
      obtain ⟨⟨ha1, ha2⟩, halt, haadj, hacol⟩ := ha
      subst hae
      refine ⟨⟨?_, ?_, ?_⟩, ?_⟩
      · rw [Finset.mem_product]
        exact ⟨ha2, ha1⟩
      · rw [g.symm]
        exact haadj
      · exact hacol.symm
      · show ¬ a.1 < a.2
        omega
  have h6 : (P.filter (fun e => e.2 < e.1)).card
      + (P.filter (fun e => ¬ e.2 < e.1)).card = P.card :=
    Finset.filter_card_add_filter_neg_card_eq_card
      (fun e : Nat × Nat => e.2 < e.1)
  have h7 : ∑ x ∈ Finset.range g.n,
      ((neighFin g x).filter (fun u => colors u = colors x)).card = P.card := by
    rw [h1]
    exact Finset.sum_congr rfl (fun x _ => (h2 x).symm)
  rw [h7, ← h6, h3, h4,
    Finset.card_image_of_injective _ Prod.swap_injective]
  omega

theorem handshakeSpec (g : Graph) (colors : Nat → Nat) :
    ∑ x ∈ Finset.range g.n, vncSpec g colors x = 2 * nbceSpec g colors := by
  have h := handshake_nat g colors
  unfold vncSpec nbceSpec
  exact_mod_cast h

theorem countIn_congr (cs cs2 : Nat → Nat) (L : List Nat)
    (h : ∀ x ∈ L, cs x = cs2 x) (col : Nat) :
    countIn cs L col = countIn cs2 L col := by
  rw [countIn, countIn]
  have heq : L.filter (fun x => cs x = col) = L.filter (fun x => cs2 x = col) := by
    refine List.filter_congr ?_
    intro x hx
    rw [h x hx]
  rw [heq]

theorem getD_replicate_nil (nb c : Nat) :
    (List.replicate nb ([] : List Nat)).getD c [] = [] := by
  rw [List.getD_eq_getElem?_getD, List.getElem?_replicate]
  split_ifs <;> rfl

theorem buildSol_length (nb : Nat) (colors : Nat → Nat) (n : Nat) :
    (buildSol nb colors n).length = nb := by
  have hfold : ∀ (M : List Nat) (ns : List (List Nat)),
      (M.foldl (fun ns v => ns.set (colors v) ((ns.getD (colors v) []) ++ [v]))
        ns).length = ns.length := by
    intro M
    induction M with
    | nil =>
      intro ns
      rfl
    | cons a M ih =>
      intro ns
      rw [List.foldl_cons, ih, List.length_set]
  rw [buildSol, hfold, List.length_replicate]

theorem buildSol_getD (nb : Nat) (colors : Nat → Nat) (n : Nat) :
    ∀ c, (∀ x, x < n → colors x < nb) →
      (buildSol nb colors n).getD c [] =
        (List.range n).filter (fun x => colors x = c) := by
  induction n with
  | zero =>
    intro c _
    rw [buildSol, List.range_zero, List.foldl_nil, List.filter_nil]
    exact getD_replicate_nil nb c
  | succ m ih =>
    intro c hb
    have hstep : buildSol nb colors (m + 1) =
        (buildSol nb colors m).set (colors m)
          (((buildSol nb colors m).getD (colors m) []) ++ [m]) := by
      rw [buildSol, buildSol, List.range_succ, List.foldl_append, List.foldl_cons,
        List.foldl_nil]
    have hbm : ∀ x, x < m → colors x < nb := fun x hx => hb x (by omega)
    have hlen : (buildSol nb colors m).length = nb := buildSol_length nb colors m
    have hmlt : colors m < nb := hb m (by omega)
    rw [hstep, List.range_succ, List.filter_append, List.getD_eq_getElem?_getD,
      List.getElem?_set]
    by_cases hc : colors m = c
    · rw [if_pos hc, if_pos (by omega : colors m < (buildSol nb colors m).length)]
      rw [Option.getD_some, hc, ih c hbm, List.filter_cons]
      rw [if_pos (by simpa using hc), List.filter_nil]
    · rw [if_neg hc, ← List.getD_eq_getElem?_getD, ih c hbm, List.filter_cons]
      rw [if_neg (by simpa using hc), List.filter_nil, List.append_nil]

theorem buildSol_getElem (nb : Nat) (colors : Nat → Nat) (n : Nat)
    (hb : ∀ x, x < n → colors x < nb) (c : Nat)
    (hc : c < (buildSol nb colors n).length) :
    (buildSol nb colors n)[c] = (List.range n).filter (fun x => colors x = c) := by
  have h := buildSol_getD nb colors n c hb
  rw [List.getD_eq_getElem?_getD, List.getElem?_eq_getElem hc] at h
  simpa using h

theorem buildSol_isPartition (g : Graph) (nb : Nat) (colors : Nat → Nat)
    (hb : ∀ x, x < g.n → colors x < nb) :
    isPartition g.n (buildSol nb colors g.n) := by
  have hlen := buildSol_length nb colors g.n
  refine ⟨?_, ?_, ?_⟩
  · rw [List.nodup_flatten]
    constructor
    · intro l hl
      rw [List.mem_iff_getElem] at hl
      obtain ⟨i, hi, hie⟩ := hl
      rw [buildSol_getElem nb colors g.n hb i hi] at hie
      rw [← hie]
      exact List.Nodup.filter _ (List.nodup_range _)
    · rw [List.pairwise_iff_getElem]
      intro i j hi hj hij
      rw [buildSol_getElem nb colors g.n hb i hi,
        buildSol_getElem nb colors g.n hb j hj, List.disjoint_left]
      intro a ha haj
      rw [List.mem_filter] at ha haj
      have h1 : colors a = i := by simpa using ha.2
      have h2 : colors a = j := by simpa using haj.2
      omega
  · intro v hv
    rw [List.mem_flatten] at hv
    obtain ⟨l, hl, hvl⟩ := hv
    rw [List.mem_iff_getElem] at hl
    obtain ⟨i, hi, hie⟩ := hl
    rw [buildSol_getElem nb colors g.n hb i hi] at hie
    rw [← hie, List.mem_filter, List.mem_range] at hvl
    exact hvl.1
  · intro v hv
    rw [List.mem_flatten]
    have hcv : colors v < (buildSol nb colors g.n).length := by
      rw [hlen]
      exact hb v hv
    refine ⟨(List.range g.n).filter (fun x => colors x = colors v), ?_, ?_⟩
    · rw [List.mem_iff_getElem]
      exact ⟨colors v, hcv, buildSol_getElem nb colors g.n hb (colors v) hcv⟩
    · rw [List.mem_filter, List.mem_range]
      exact ⟨hv, by simp⟩

theorem buildSol_isProper (g : Graph) (nb : Nat) (colors : Nat → Nat)
    (hb : ∀ x, x < g.n → colors x < nb) (hp : properColoring g colors) :
    isProperSol g (buildSol nb colors g.n) := by
  intro cl hcl u hu v hv huv
  rw [List.mem_iff_getElem] at hcl
  obtain ⟨i, hi, hie⟩ := hcl
  rw [buildSol_getElem nb colors g.n hb i hi] at hie
  rw [← hie, List.mem_filter] at hu hv
  have hcu : colors u = i := by simpa using hu.2
  have hcv : colors v = i := by simpa using hv.2
  cases hadj : g.adj u v with
  | false => rfl
  | true => exact absurd (hcu.trans hcv.symm) (hp u v hadj)

/-! ### Closed forms for the fields of `cvcLoop` -/

theorem cvcLoop_colors (g : Graph) (s : CWLS) (v nx : Nat) :
    (cvcLoop g s v nx).colors = fupd s.colors v nx := by
  rw [cvcLoop, cvcFold_colors]
  rfl

theorem cvcLoop_untouched (g : Graph) (s : CWLS) (v nx : Nat) :
    (cvcLoop g s v nx).current_sol = s.current_sol ∧
    (cvcLoop g s v nx).nb_colors = s.nb_colors := by
  obtain ⟨h1, _, _, h4⟩ :=
    cvcFold_untouched g v (s.colors v) nx (cvcPre g s v nx) (g.neighbors v)
  exact ⟨h1.trans rfl, h4.trans rfl⟩

theorem cvcLoop_cvn (g : Graph) (s : CWLS) (v nx : Nat) :
    (cvcLoop g s v nx).colors_vertex_number =
      fupd (fupd s.colors_vertex_number (s.colors v)
          (s.colors_vertex_number (s.colors v) - 1)) nx
        ((fupd s.colors_vertex_number (s.colors v)
          (s.colors_vertex_number (s.colors v) - 1)) nx + 1) := by
  obtain ⟨_, _, h3, _⟩ :=
    cvcFold_untouched g v (s.colors v) nx (cvcPre g s v nx) (g.neighbors v)
  exact h3.trans rfl

theorem cvcLoop_bs (g : Graph) (s : CWLS) (v nx : Nat) :
    (cvcLoop g s v nx).colors_bitsets =
      fupd (fupd s.colors_bitsets (s.colors v)
          ((s.colors_bitsets (s.colors v)).erase v)) nx
        (insert v ((fupd s.colors_bitsets (s.colors v)
          ((s.colors_bitsets (s.colors v)).erase v)) nx)) := by
  obtain ⟨_, h2, _, _⟩ :=
    cvcFold_untouched g v (s.colors v) nx (cvcPre g s v nx) (g.neighbors v)
  exact h2.trans rfl

theorem cvcLoop_gwF_nov (g : Graph) (s : CWLS) (v nx : Nat) (x y : Nat)
    (hx : x ≠ v) (hy : y ≠ v) :
    gwF (cvcLoop g s v nx).weights x y = gwF s.weights x y := by
  rw [cvcLoop, cvcFold_gwF_nov g v (s.colors v) nx (cvcPre g s v nx) (g.neighbors v)
    (g.self_not_mem_neighbors v) x y hx hy]
  rfl

theorem cvcLoop_gwF_v (g : Graph) (s : CWLS) (v nx : Nat) (x : Nat) (hx : x ≠ v) :
    gwF (cvcLoop g s v nx).weights x v =
      if g.adj v x = true ∧ s.colors x = nx then (gwF s.weights x v + 1) % 65536
      else gwF s.weights x v := by
  rw [cvcLoop, cvcFold_gwF_v g v (s.colors v) nx (cvcPre g s v nx) (g.neighbors v)
    (g.self_not_mem_neighbors v) (g.neighbors_nodup v) x hx]
  have hw : (cvcPre g s v nx).weights = s.weights := rfl
  have hpc : (cvcPre g s v nx).colors x = s.colors x := by
    show fupd s.colors v nx x = s.colors x
    exact fupd_other _ _ _ _ hx
  rw [hw, hpc]
  by_cases hxL : x ∈ g.neighbors v
  · by_cases hcx : s.colors x = nx
    · rw [if_pos ⟨hxL, hcx⟩, if_pos ⟨(g.mem_neighbors v x).mp hxL, hcx⟩]
    · rw [if_neg (fun h => hcx h.2), if_neg (fun h => hcx h.2)]
  · rw [if_neg (fun h => hxL h.1),
      if_neg (fun h => hxL ((g.mem_neighbors v x).mpr h.1))]

theorem cvcLoop_weights_range (g : Graph) (s : CWLS) (v nx : Nat) (x y : Nat)
    (h : 0 ≤ s.weights x y ∧ s.weights x y < 65536) :
    0 ≤ (cvcLoop g s v nx).weights x y ∧ (cvcLoop g s v nx).weights x y < 65536 :=
  cvcFold_weights_range g v (s.colors v) nx (cvcPre g s v nx) (g.neighbors v) x y h

theorem cvcPre_countIn (g : Graph) (s : CWLS) (v nx col : Nat) :
    countIn (cvcPre g s v nx).colors (g.neighbors v) col =
      countIn s.colors (g.neighbors v) col := by
  refine countIn_congr _ _ _ ?_ col
  intro x hx
  show fupd s.colors v nx x = s.colors x
  refine fupd_other _ _ _ _ ?_
  intro hxv
  exact g.self_not_mem_neighbors v (hxv ▸ hx)

theorem cvcLoop_tw (g : Graph) (s : CWLS) (v nx : Nat) :
    (cvcLoop g s v nx).total_weight =
      (s.total_weight + s.weights_neigh_colors v nx
        - s.weights_neigh_colors v (s.colors v)
        + countIn s.colors (g.neighbors v) nx) % 65536 := by
  have h1 : (cvcPre g s v nx).total_weight = (s.total_weight
      + s.weights_neigh_colors v nx - s.weights_neigh_colors v (s.colors v))
        % 65536 := rfl
  have hred : 0 ≤ (cvcPre g s v nx).total_weight ∧
      (cvcPre g s v nx).total_weight < 65536 := by
    rw [h1]
    constructor
    · omega
    · omega
  rw [cvcLoop, cvcFold_tw _ _ _ _ _ _ hred, h1, cvcPre_countIn]
  omega

theorem cvcLoop_nbce (g : Graph) (s : CWLS) (v nx : Nat) :
    (cvcLoop g s v nx).nb_conflicting_edges =
      s.nb_conflicting_edges + countIn s.colors (g.neighbors v) nx
        - countIn s.colors (g.neighbors v) (s.colors v) := by
  rw [cvcLoop, cvcFold_nbce]
  have h1 : (cvcPre g s v nx).nb_conflicting_edges = s.nb_conflicting_edges := rfl
  have h2 : (cvcPre g s v nx).colors v = nx := fupd_same _ _ _
  rw [h1, cvcPre_countIn, cvcPre_countIn]

theorem cvcLoop_vnc (g : Graph) (s : CWLS) (v nx : Nat) (x : Nat) :
    (cvcLoop g s v nx).vertex_nb_conflicts x =
      s.vertex_nb_conflicts x
        + (if x = v then countIn s.colors (g.neighbors v) nx
              - countIn s.colors (g.neighbors v) (s.colors v) else 0)
        + (if x ∈ g.neighbors v then
            (if s.colors x = nx then 1 else 0)
              - (if s.colors x = s.colors v then 1 else 0)
          else 0) := by
  rw [cvcLoop, cvcFold_vnc g v (s.colors v) nx (cvcPre g s v nx) (g.neighbors v)
    (g.self_not_mem_neighbors v) (g.neighbors_nodup v) x]
  have h0 : (cvcPre g s v nx).vertex_nb_conflicts = s.vertex_nb_conflicts := rfl
  rw [h0, cvcPre_countIn, cvcPre_countIn]
  by_cases hxL : x ∈ g.neighbors v
  · have hxv : x ≠ v := fun h => g.self_not_mem_neighbors v (h ▸ hxL)
    have hpc : (cvcPre g s v nx).colors x = s.colors x := fupd_other _ _ _ _ hxv
    rw [hpc]
  · rw [if_neg hxL, if_neg hxL]

theorem cvcLoop_wnc (g : Graph) (s : CWLS) (v nx : Nat) (u c : Nat)
    (hred : 0 ≤ s.weights_neigh_colors u c ∧ s.weights_neigh_colors u c < 65536) :
    (cvcLoop g s v nx).weights_neigh_colors u c =
      (s.weights_neigh_colors u c
        + (if u = v ∧ c = nx then countIn s.colors (g.neighbors v) nx else 0)
        + (if u ∈ g.neighbors v then
            (if c = s.colors v then -(gwF s.weights u v) else 0)
            + (if c = nx then gwF s.weights u v else 0)
            + (if c = nx ∧ s.colors u = nx then 1 else 0)
          else 0)) % 65536 := by
  have h0 : (cvcPre g s v nx).weights_neigh_colors = s.weights_neigh_colors := rfl
  rw [cvcLoop, cvcFold_wnc g v (s.colors v) nx (cvcPre g s v nx) (g.neighbors v)
    (g.self_not_mem_neighbors v) (g.neighbors_nodup v) u c (by rw [h0]; exact hred)]
  have hw : (cvcPre g s v nx).weights = s.weights := rfl
  rw [h0, hw, cvcPre_countIn]
  by_cases huL : u ∈ g.neighbors v
  · have huv : u ≠ v := fun h => g.self_not_mem_neighbors v (h ▸ huL)
    have hpc : (cvcPre g s v nx).colors u = s.colors u := fupd_other _ _ _ _ huv
    rw [hpc]
  · rw [if_neg huL, if_neg huL]

/-- The snapshot `update_current_solution` preserves the invariant: it only
replaces `current_sol` by the class-wise rebuild of the live coloring. -/
theorem updateCurrentSolution_inv (g : Graph) (k : Nat) (s : CWLS)
    (hinv : CWLSInv g k s) :
    CWLSInv g k (updateCurrentSolution g s) := by
  obtain ⟨hwnc, hvnc, hnbce, htw, hcvn, hbs, hwr, hcb, hnbk, hlen, hpart⟩ := hinv
  refine ⟨hwnc, hvnc, hnbce, htw, hcvn, hbs, hwr, hcb, hnbk, ?_, ?_⟩
  · show (buildSol s.nb_colors s.colors g.n).length = k
    rw [buildSol_length]
    exact hnbk
  · show isPartition g.n (buildSol s.nb_colors s.colors g.n)
    exact buildSol_isPartition g s.nb_colors s.colors hcb

/-- The prefix plus neighbor loop of `change_vertex_color` preserves the
CWLS invariant. -/
theorem cvcLoop_inv (g : Graph) (k : Nat) (s : CWLS) (v nx : Nat)
    (hv : v < g.n) (hnx : nx < s.nb_colors) (hinv : CWLSInv g k s) :
    CWLSInv g k (cvcLoop g s v nx) := by
  obtain ⟨hwnc, hvnc, hnbce, htw, hcvn, hbs, hwr, hcb, hnbk, hlen, hpart⟩ := hinv
  have hcolors := cvcLoop_colors g s v nx
  obtain ⟨hsol, hnb⟩ := cvcLoop_untouched g s v nx
  have hcntNx := countIn_neighbors g v s.colors nx
  have hcntP := countIn_neighbors g v s.colors (s.colors v)
  have hw_nov : ∀ x y, x ≠ v → y ≠ v →
      gwF (cvcLoop g s v nx).weights x y = gwF s.weights x y :=
    fun x y hx hy => cvcLoop_gwF_nov g s v nx x y hx hy
  have hw_atv : ∀ x, x ≠ v →
      gwF (cvcLoop g s v nx).weights x v =
        if g.adj v x = true ∧ s.colors x = nx then (gwF s.weights x v + 1) % 65536
        else gwF s.weights x v :=
    fun x hx => cvcLoop_gwF_v g s v nx x hx
  refine ⟨?_, ?_, ?_, ?_, ?_, ?_, ?_, ?_, ?_, ?_, ?_⟩
  · intro u c
    have hredu : 0 ≤ s.weights_neigh_colors u c ∧
        s.weights_neigh_colors u c < 65536 := by
      rw [hwnc u c]
      omega
    rw [cvcLoop_wnc g s v nx u c hredu, hcolors, hwnc u c]
    by_cases huv : u = v
    · subst huv
      rw [nbwSpec_fupd_v g s.colors s.weights (cvcLoop g s u nx).weights u nx c hw_atv]
      rw [if_neg (g.self_not_mem_neighbors u)]
      by_cases hcn : c = nx
      · rw [if_pos (⟨rfl, hcn⟩ : u = u ∧ c = nx), if_pos hcn, hcntNx]
        omega
      · rw [if_neg (fun h : u = u ∧ c = nx => hcn h.2), if_neg hcn]
        omega
    · rw [nbwSpec_fupd_off g s.colors s.weights (cvcLoop g s v nx).weights v nx u c huv
        hw_nov hw_atv]
      rw [if_neg (fun h : u = v ∧ c = nx => huv h.1), gwF_comm s.weights u v]
      have e1 : ((s.colors v = c) : Prop) = (c = s.colors v) := propext eq_comm
      have e2 : ((nx = c) : Prop) = (c = nx) := propext eq_comm
      have e3 : ((u ∈ g.neighbors v) : Prop) = (g.adj v u = true) :=
        propext (g.mem_neighbors v u)
      have e4 : g.adj u v = g.adj v u := g.symm u v
      simp only [e1, e2, e3, e4]
      clear hwnc hvnc hnbce htw hcvn hbs hwr hcb hnbk hlen hpart hcolors
        hsol hnb hcntNx hcntP hw_nov hw_atv hredu
      split_ifs <;> first | omega | tauto
  · intro x
    rw [cvcLoop_vnc g s v nx x, hcolors, hvnc x]
    by_cases hxv : x = v
    · subst hxv
      rw [vncSpec_fupd_v g s.colors x nx, if_pos rfl,
        if_neg (g.self_not_mem_neighbors x), hcntNx, hcntP, vncSpec]
      ring
    · rw [vncSpec_fupd_off g s.colors v nx x hxv]
      have e1 : ((s.colors x = s.colors v) : Prop) = (s.colors v = s.colors x) :=
        propext eq_comm
      have e2 : ((s.colors x = nx) : Prop) = (nx = s.colors x) := propext eq_comm
      have e3 : ((x ∈ g.neighbors v) : Prop) = (g.adj v x = true) :=
        propext (g.mem_neighbors v x)
      have e4 : g.adj x v = g.adj v x := g.symm x v
      simp only [e1, e2, e3, e4]
      clear hwnc hvnc hnbce htw hcvn hbs hwr hcb hnbk hlen hpart hcolors
        hsol hnb hcntNx hcntP hw_nov hw_atv
      split_ifs <;> first | ring1 | tauto
  · rw [cvcLoop_nbce g s v nx, hcolors, hnbce, nbceSpec_fupd g s.colors v nx hv,
      hcntNx, hcntP]
    ring
  · rw [cvcLoop_tw g s v nx, hcolors, htw, hwnc v nx, hwnc v (s.colors v),
      twSpec_fupd g s.colors s.weights (cvcLoop g s v nx).weights v nx hv hw_nov hw_atv,
      hcntNx]
    omega
  · intro c
    rw [cvcLoop_cvn g s v nx, hcolors, cvnSpec_fupd_eq g s.colors v nx hv c]
    have hge1 : 1 ≤ cvnSpec g s.colors (s.colors v) :=
      Finset.card_pos.mpr ⟨v, Finset.mem_filter.mpr ⟨Finset.mem_range.mpr hv, rfl⟩⟩
    by_cases hcn : c = nx
    · rw [hcn, fupd_same, if_pos rfl]
      by_cases hcp : nx = s.colors v
      · rw [hcp, fupd_same, if_pos rfl, hcvn (s.colors v)]
      · rw [fupd_other _ _ _ _ hcp, if_neg hcp, hcvn nx]
        omega
    · rw [fupd_other _ _ _ _ hcn, if_neg hcn]
      by_cases hcp : c = s.colors v
      · rw [hcp, fupd_same, hcvn (s.colors v), if_pos rfl]
        omega
      · rw [fupd_other _ _ _ _ hcp, hcvn c, if_neg hcp]
        omega
  · intro c x
    rw [cvcLoop_bs g s v nx, hcolors]
    by_cases hcn : c = nx
    · rw [hcn, fupd_same, Finset.mem_insert]
      by_cases hxv : x = v
      · rw [hxv, fupd_same]
        constructor
        · intro _
          exact ⟨hv, rfl⟩
        · intro _
          exact Or.inl rfl
      · rw [fupd_other s.colors v x nx hxv]
        simp only [hxv, false_or]
        by_cases hpn : nx = s.colors v
        · rw [hpn, fupd_same, Finset.mem_erase, hbs (s.colors v) x]
          constructor
          · rintro ⟨_, hm⟩
            exact hm
          · intro hm
            exact ⟨hxv, hm⟩
        · rw [fupd_other _ _ _ _ hpn, hbs nx x]
    · rw [fupd_other _ _ _ _ hcn]
      by_cases hcp : c = s.colors v
      · rw [hcp, fupd_same, Finset.mem_erase, hbs (s.colors v) x]
        by_cases hxv : x = v
        · rw [hxv, fupd_same]
          constructor
          · rintro ⟨habs, _⟩
            exact absurd rfl habs
          · rintro ⟨_, habs⟩
            exact absurd (hcp.trans habs.symm) hcn
        · rw [fupd_other s.colors v x nx hxv]
          constructor
          · rintro ⟨_, hm⟩
            exact hm
          · intro hm
            exact ⟨hxv, hm⟩
      · rw [fupd_other _ _ _ _ hcp, hbs c x]
        by_cases hxv : x = v
        · rw [hxv, fupd_same]
          constructor
          · rintro ⟨_, habs⟩
            exact absurd habs.symm hcp
          · rintro ⟨_, habs⟩
            exact absurd habs.symm hcn
        · rw [fupd_other s.colors v x nx hxv]
  · intro a b
    exact cvcLoop_weights_range g s v nx a b (hwr a b)
  · intro x hx
    rw [hcolors, hnb]
    by_cases hxv : x = v
    · rw [hxv, fupd_same]
      exact hnx
    · rw [fupd_other s.colors v x nx hxv]
      exact hcb x hx
  · rw [hnb]
    exact hnbk
  · rw [hsol]
    exact hlen
  · rw [hsol]
    exact hpart

/-- The aspiration-criterion update does not touch any invariant field. -/
theorem cvcAsp_inv (g : Graph) (k : Nat) (s : CWLS) (v nx : Nat)
    (hv : v < g.n) (hnx : nx < s.nb_colors) (hinv : CWLSInv g k s) :
    CWLSInv g k (cvcAsp g s v nx) :=
  cvcLoop_inv g k s v nx hv hnx hinv

/-- `change_vertex_color` preserves the CWLS invariant, for an in-range
vertex and a palette color. -/
theorem changeVertexColor_inv (g : Graph) (k : Nat) (s : CWLS) (v nx : Nat)
    (hv : v < g.n) (hnx : nx < s.nb_colors) (hinv : CWLSInv g k s) :
    CWLSInv g k (changeVertexColor g s v nx) := by
  have hasp : CWLSInv g k (cvcAsp g s v nx) := cvcAsp_inv g k s v nx hv hnx hinv
  rw [changeVertexColor]
  split_ifs with h0
  · exact updateCurrentSolution_inv g k (cvcAsp g s v nx) hasp
  · exact hasp

/-- `commit` (tabu bookkeeping plus the recoloring) preserves the invariant. -/
theorem cwlsCommit_inv (g : Graph) (k : Nat) (s : CWLS) (m : Nat × Nat)
    (hv : m.1 < g.n) (hnx : m.2 < s.nb_colors) (hinv : CWLSInv g k s) :
    CWLSInv g k (cwlsCommit g s m) :=
  changeVertexColor_inv g k
    { s with
      tabu := (s.tabu.insert m.1 (s.colors m.1) s.nb_conflicting_edges
        (s.rng s.rngIdx)).increment_iter
      rngIdx := s.rngIdx + 1
      nb_iter := s.nb_iter + 1 } m.1 m.2 hv hnx hinv

/-- Any sequence of committed valid moves preserves the invariant. -/
theorem applyCWLSMoves_inv (g : Graph) (k : Nat) (s : CWLS) (ms : List (Nat × Nat))
    (hinv : CWLSInv g k s) (hms : ∀ m ∈ ms, m.1 < g.n ∧ m.2 < k) :
    CWLSInv g k (applyCWLSMoves g s ms) := by
  induction ms generalizing s with
  | nil => exact hinv
  | cons m ms ih =>
    rw [applyCWLSMoves, List.foldl_cons]
    have hm := hms m (List.mem_cons_self m ms)
    have hnbk : s.nb_colors = k := hinv.2.2.2.2.2.2.2.2.1
    have hnbc : m.2 < s.nb_colors := by
      rw [hnbk]
      exact hm.2
    exact ih (cwlsCommit g s m) (cwlsCommit_inv g k s m hm.1 hnbc hinv)
      (fun q hq => hms q (List.mem_cons_of_mem _ hq))

/-! ### Characterization of the CWLS initialization -/

theorem colorsAuxN_notmem (sol : List (List Nat)) (i : Nat) (f : Nat → Nat) (v : Nat)
    (hv : v ∉ sol.flatten) : colorsAuxN i sol f v = f v := by
  induction sol generalizing i f with
  | nil => rfl
  | cons cls rest ih =>
    rw [colorsAuxN]
    have h1 : v ∉ rest.flatten := by
      intro h
      refine hv ?_
      rw [List.flatten_cons, List.mem_append]
      exact Or.inr h
    have h2 : v ∉ cls := by
      intro h
      refine hv ?_
      rw [List.flatten_cons, List.mem_append]
      exact Or.inl h
    rw [ih _ _ h1, assignClassFold_apply, if_neg h2]

theorem colorsAuxN_mem (sol : List (List Nat)) (i : Nat) (f : Nat → Nat) (v j : Nat)
    (hnd : sol.flatten.Nodup) (hj : j < sol.length) (hv : v ∈ sol.getD j []) :
    colorsAuxN i sol f v = i + j := by
  induction sol generalizing i f j with
  | nil => simp at hj
  | cons cls rest ih =>
    rw [colorsAuxN]
    rw [List.flatten_cons, List.nodup_append] at hnd
    obtain ⟨hn1, hn2, hn3⟩ := hnd
    cases j with
    | zero =>
      have hvc : v ∈ cls := by simpa using hv
      have hvr : v ∉ rest.flatten := hn3 hvc
      rw [colorsAuxN_notmem _ _ _ _ hvr, assignClassFold_apply, if_pos hvc]
      omega
    | succ j2 =>
      have hvj : v ∈ rest.getD j2 [] := by simpa using hv
      rw [ih (i + 1) (assignClassFold i cls f) j2 hn2 (by simpa using hj) hvj]
      omega

theorem addClassCountFold_apply (i : Nat) (cls : List Nat) (cvn : Nat → Nat) (c : Nat) :
    addClassCountFold i cls cvn c = cvn c + (if c = i then cls.length else 0) := by
  induction cls generalizing cvn with
  | nil =>
    rw [addClassCountFold, List.foldl_nil]
    split_ifs <;> rfl
  | cons a l ih =>
    rw [addClassCountFold, List.foldl_cons]
    rw [show List.foldl (fun cvn _ => fupd cvn i (cvn i + 1)) (fupd cvn i (cvn i + 1)) l =
      addClassCountFold i l (fupd cvn i (cvn i + 1)) from rfl, ih]
    by_cases hc : c = i
    · rw [if_pos hc, if_pos hc, hc, fupd_same, List.length_cons]
      omega
    · rw [if_neg hc, if_neg hc, fupd_other _ _ _ _ hc]

theorem cvnAuxO_apply (sol : List (List Nat)) (i : Nat) (cvn : Nat → Nat) (c : Nat) :
    cvnAuxO i sol cvn c =
      cvn c + (if i ≤ c ∧ c - i < sol.length then (sol.getD (c - i) []).length
               else 0) := by
  induction sol generalizing i cvn with
  | nil =>
    rw [cvnAuxO]
    have : ¬(i ≤ c ∧ c - i < ([] : List (List Nat)).length) := by
      simp only [List.length_nil]
      omega
    rw [if_neg this]
    omega
  | cons cls rest ih =>
    rw [cvnAuxO, ih, addClassCountFold_apply]
    by_cases hci : c = i
    · have h1 : ¬(i + 1 ≤ c ∧ c - (i + 1) < rest.length) := by omega
      have h2 : i ≤ c ∧ c - i < (cls :: rest).length := by
        simp only [List.length_cons]
        omega
      rw [if_neg h1, if_pos h2, if_pos hci, hci, Nat.sub_self, List.getD_cons_zero]
      omega
    · rw [if_neg hci]
      by_cases h : i + 1 ≤ c ∧ c - (i + 1) < rest.length
      · have h2 : i ≤ c ∧ c - i < (cls :: rest).length := by
          simp only [List.length_cons]
          omega
        have hsub : c - i = (c - (i + 1)) + 1 := by omega
        rw [if_pos h, if_pos h2, hsub, List.getD_cons_succ]
        omega
      · have h2 : ¬(i ≤ c ∧ c - i < (cls :: rest).length) := by
          simp only [List.length_cons]
          omega
        rw [if_neg h, if_neg h2]

theorem wncInnerFold (colors : Nat → Nat) (u : Nat) (L : List Nat)
    (wnc : Nat → Nat → Int) (a c : Nat) (h : 0 ≤ wnc a c ∧ wnc a c < 65536) :
    (L.foldl (fun wnc x => fupd2AddW wnc u (colors x) 1) wnc) a c =
      (wnc a c + (if a = u then countIn colors L c else 0)) % 65536 := by
  induction L using List.reverseRecOn generalizing wnc with
  | nil =>
    rw [List.foldl_nil]
    have hc0 : countIn colors [] c = 0 := rfl
    rw [hc0]
    split_ifs <;> omega
  | append_singleton l x ih =>
    rw [List.foldl_append, List.foldl_cons, List.foldl_nil, fupd2AddW_apply,
      ih wnc h, countIn_concat]
    by_cases hau : a = u
    · rw [if_pos hau, if_pos hau]
      by_cases hc : colors x = c
      · rw [if_pos ⟨hau, hc.symm⟩, if_pos hc]
        omega
      · rw [if_neg (fun h2 => hc h2.2.symm), if_neg hc]
        omega
    · rw [if_neg hau, if_neg hau, if_neg (fun h2 => hau h2.1)]

theorem wncInitInner_apply (g : Graph) (colors : Nat → Nat) (x : Nat)
    (wnc : Nat → Nat → Int) (a c : Nat) (h : 0 ≤ wnc a c ∧ wnc a c < 65536) :
    wncInitInner g colors x wnc a c =
      (wnc a c + (if a = x then countIn colors (g.neighbors x) c else 0)) % 65536 :=
  wncInnerFold colors x (g.neighbors x) wnc a c h

theorem wncOuterFold (g : Graph) (colors : Nat → Nat) (M : List Nat) (hM : M.Nodup)
    (wnc : Nat → Nat → Int) (u c : Nat) (h : 0 ≤ wnc u c ∧ wnc u c < 65536) :
    (M.foldl (fun wnc x => wncInitInner g colors x wnc) wnc) u c =
      (wnc u c + (if u ∈ M then countIn colors (g.neighbors u) c else 0)) % 65536 := by
  induction M using List.reverseRecOn generalizing wnc with
  | nil =>
    rw [List.foldl_nil, if_neg (by simp : ¬ u ∈ ([] : List Nat))]
    omega
  | append_singleton l x ih =>
    have hndl : l.Nodup := (List.nodup_append.mp hM).1
    have hxl : x ∉ l := by
      intro hmem
      exact (List.nodup_append.mp hM).2.2 hmem (by simp)
    have hprev := ih hndl wnc h
    have hpr : 0 ≤ (l.foldl (fun wnc x => wncInitInner g colors x wnc) wnc) u c ∧
        (l.foldl (fun wnc x => wncInitInner g colors x wnc) wnc) u c < 65536 := by
      rw [hprev]
      constructor
      · omega
      · omega
    rw [List.foldl_append, List.foldl_cons, List.foldl_nil,
      wncInitInner_apply g colors x _ u c hpr, hprev]
    by_cases hux : u = x
    · rw [if_pos hux, if_neg (hux ▸ hxl), if_pos (List.mem_append_right _ (by simp [hux]))]
      rw [hux]
      omega
    · rw [if_neg hux]
      by_cases hul : u ∈ l
      · rw [if_pos hul, if_pos (List.mem_append_left _ hul)]
        omega
      · rw [if_neg hul, if_neg ?_]
        · omega
        · intro hmem
          rcases List.mem_append.mp hmem with hmem | hmem
          · exact hul hmem
          · exact hux (by simpa using hmem)

theorem wncInit_apply (g : Graph) (colors : Nat → Nat) (u c : Nat) :
    wncInit g colors u c =
      (if u < g.n then countIn colors (g.neighbors u) c else 0) % 65536 := by
  rw [wncInit, wncOuterFold g colors (List.range g.n) (List.nodup_range _) _ u c
    (by constructor <;> norm_num)]
  by_cases hu : u < g.n
  · rw [if_pos (List.mem_range.mpr hu), if_pos hu]
    show ((0 : Int) + countIn colors (g.neighbors u) c) % 65536 =
      countIn colors (g.neighbors u) c % 65536
    omega
  · rw [if_neg (fun h => hu (List.mem_range.mp h)), if_neg hu]
    show ((0 : Int) + 0) % 65536 = (0 : Int) % 65536
    norm_num

theorem gwF_one (x y : Nat) : gwF (fun _ _ => (1 : Int)) x y = 1 := by
  rw [gwF]
  split_ifs <;> rfl

theorem nbwSpec_ones (g : Graph) (colors : Nat → Nat) (u c : Nat) :
    nbwSpec g colors (fun _ _ => 1) u c =
      (((neighFin g u).filter (fun x => colors x = c)).card : Int) := by
  rw [nbwSpec,
    Finset.sum_congr rfl (fun x _ => gwF_one x u), sum_ones_int]

theorem neighFin_empty_of_ge (g : Graph) (u : Nat) (hu : ¬ u < g.n) :
    neighFin g u = ∅ := by
  rw [Finset.eq_empty_iff_forall_not_mem]
  intro x hx
  exact hu ((g.bounded u x ((mem_neighFin g u x).mp hx)).1)

theorem vncSpec_of_proper (g : Graph) (colors : Nat → Nat)
    (hp : properColoring g colors) (x : Nat) : vncSpec g colors x = 0 := by
  rw [vncSpec]
  have hempty : (neighFin g x).filter (fun u => colors u = colors x) = ∅ := by
    rw [Finset.eq_empty_iff_forall_not_mem]
    intro u hu
    obtain ⟨hm, hc⟩ := Finset.mem_filter.mp hu
    exact hp x u ((mem_neighFin g x u).mp hm) hc.symm
  rw [hempty, Finset.card_empty]
  rfl

/-- The seed coloring read off a partition: `colors x = c` iff `x` lies in
class `c`. -/
theorem seedColors_char (sol : List (List Nat)) (n : Nat)
    (hpart : isPartition n sol) (x c : Nat) (hx : x < n) :
    (colorsAuxN 0 sol (fun _ => 0) x = c) ↔ (c < sol.length ∧ x ∈ sol.getD c []) := by
  obtain ⟨hnd, hlt, hcov⟩ := hpart
  constructor
  · intro h
    have hxf : x ∈ sol.flatten := hcov x hx
    rw [List.mem_flatten] at hxf
    obtain ⟨cl, hcl, hxcl⟩ := hxf
    rw [List.mem_iff_getElem] at hcl
    obtain ⟨j, hjl, hje⟩ := hcl
    have hxj : x ∈ sol.getD j [] := by
      rw [List.getD_eq_getElem?_getD, List.getElem?_eq_getElem hjl]
      simpa [hje] using hxcl
    have hcj := colorsAuxN_mem sol 0 (fun _ => 0) x j hnd hjl hxj
    rw [hcj] at h
    have hcje : c = j := by omega
    subst hcje
    exact ⟨hjl, hxj⟩
  · rintro ⟨hc, hxc⟩
    rw [colorsAuxN_mem sol 0 (fun _ => 0) x c hnd hc hxc]
    omega

theorem seedColors_proper (g : Graph) (sol : List (List Nat))
    (hpart : isPartition g.n sol) (hprop : isProperSol g sol) :
    properColoring g (colorsAuxN 0 sol (fun _ => 0)) := by
  intro u v hadj hcol
  have hb := g.bounded u v hadj
  have huv : u ≠ v := by
    intro h
    rw [h, g.loopless] at hadj
    exact Bool.false_ne_true hadj
  have hu := (seedColors_char sol g.n hpart u
    (colorsAuxN 0 sol (fun _ => 0) u) hb.1).mp rfl
  have hv2 := (seedColors_char sol g.n hpart v
    (colorsAuxN 0 sol (fun _ => 0) u) hb.2).mp hcol.symm
  have hcl : sol.getD (colorsAuxN 0 sol (fun _ => 0) u) [] ∈ sol :=
    getD_mem_of_lt sol _ [] hu.1
  have hres := hprop _ hcl u hu.2 v hv2.2 huv
  rw [hres] at hadj
  exact Bool.false_ne_true hadj

/-- `initialize` establishes the CWLS invariant from a feasible seed. -/
theorem cwlsInitialize_inv (g : Graph) (sol : List (List Nat)) (ρ : Nat → Int)
    (hpart : isPartition g.n sol) (hprop : isProperSol g sol) :
    CWLSInv g sol.length (cwlsInitialize g sol ρ) := by
  obtain ⟨hnd, hlt, hcov⟩ := hpart
  have hchar : ∀ x c, x < g.n →
      ((colorsAuxN 0 sol (fun _ => 0) x = c) ↔ (c < sol.length ∧ x ∈ sol.getD c [])) :=
    fun x c hx => seedColors_char sol g.n ⟨hnd, hlt, hcov⟩ x c hx
  have hproper : properColoring g (colorsAuxN 0 sol (fun _ => 0)) :=
    seedColors_proper g sol ⟨hnd, hlt, hcov⟩ hprop
  have hbound : ∀ x, x < g.n → colorsAuxN 0 sol (fun _ => 0) x < sol.length :=
    fun x hx => ((hchar x _ hx).mp rfl).1
  have hconf : confPairs g (colorsAuxN 0 sol (fun _ => 0)) = ∅ :=
    (confPairs_empty_iff g _).mpr hproper
  have hclnd : ∀ c, (sol.getD c []).Nodup := by
    intro c
    by_cases hc : c < sol.length
    · exact (List.nodup_flatten.mp hnd).1 _ (getD_mem_of_lt sol c [] hc)
    · rw [List.getD_eq_getElem?_getD, List.getElem?_eq_none (by omega : sol.length ≤ c)]
      exact List.nodup_nil
  have hfilter : ∀ c, (Finset.range g.n).filter
      (fun x => colorsAuxN 0 sol (fun _ => 0) x = c) = (sol.getD c []).toFinset := by
    intro c
    ext x
    rw [Finset.mem_filter, Finset.mem_range, List.mem_toFinset]
    constructor
    · rintro ⟨hx, hcx⟩
      exact ((hchar x c hx).mp hcx).2
    · intro hx
      by_cases hc : c < sol.length
      · have hxn : x < g.n := hlt x
          (List.mem_flatten.mpr ⟨_, getD_mem_of_lt sol c [] hc, hx⟩)
        exact ⟨hxn, (hchar x c hxn).mpr ⟨hc, hx⟩⟩
      · rw [List.getD_eq_getElem?_getD,
          List.getElem?_eq_none (by omega : sol.length ≤ c)] at hx
        exact absurd hx (List.not_mem_nil x)
  have hcvnSpec : ∀ c, cvnSpec g (colorsAuxN 0 sol (fun _ => 0)) c =
      (sol.getD c []).length := by
    intro c
    rw [cvnSpec, hfilter c, List.toFinset_card_of_nodup (hclnd c)]
  refine ⟨?_, ?_, ?_, ?_, ?_, ?_, ?_, ?_, rfl, rfl, ⟨hnd, hlt, hcov⟩⟩
  · intro u c
    show wncInit g (colorsAuxN 0 sol (fun _ => 0)) u c =
      nbwSpec g (colorsAuxN 0 sol (fun _ => 0)) (fun _ _ => 1) u c % 65536
    rw [wncInit_apply, nbwSpec_ones]
    by_cases hu : u < g.n
    · rw [if_pos hu, countIn_neighbors]
    · rw [if_neg hu, neighFin_empty_of_ge g u hu, Finset.filter_empty,
        Finset.card_empty]
      norm_num
  · intro x
    show (0 : Int) = vncSpec g (colorsAuxN 0 sol (fun _ => 0)) x
    rw [vncSpec_of_proper g _ hproper x]
  · show (0 : Int) = nbceSpec g (colorsAuxN 0 sol (fun _ => 0))
    rw [nbceSpec, hconf, Finset.card_empty]
    rfl
  · show (0 : Int) = twSpec g (colorsAuxN 0 sol (fun _ => 0)) (fun _ _ => 1) % 65536
    rw [twSpec, hconf, Finset.sum_empty]
    norm_num
  · intro c
    show cvnAuxO 0 sol (fun _ => 0) c = cvnSpec g (colorsAuxN 0 sol (fun _ => 0)) c
    simp only [cvnAuxO_apply, Nat.zero_le, true_and, Nat.sub_zero, Nat.zero_add]
    by_cases hc : c < sol.length
    · rw [if_pos hc, hcvnSpec c]
    · rw [if_neg hc, hcvnSpec c, List.getD_eq_getElem?_getD,
        List.getElem?_eq_none (by omega : sol.length ≤ c)]
      rfl
  · intro c x
    show x ∈ cvAuxO 0 sol (fun _ => ∅) c ↔
      (x < g.n ∧ colorsAuxN 0 sol (fun _ => 0) x = c)
    rw [cvAuxO_mem]
    simp only [Finset.not_mem_empty, false_or]
    constructor
    · rintro ⟨j, hj, hcj, hxj⟩
      have hxn : x < g.n := hlt x
        (List.mem_flatten.mpr ⟨_, getD_mem_of_lt sol j [] hj, hxj⟩)
      refine ⟨hxn, ?_⟩
      rw [hchar x c hxn]
      refine ⟨by omega, ?_⟩
      rw [show c = j by omega]
      exact hxj
    · rintro ⟨hxn, hcx⟩
      obtain ⟨hc, hxc⟩ := (hchar x c hxn).mp hcx
      exact ⟨c, hc, by omega, hxc⟩
  · intro a b
    show (0 : Int) ≤ (1 : Int) ∧ (1 : Int) < 65536
    exact ⟨by norm_num, by norm_num⟩
  · intro x hx
    show colorsAuxN 0 sol (fun _ => 0) x < sol.length
    exact hbound x hx

theorem isPartition_filter_nonempty (n : Nat) (solx : List (List Nat))
    (h : isPartition n solx) :
    isPartition n (solx.filter (fun e => ¬ e.isEmpty)) := by
  obtain ⟨hnd, hlt, hcov⟩ := h
  rw [List.nodup_flatten] at hnd
  obtain ⟨hnd1, hnd2⟩ := hnd
  refine ⟨?_, ?_, ?_⟩
  · rw [List.nodup_flatten]
    constructor
    · intro l hl
      exact hnd1 l (List.mem_filter.mp hl).1
    · exact List.Pairwise.sublist (List.filter_sublist solx) hnd2
  · intro v hv
    rw [List.mem_flatten] at hv
    obtain ⟨l, hl, hvl⟩ := hv
    exact hlt v (List.mem_flatten.mpr ⟨l, (List.mem_filter.mp hl).1, hvl⟩)
  · intro v hv
    have hvf := hcov v hv
    rw [List.mem_flatten] at hvf
    obtain ⟨l, hl, hvl⟩ := hvf
    rw [List.mem_flatten]
    refine ⟨l, ?_, hvl⟩
    rw [List.mem_filter]
    refine ⟨hl, ?_⟩
    simp only [decide_eq_true_eq, List.isEmpty_iff]
    exact List.ne_nil_of_mem hvl

/-! ### The no-wrap regime and the snapshot gate

All the `u16` aggregates wrap modulo `2^16`. As long as every in-range
learned edge weight is still ≥ 1 and the exact total conflict weight is
below `2^16`, the stored `total_weight` is faithful and a zero snapshot gate
really means a proper coloring; once a weight wraps this breaks (see the
`k2` run below). -/

/-- No-wrap regime of a CWLS state: all in-range learned weights are still
at least 1 and the exact (unwrapped) total conflict weight is below `2^16`. -/
def noWrap (g : Graph) (s : CWLS) : Prop :=
  (∀ u, u < g.n → ∀ v, v < g.n → 1 ≤ s.weights u v) ∧
  twSpec g s.colors s.weights < 65536

instance noWrapDecidable (g : Graph) (s : CWLS) : Decidable (noWrap g s) :=
  inferInstanceAs (Decidable ((∀ u, u < g.n → ∀ v, v < g.n → 1 ≤ s.weights u v) ∧
    twSpec g s.colors s.weights < 65536))

/-- Under the invariant and the no-wrap regime, a stored zero total weight
forces the live coloring to be proper. -/
theorem properColoring_of_tw_zero (g : Graph) (k : Nat) (s : CWLS)
    (hinv : CWLSInv g k s) (hnw : noWrap g s) (h0 : s.total_weight = 0) :
    properColoring g s.colors := by
  have htw : s.total_weight = twSpec g s.colors s.weights % 65536 := hinv.2.2.2.1
  have hge := twSpec_nonneg g s.colors s.weights (fun u v hu hv => hnw.1 u hu v hv)
  have hlt := hnw.2
  have h1 : twSpec g s.colors s.weights = 0 := by
    rw [htw] at h0
    omega
  exact (twSpec_zero_iff g s.colors s.weights
    (fun u v hu hv => hnw.1 u hu v hv)).mp h1

theorem cvcAsp_nb_colors (g : Graph) (s : CWLS) (v nx : Nat) :
    (cvcAsp g s v nx).nb_colors = s.nb_colors :=
  (cvcLoop_untouched g s v nx).2

theorem cvcAsp_colors (g : Graph) (s : CWLS) (v nx : Nat) :
    (cvcAsp g s v nx).colors = fupd s.colors v nx :=
  cvcLoop_colors g s v nx

/-- The live coloring after a full `change_vertex_color`. -/
theorem changeVertexColor_colors (g : Graph) (s : CWLS) (v nx : Nat) :
    (changeVertexColor g s v nx).colors = fupd s.colors v nx := by
  rw [changeVertexColor]
  split_ifs with h0
  · exact cvcLoop_colors g s v nx
  · exact cvcLoop_colors g s v nx

/-- The edge weights into the recolored vertex after a full
`change_vertex_color`: conflict-creating edges get a wrapping increment. -/
theorem changeVertexColor_gwF_v (g : Graph) (s : CWLS) (v nx : Nat) (x : Nat)
    (hx : x ≠ v) :
    gwF (changeVertexColor g s v nx).weights x v =
      if g.adj v x = true ∧ s.colors x = nx then (gwF s.weights x v + 1) % 65536
      else gwF s.weights x v := by
  rw [changeVertexColor]
  by_cases h0 : (cvcAsp g s v nx).total_weight = 0
  · rw [if_pos h0]
    exact cvcLoop_gwF_v g s v nx x hx
  · rw [if_neg h0]
    exact cvcLoop_gwF_v g s v nx x hx

/-- The live coloring after a committed move. -/
theorem cwlsCommit_colors (g : Graph) (s : CWLS) (m : Nat × Nat) :
    (cwlsCommit g s m).colors = fupd s.colors m.1 m.2 :=
  changeVertexColor_colors g _ m.1 m.2

/-- The edge weights into the recolored vertex after a committed move. -/
theorem cwlsCommit_gwF_v (g : Graph) (s : CWLS) (m : Nat × Nat) (x : Nat)
    (hx : x ≠ m.1) :
    gwF (cwlsCommit g s m).weights x m.1 =
      if g.adj m.1 x = true ∧ s.colors x = m.2 then (gwF s.weights x m.1 + 1) % 65536
      else gwF s.weights x m.1 :=
  changeVertexColor_gwF_v g _ m.1 m.2 x hx

/-- When the state coming out of `change_vertex_color` has total weight 0,
the snapshot gate fired and `current_sol` is the class rebuild of the new
live coloring. -/
theorem changeVertexColor_sol_of_tw_zero (g : Graph) (s : CWLS) (v nx : Nat)
    (h0 : (changeVertexColor g s v nx).total_weight = 0) :
    (changeVertexColor g s v nx).current_sol =
      buildSol (cvcAsp g s v nx).nb_colors (cvcAsp g s v nx).colors g.n := by
  have h1 : (cvcAsp g s v nx).total_weight = 0 := by
    rw [changeVertexColor] at h0
    split_ifs at h0 with h2
    · exact h2
    · exact h0
  rw [changeVertexColor, if_pos h1]
  rfl

/-- Commit-level version of the fired snapshot gate. -/
theorem cwlsCommit_sol_of_tw_zero (g : Graph) (s : CWLS) (m : Nat × Nat)
    (h0 : (cwlsCommit g s m).total_weight = 0) :
    (cwlsCommit g s m).current_sol =
      buildSol s.nb_colors (fupd s.colors m.1 m.2) g.n := by
  have h1 : (cwlsCommit g s m).current_sol =
      buildSol (cvcAsp g { s with
          tabu := (s.tabu.insert m.1 (s.colors m.1) s.nb_conflicting_edges
            (s.rng s.rngIdx)).increment_iter
          rngIdx := s.rngIdx + 1
          nb_iter := s.nb_iter + 1 } m.1 m.2).nb_colors
        (cvcAsp g { s with
          tabu := (s.tabu.insert m.1 (s.colors m.1) s.nb_conflicting_edges
            (s.rng s.rngIdx)).increment_iter
          rngIdx := s.rngIdx + 1
          nb_iter := s.nb_iter + 1 } m.1 m.2).colors g.n :=
    changeVertexColor_sol_of_tw_zero g _ m.1 m.2 h0
  rw [h1, cvcAsp_nb_colors, cvcAsp_colors]

/-- In the no-wrap regime, `change_vertex_color` keeps the stored solution
proper: it either leaves `current_sol` alone or snapshots a coloring whose
total weight is genuinely zero. -/
theorem changeVertexColor_sol_proper (g : Graph) (k : Nat) (s : CWLS) (v nx : Nat)
    (hv : v < g.n) (hnx : nx < s.nb_colors) (hinv : CWLSInv g k s)
    (hsol : isProperSol g s.current_sol)
    (hnw : noWrap g (changeVertexColor g s v nx)) :
    isProperSol g (changeVertexColor g s v nx).current_sol := by
  have hasp : CWLSInv g k (cvcAsp g s v nx) := cvcAsp_inv g k s v nx hv hnx hinv
  rw [changeVertexColor] at hnw ⊢
  split_ifs at hnw ⊢ with h0
  · have hnw2 : noWrap g (cvcAsp g s v nx) := hnw
    have hproper : properColoring g (cvcAsp g s v nx).colors :=
      properColoring_of_tw_zero g k (cvcAsp g s v nx) hasp hnw2 h0
    have hcb : ∀ x, x < g.n →
        (cvcAsp g s v nx).colors x < (cvcAsp g s v nx).nb_colors :=
      hasp.2.2.2.2.2.2.2.1
    show isProperSol g
      (buildSol (cvcAsp g s v nx).nb_colors (cvcAsp g s v nx).colors g.n)
    exact buildSol_isProper g _ _ hcb hproper
  · show isProperSol g (cvcLoop g s v nx).current_sol
    rw [(cvcLoop_untouched g s v nx).1]
    exact hsol

/-- Commit-level propagation of stored-solution properness. -/
theorem cwlsCommit_sol_proper (g : Graph) (k : Nat) (s : CWLS) (m : Nat × Nat)
    (hv : m.1 < g.n) (hnx : m.2 < s.nb_colors) (hinv : CWLSInv g k s)
    (hsol : isProperSol g s.current_sol)
    (hnw : noWrap g (cwlsCommit g s m)) :
    isProperSol g (cwlsCommit g s m).current_sol :=
  changeVertexColor_sol_proper g k
    { s with
      tabu := (s.tabu.insert m.1 (s.colors m.1) s.nb_conflicting_edges
        (s.rng s.rngIdx)).increment_iter
      rngIdx := s.rngIdx + 1
      nb_iter := s.nb_iter + 1 } m.1 m.2 hv hnx hinv hsol hnw

/-- As long as every prefix of the run stays in the no-wrap regime, the
stored solution stays proper through any sequence of committed moves. -/
theorem applyCWLSMoves_sol_proper (g : Graph) (k : Nat) (s : CWLS)
    (ms : List (Nat × Nat)) (hinv : CWLSInv g k s)
    (hsol : isProperSol g s.current_sol)
    (hms : ∀ m ∈ ms, m.1 < g.n ∧ m.2 < k)
    (hnw : ∀ j, j ≤ ms.length → noWrap g (applyCWLSMoves g s (ms.take j))) :
    isProperSol g (applyCWLSMoves g s ms).current_sol := by
  induction ms generalizing s with
  | nil => exact hsol
  | cons m ms ih =>
    rw [applyCWLSMoves, List.foldl_cons]
    have hm := hms m (List.mem_cons_self m ms)
    have hnbk : s.nb_colors = k := hinv.2.2.2.2.2.2.2.2.1
    have hnbc : m.2 < s.nb_colors := by
      rw [hnbk]
      exact hm.2
    have hnw1 : noWrap g (cwlsCommit g s m) := by
      have h1 := hnw 1 (by rw [List.length_cons]; omega)
      rw [List.take_succ_cons, List.take_zero] at h1
      exact h1
    have hinv2 := cwlsCommit_inv g k s m hm.1 hnbc hinv
    have hsol2 := cwlsCommit_sol_proper g k s m hm.1 hnbc hinv hsol hnw1
    have hnw2 : ∀ j, j ≤ ms.length →
        noWrap g (applyCWLSMoves g (cwlsCommit g s m) (ms.take j)) := by
      intro j hj
      have h1 := hnw (j + 1) (by rw [List.length_cons]; omega)
      rw [List.take_succ_cons] at h1
      exact h1
    exact ih (cwlsCommit g s m) hinv2 hsol2
      (fun q hq => hms q (List.mem_cons_of_mem _ hq)) hnw2

/-- C1 (corrected): from a feasible seed partition, after initialization and
any sequence of committed in-range recoloring moves — hence whenever the
stopping criterion fires — the reported solution (the non-empty classes of
`current_sol`) is always a partition of `0..n-1` into at most `sol.length`
classes; and it is a feasible (proper) coloring whenever every prefix of the
run stays in the no-wrap regime of the `u16` conflict weights. The spec's
unconditional feasibility fails once a weight wraps: `total_weight` is a
wrapping `u16`, so the snapshot gate `total_weight == 0` can fire on an
improper coloring (see `C1_counterexample`). -/
theorem C1_cwls_feasible (g : Graph) (sol : List (List Nat)) (ρ : Nat → Int)
    (ms : List (Nat × Nat)) (hpart : isPartition g.n sol) (hprop : isProperSol g sol)
    (hms : ∀ m ∈ ms, m.1 < g.n ∧ m.2 < sol.length) :
    (isPartition g.n (cwlsSolution (applyCWLSMoves g (cwlsInitialize g sol ρ) ms)) ∧
     (cwlsSolution (applyCWLSMoves g (cwlsInitialize g sol ρ) ms)).length ≤
       sol.length) ∧
    ((∀ j, j ≤ ms.length →
        noWrap g (applyCWLSMoves g (cwlsInitialize g sol ρ) (ms.take j))) →
      isProperSol g (cwlsSolution (applyCWLSMoves g (cwlsInitialize g sol ρ) ms))) := by
  obtain ⟨_, _, _, _, _, _, _, _, _, hlen, hpart2⟩ :=
    applyCWLSMoves_inv g sol.length (cwlsInitialize g sol ρ) ms
      (cwlsInitialize_inv g sol ρ hpart hprop) hms
  refine ⟨⟨isPartition_filter_nonempty g.n _ hpart2, ?_⟩, ?_⟩
  · calc (cwlsSolution (applyCWLSMoves g (cwlsInitialize g sol ρ) ms)).length
        ≤ (applyCWLSMoves g (cwlsInitialize g sol ρ) ms).current_sol.length :=
          List.length_filter_le _ _
      _ = sol.length := hlen
  · intro hnw
    have hsp := applyCWLSMoves_sol_proper g sol.length (cwlsInitialize g sol ρ) ms
      (cwlsInitialize_inv g sol ρ hpart hprop) hprop hms hnw
    intro cl hcl u hu w hw huw
    exact hsp cl (List.mem_filter.mp hcl).1 u hu w hw huw

/-- Witness for C1 on the path graph with seed `[[0,2],[1]]` and one
committed recoloring move; the no-wrap side condition is discharged by
evaluation, so the properness conclusion is exercised too. -/
theorem C1_cwls_feasible_witness :
    (isPartition pathGraph.n [[0, 2], [1]] ∧ isProperSol pathGraph [[0, 2], [1]] ∧
     (∀ m ∈ [((0 : Nat), (1 : Nat))],
       m.1 < pathGraph.n ∧ m.2 < ([[0, 2], [1]] : List (List Nat)).length)) ∧
    ((isPartition pathGraph.n (cwlsSolution (applyCWLSMoves pathGraph
        (cwlsInitialize pathGraph [[0, 2], [1]] (fun _ => 0)) [(0, 1)])) ∧
      (cwlsSolution (applyCWLSMoves pathGraph
        (cwlsInitialize pathGraph [[0, 2], [1]] (fun _ => 0)) [(0, 1)])).length ≤
        ([[0, 2], [1]] : List (List Nat)).length) ∧
     isProperSol pathGraph (cwlsSolution (applyCWLSMoves pathGraph
        (cwlsInitialize pathGraph [[0, 2], [1]] (fun _ => 0)) [(0, 1)]))) :=
  ⟨⟨by unfold isPartition; refine ⟨by decide, by decide, by decide⟩,
    by unfold isProperSol; decide,
    by decide⟩,
   (C1_cwls_feasible pathGraph [[0, 2], [1]] (fun _ => 0) [(0, 1)]
     (by unfold isPartition; refine ⟨by decide, by decide, by decide⟩)
     (by unfold isProperSol; decide)
     (by decide)).1,
   (C1_cwls_feasible pathGraph [[0, 2], [1]] (fun _ => 0) [(0, 1)]
     (by unfold isPartition; refine ⟨by decide, by decide, by decide⟩)
     (by unfold isProperSol; decide)
     (by decide)).2
     (by
       intro j hj
       have hj2 : j ≤ 1 := by simpa using hj
       interval_cases j <;> decide)⟩

/-! ### A reachable wrap of the `u16` conflict weights

On the single-edge graph, each round `(0 ↦ 1, 0 ↦ 0)` creates and removes
the one conflict; the conflict-creating half permanently increments the
learned weight of the edge (a wrapping `u16 += 1`). After 65534 rounds the
weight is 65535, and one further conflict-creating move wraps it to 0: the
stored `total_weight` is then 0 with a conflict present, the snapshot gate
fires, and the reported solution merges the two adjacent vertices. -/

/-- The single-edge graph `0 - 1`. -/
def k2Graph : Graph where
  n := 2
  adj := fun u v => decide ((u = 0 ∧ v = 1) ∨ (u = 1 ∧ v = 0))
  symm := by
    intro u v
    rw [decide_eq_decide]
    tauto
  loopless := by
    intro u
    simp only [decide_eq_false_iff_not]
    omega
  bounded := by
    intro u v h
    simp only [decide_eq_true_eq] at h
    omega

/-- The feasible seed `{0}, {1}` on the single-edge graph. -/
def k2Seed : List (List Nat) := [[0], [1]]

/-- The initialized CWLS state on the single-edge graph. -/
def k2Init : CWLS := cwlsInitialize k2Graph k2Seed (fun _ => 0)

/-- `k` rounds of recoloring vertex 0 to color 1 and back to color 0. -/
def altMoves : Nat → List (Nat × Nat)
  | 0 => []
  | k + 1 => altMoves k ++ [(0, 1), (0, 0)]

/-- The state after `k` create/restore rounds. -/
def k2Run (k : Nat) : CWLS := applyCWLSMoves k2Graph k2Init (altMoves k)

/-- The state after 65534 rounds and one further conflict-creating move. -/
def k2Final : CWLS :=
  applyCWLSMoves k2Graph k2Init (altMoves 65534 ++ [(0, 1)])

/-- Splitting the last committed move off a run. -/
theorem applyCWLSMoves_concat (g : Graph) (s : CWLS) (L : List (Nat × Nat))
    (m : Nat × Nat) :
    applyCWLSMoves g s (L ++ [m]) = cwlsCommit g (applyCWLSMoves g s L) m := by
  rw [applyCWLSMoves, applyCWLSMoves, List.foldl_append, List.foldl_cons,
    List.foldl_nil]

theorem altMoves_valid (k : Nat) : ∀ m ∈ altMoves k, m.1 < 2 ∧ m.2 < 2 := by
  induction k with
  | zero =>
    intro m hm
    exact absurd hm (List.not_mem_nil m)
  | succ k ih =>
    intro m hm
    rw [altMoves, List.mem_append] at hm
    rcases hm with hm | hm
    · exact ih m hm
    · rcases List.mem_cons.mp hm with hm | hm
      · subst hm
        exact ⟨by norm_num, by norm_num⟩
      · rcases List.mem_cons.mp hm with hm | hm
        · subst hm
          exact ⟨by norm_num, by norm_num⟩
        · exact absurd hm (List.not_mem_nil m)

theorem k2Init_inv : CWLSInv k2Graph 2 k2Init :=
  cwlsInitialize_inv k2Graph k2Seed (fun _ => 0)
    (by unfold isPartition; refine ⟨by decide, by decide, by decide⟩)
    (by unfold isProperSol; decide)

theorem k2Run_inv (k : Nat) : CWLSInv k2Graph 2 (k2Run k) :=
  applyCWLSMoves_inv k2Graph 2 k2Init (altMoves k) k2Init_inv (altMoves_valid k)

theorem k2Final_moves_valid :
    ∀ m ∈ altMoves 65534 ++ [((0 : Nat), (1 : Nat))], m.1 < 2 ∧ m.2 < 2 := by
  intro m hm
  rcases List.mem_append.mp hm with hm | hm
  · exact altMoves_valid 65534 m hm
  · rcases List.mem_cons.mp hm with hm | hm
    · subst hm
      exact ⟨by norm_num, by norm_num⟩
    · exact absurd hm (List.not_mem_nil m)

theorem k2Final_inv : CWLSInv k2Graph 2 k2Final :=
  applyCWLSMoves_inv k2Graph 2 k2Init (altMoves 65534 ++ [(0, 1)]) k2Init_inv
    k2Final_moves_valid

/-- Round invariant of the create/restore runs: the coloring is restored and
the learned weight of the edge has been incremented (wrapping) once per
round. -/
theorem k2Run_char (k : Nat) :
    (k2Run k).colors 0 = 0 ∧ (k2Run k).colors 1 = 1 ∧
    gwF (k2Run k).weights 1 0 = ((k : Int) + 1) % 65536 := by
  induction k with
  | zero => refine ⟨by decide, by decide, by decide⟩
  | succ k ih =>
    obtain ⟨hc0, hc1, hw⟩ := ih
    have hsplit : k2Run (k + 1) =
        cwlsCommit k2Graph (cwlsCommit k2Graph (k2Run k) (0, 1)) (0, 0) := by
      rw [k2Run, altMoves, applyCWLSMoves, List.foldl_append]
      rfl
    have hadj : k2Graph.adj 0 1 = true := by decide
    have hcol1 : (cwlsCommit k2Graph (k2Run k) (0, 1)).colors =
        fupd (k2Run k).colors 0 1 := cwlsCommit_colors k2Graph (k2Run k) (0, 1)
    have hgw1 : gwF (cwlsCommit k2Graph (k2Run k) (0, 1)).weights 1 0 =
        if k2Graph.adj 0 1 = true ∧ (k2Run k).colors 1 = 1
        then (gwF (k2Run k).weights 1 0 + 1) % 65536
        else gwF (k2Run k).weights 1 0 :=
      cwlsCommit_gwF_v k2Graph (k2Run k) (0, 1) 1 (by decide)
    have hc11 : (cwlsCommit k2Graph (k2Run k) (0, 1)).colors 1 = 1 := by
      rw [hcol1, fupd_other _ _ _ _ (by norm_num : (1 : Nat) ≠ 0)]
      exact hc1
    have hcol2 : (cwlsCommit k2Graph (cwlsCommit k2Graph (k2Run k) (0, 1))
          (0, 0)).colors =
        fupd (cwlsCommit k2Graph (k2Run k) (0, 1)).colors 0 0 :=
      cwlsCommit_colors k2Graph (cwlsCommit k2Graph (k2Run k) (0, 1)) (0, 0)
    have hgw2 : gwF (cwlsCommit k2Graph (cwlsCommit k2Graph (k2Run k) (0, 1))
          (0, 0)).weights 1 0 =
        if k2Graph.adj 0 1 = true ∧
            (cwlsCommit k2Graph (k2Run k) (0, 1)).colors 1 = 0
        then (gwF (cwlsCommit k2Graph (k2Run k) (0, 1)).weights 1 0 + 1) % 65536
        else gwF (cwlsCommit k2Graph (k2Run k) (0, 1)).weights 1 0 :=
      cwlsCommit_gwF_v k2Graph (cwlsCommit k2Graph (k2Run k) (0, 1)) (0, 0) 1
        (by decide)
    have hcond2 : ¬(k2Graph.adj 0 1 = true ∧
        (cwlsCommit k2Graph (k2Run k) (0, 1)).colors 1 = 0) := by
      rw [hc11]
      intro h2
      exact absurd h2.2 (by norm_num)
    rw [hsplit]
    refine ⟨?_, ?_, ?_⟩
    · rw [hcol2, fupd_same]
    · rw [hcol2, fupd_other _ _ _ _ (by norm_num : (1 : Nat) ≠ 0)]
      exact hc11
    · rw [hgw2, if_neg hcond2, hgw1, if_pos (⟨hadj, hc1⟩ : _ ∧ _), hw]
      push_cast
      omega

/-- The final conflict-creating move merges the colors and wraps the edge
weight to 0. -/
theorem k2Final_colors :
    k2Final.colors 0 = 1 ∧ k2Final.colors 1 = 1 ∧
    gwF k2Final.weights 1 0 = 0 := by
  obtain ⟨hc0, hc1, hw⟩ := k2Run_char 65534
  have hsplit : k2Final = cwlsCommit k2Graph (k2Run 65534) (0, 1) :=
    applyCWLSMoves_concat k2Graph k2Init (altMoves 65534) (0, 1)
  have hcol1 : (cwlsCommit k2Graph (k2Run 65534) (0, 1)).colors =
      fupd (k2Run 65534).colors 0 1 := cwlsCommit_colors k2Graph (k2Run 65534) (0, 1)
  have hgw1 : gwF (cwlsCommit k2Graph (k2Run 65534) (0, 1)).weights 1 0 =
      if k2Graph.adj 0 1 = true ∧ (k2Run 65534).colors 1 = 1
      then (gwF (k2Run 65534).weights 1 0 + 1) % 65536
      else gwF (k2Run 65534).weights 1 0 :=
    cwlsCommit_gwF_v k2Graph (k2Run 65534) (0, 1) 1 (by decide)
  rw [hsplit]
  refine ⟨?_, ?_, ?_⟩
  · rw [hcol1, fupd_same]
  · rw [hcol1, fupd_other _ _ _ _ (by norm_num : (1 : Nat) ≠ 0)]
    exact hc1
  · rw [hgw1, if_pos (⟨by decide, hc1⟩ : _ ∧ _), hw]
    decide

/-- The exact total conflict weight of the wrapped final state is 0: the one
conflicting edge carries the wrapped weight 0. -/
theorem k2Final_twSpec :
    twSpec k2Graph k2Final.colors k2Final.weights = 0 := by
  obtain ⟨hc0, hc1, hgw⟩ := k2Final_colors
  have hconf : confPairs k2Graph k2Final.colors = {((1 : Nat), (0 : Nat))} := by
    ext e
    rw [confPairs, Finset.mem_filter, Finset.mem_product, Finset.mem_range,
      Finset.mem_range, Finset.mem_singleton]
    constructor
    · rintro ⟨⟨h1, h2⟩, hlt, hadj, hcol⟩
      have hn : k2Graph.n = 2 := rfl
      rw [hn] at h1 h2
      have he1 : e.1 = 1 := by omega
      have he2 : e.2 = 0 := by omega
      rw [Prod.ext_iff]
      exact ⟨he1, he2⟩
    · intro he
      subst he
      refine ⟨⟨by decide, by decide⟩, by decide, by decide, ?_⟩
      have h10 : ((1, 0) : Nat × Nat).1 = 1 := rfl
      have h20 : ((1, 0) : Nat × Nat).2 = 0 := rfl
      rw [h10, h20, hc1, hc0]
  rw [twSpec, hconf, Finset.sum_singleton]
  exact hgw

/-- The stored `u16` total weight of the final state is 0 although a
conflict is present. -/
theorem k2Final_tw_zero : k2Final.total_weight = 0 := by
  have htw : k2Final.total_weight =
      twSpec k2Graph k2Final.colors k2Final.weights % 65536 :=
    k2Final_inv.2.2.2.1
  rw [htw, k2Final_twSpec]
  norm_num

/-- Evaluation of `buildSol` on two classes when both vertices end up in
class 1. -/
theorem buildSol_two (cf : Nat → Nat) (h0 : cf 0 = 1) (h1 : cf 1 = 1) :
    buildSol 2 cf 2 = [[], [0, 1]] := by
  rw [buildSol, show List.range 2 = [0, 1] from rfl]
  simp only [List.foldl_cons, List.foldl_nil]
  rw [h0, h1]
  rfl

/-- At the wrapped zero the snapshot gate fires: the stored solution becomes
the class rebuild `[[], [0, 1]]` of the improper coloring. -/
theorem k2Final_sol : k2Final.current_sol = [[], [0, 1]] := by
  have hsplit : k2Final = cwlsCommit k2Graph (k2Run 65534) (0, 1) :=
    applyCWLSMoves_concat k2Graph k2Init (altMoves 65534) (0, 1)
  have h0 : (cwlsCommit k2Graph (k2Run 65534) (0, 1)).total_weight = 0 := by
    rw [← hsplit]
    exact k2Final_tw_zero
  have hs := cwlsCommit_sol_of_tw_zero k2Graph (k2Run 65534) (0, 1) h0
  have hnb : (k2Run 65534).nb_colors = 2 := (k2Run_inv 65534).2.2.2.2.2.2.2.2.1
  obtain ⟨hcA0, hcA1, _⟩ := k2Run_char 65534
  rw [hsplit, hs, hnb, show k2Graph.n = 2 from rfl]
  refine buildSol_two _ ?_ ?_
  · show fupd (k2Run 65534).colors 0 1 0 = 1
    rw [fupd_same]
  · show fupd (k2Run 65534).colors 0 1 1 = 1
    rw [fupd_other _ _ _ _ (by norm_num : (1 : Nat) ≠ 0)]
    exact hcA1

/-- Counterexample for C1: after 65534 create/restore rounds and one further
conflict-creating move on the single-edge graph (a sequence of committed
in-range moves from the feasible seed `{0}, {1}`), the edge weight has
wrapped to 0, the snapshot gate fires on an improper coloring, and the
reported solution `[[0, 1]]` puts both endpoints of the edge in one class:
the returned coloring is not feasible. -/
theorem C1_counterexample :
    ¬ isProperSol k2Graph (cwlsSolution k2Final) := by
  intro hp
  have hsol : cwlsSolution k2Final = [[0, 1]] := by
    rw [cwlsSolution, k2Final_sol]
    decide
  rw [hsol] at hp
  have hres := hp [0, 1] (by decide) 0 (by decide) 1 (by decide) (by norm_num)
  have hadj : k2Graph.adj 0 1 = true := by decide
  rw [hres] at hadj
  exact Bool.false_ne_true hadj

/-- C3 (corrected): in the CWLS core started from a feasible seed, after
initialization and after every committed `change_vertex_color`, the stored
`u16` `total_weight` always equals the exact total conflict weight reduced
modulo `2^16`; a proper coloring forces `total_weight = 0`; and in the
no-wrap regime (all in-range weights still ≥ 1 and exact total weight below
`2^16`) the claimed equivalence `total_weight = 0 ↔ proper` does hold. The
unconditional equivalence of the spec fails: the weights and the total are
wrapping `u16`, so `total_weight` can be 0 with conflicts present (see
`C3_counterexample`). -/
theorem C3_total_weight_zero_iff_proper (g : Graph) (sol : List (List Nat))
    (ρ : Nat → Int) (ms : List (Nat × Nat)) (hpart : isPartition g.n sol)
    (hprop : isProperSol g sol)
    (hms : ∀ m ∈ ms, m.1 < g.n ∧ m.2 < sol.length) :
    ((applyCWLSMoves g (cwlsInitialize g sol ρ) ms).total_weight =
      twSpec g (applyCWLSMoves g (cwlsInitialize g sol ρ) ms).colors
        (applyCWLSMoves g (cwlsInitialize g sol ρ) ms).weights % 65536) ∧
    (properColoring g (applyCWLSMoves g (cwlsInitialize g sol ρ) ms).colors →
      (applyCWLSMoves g (cwlsInitialize g sol ρ) ms).total_weight = 0) ∧
    (noWrap g (applyCWLSMoves g (cwlsInitialize g sol ρ) ms) →
      ((applyCWLSMoves g (cwlsInitialize g sol ρ) ms).total_weight = 0 ↔
        properColoring g (applyCWLSMoves g (cwlsInitialize g sol ρ) ms).colors)) := by
  obtain ⟨_, _, _, htw, _⟩ :=
    applyCWLSMoves_inv g sol.length (cwlsInitialize g sol ρ) ms
      (cwlsInitialize_inv g sol ρ hpart hprop) hms
  refine ⟨htw, ?_, ?_⟩
  · intro hp
    have h0 : twSpec g (applyCWLSMoves g (cwlsInitialize g sol ρ) ms).colors
        (applyCWLSMoves g (cwlsInitialize g sol ρ) ms).weights = 0 := by
      rw [twSpec, (confPairs_empty_iff g _).mpr hp, Finset.sum_empty]
    rw [htw, h0]
    norm_num
  · intro hnw
    have hge := twSpec_nonneg g
      (applyCWLSMoves g (cwlsInitialize g sol ρ) ms).colors
      (applyCWLSMoves g (cwlsInitialize g sol ρ) ms).weights
      (fun u v hu hv => hnw.1 u hu v hv)
    have hlt := hnw.2
    rw [htw, ← twSpec_zero_iff g
      (applyCWLSMoves g (cwlsInitialize g sol ρ) ms).colors
      (applyCWLSMoves g (cwlsInitialize g sol ρ) ms).weights
      (fun u v hu hv => hnw.1 u hu v hv)]
    omega

/-- Witness for C3 on the path graph after one committed recoloring move:
the mod identity and the two implications are instantiated, the no-wrap side
condition is discharged by evaluation, and the resulting equivalence is
exercised on the (improper, nonzero-weight) state. -/
theorem C3_total_weight_zero_iff_proper_witness :
    (isPartition pathGraph.n [[0, 2], [1]] ∧ isProperSol pathGraph [[0, 2], [1]] ∧
     (∀ m ∈ [((0 : Nat), (1 : Nat))],
       m.1 < pathGraph.n ∧ m.2 < ([[0, 2], [1]] : List (List Nat)).length)) ∧
    ((applyCWLSMoves pathGraph
        (cwlsInitialize pathGraph [[0, 2], [1]] (fun _ => 0)) [(0, 1)]).total_weight =
      twSpec pathGraph (applyCWLSMoves pathGraph
          (cwlsInitialize pathGraph [[0, 2], [1]] (fun _ => 0)) [(0, 1)]).colors
        (applyCWLSMoves pathGraph
          (cwlsInitialize pathGraph [[0, 2], [1]] (fun _ => 0)) [(0, 1)]).weights
        % 65536) ∧
    ((applyCWLSMoves pathGraph
        (cwlsInitialize pathGraph [[0, 2], [1]] (fun _ => 0)) [(0, 1)]).total_weight
        = 0 ↔
      properColoring pathGraph (applyCWLSMoves pathGraph
        (cwlsInitialize pathGraph [[0, 2], [1]] (fun _ => 0)) [(0, 1)]).colors) :=
  ⟨⟨by unfold isPartition; refine ⟨by decide, by decide, by decide⟩,
    by unfold isProperSol; decide,
    by decide⟩,
   (C3_total_weight_zero_iff_proper pathGraph [[0, 2], [1]] (fun _ => 0) [(0, 1)]
     (by unfold isPartition; refine ⟨by decide, by decide, by decide⟩)
     (by unfold isProperSol; decide)
     (by decide)).1,
   (C3_total_weight_zero_iff_proper pathGraph [[0, 2], [1]] (fun _ => 0) [(0, 1)]
     (by unfold isPartition; refine ⟨by decide, by decide, by decide⟩)
     (by unfold isProperSol; decide)
     (by decide)).2.2
     (by unfold noWrap; exact ⟨by decide, by decide⟩)⟩

/-- Counterexample for C3: after 65534 create/restore rounds and one further
conflict-creating move on the single-edge graph (committed in-range moves
from a feasible seed), the learned `u16` weight of the conflicting edge has
wrapped to 0, so the stored `total_weight` is 0 although the coloring is
improper: the unconditional `total_weight = 0 ↔ proper` fails. -/
theorem C3_counterexample :
    k2Final.total_weight = 0 ∧
    ¬ properColoring k2Graph k2Final.colors := by
  obtain ⟨hc0, hc1, hgw⟩ := k2Final_colors
  refine ⟨k2Final_tw_zero, ?_⟩
  intro hp
  exact hp 0 1 (by decide) (hc0.trans hc1.symm)

/-- C7: in the CWLS core started from a feasible seed, after initialization
and after every committed `change_vertex_color`, the per-vertex conflict
counts sum to twice `nb_conflicting_edges`, and `nb_conflicting_edges`
equals the number of edges whose endpoints currently share a color. -/
theorem C7_conflict_handshake (g : Graph) (sol : List (List Nat)) (ρ : Nat → Int)
    (ms : List (Nat × Nat)) (hpart : isPartition g.n sol) (hprop : isProperSol g sol)
    (hms : ∀ m ∈ ms, m.1 < g.n ∧ m.2 < sol.length) :
    (∑ x ∈ Finset.range g.n,
        (applyCWLSMoves g (cwlsInitialize g sol ρ) ms).vertex_nb_conflicts x) =
      2 * (applyCWLSMoves g (cwlsInitialize g sol ρ) ms).nb_conflicting_edges ∧
    (applyCWLSMoves g (cwlsInitialize g sol ρ) ms).nb_conflicting_edges =
      nbceSpec g (applyCWLSMoves g (cwlsInitialize g sol ρ) ms).colors := by
  obtain ⟨_, hvnc, hnbce, _⟩ :=
    applyCWLSMoves_inv g sol.length (cwlsInitialize g sol ρ) ms
      (cwlsInitialize_inv g sol ρ hpart hprop) hms
  constructor
  · rw [Finset.sum_congr rfl (fun x _ => hvnc x), hnbce, handshakeSpec]
  · exact hnbce

/-- Witness for C7 on the path graph after one committed recoloring move. -/
theorem C7_conflict_handshake_witness :
    isPartition pathGraph.n [[0, 2], [1]] ∧ isProperSol pathGraph [[0, 2], [1]] ∧
    (∀ m ∈ [((0 : Nat), (1 : Nat))],
      m.1 < pathGraph.n ∧ m.2 < ([[0, 2], [1]] : List (List Nat)).length) ∧
    ((∑ x ∈ Finset.range pathGraph.n,
        (applyCWLSMoves pathGraph
          (cwlsInitialize pathGraph [[0, 2], [1]] (fun _ => 0))
          [(0, 1)]).vertex_nb_conflicts x) =
      2 * (applyCWLSMoves pathGraph
          (cwlsInitialize pathGraph [[0, 2], [1]] (fun _ => 0))
          [(0, 1)]).nb_conflicting_edges ∧
     (applyCWLSMoves pathGraph
          (cwlsInitialize pathGraph [[0, 2], [1]] (fun _ => 0))
          [(0, 1)]).nb_conflicting_edges =
      nbceSpec pathGraph (applyCWLSMoves pathGraph
          (cwlsInitialize pathGraph [[0, 2], [1]] (fun _ => 0)) [(0, 1)]).colors) :=
  ⟨by unfold isPartition; refine ⟨by decide, by decide, by decide⟩,
   by unfold isProperSol; decide,
   by decide,
   C7_conflict_handshake pathGraph [[0, 2], [1]] (fun _ => 0) [(0, 1)]
     (by unfold isPartition; refine ⟨by decide, by decide, by decide⟩)
     (by unfold isProperSol; decide)
     (by decide)⟩

end DogsColor
